import Mathlib

/-!
# Verification of the systemfehler federal crawler core

A shallow embedding of the targeting / resolution / ledger logic of
`crawlers/benefits/federal_crawler.py` and the URL normalizer of
`crawlers/shared/base_crawler.py`, together with proofs about the
claims of the specification.

Modeling conventions:
* Python strings are modeled as `List Char` (Unicode scalar values).
  `str.lower()` is modeled on the ASCII range via `Char.toLower`.
* The relevant parts of Python's `urllib.parse` (as of CPython 3.11) are
  embedded faithfully: `urlsplit` / `urlparse` / `urlunparse`, `parse_qs`,
  `urlencode` with `quote_plus`, and `unquote` including UTF-8
  percent-decoding with replacement characters.  The `ValueError` raises of
  `urlsplit` for malformed bracketed hosts / NFKC-unsafe netlocs are not
  modeled (those inputs raise in Python before any claim-relevant behavior).
* Network and HTML-extraction collaborators are abstracted as environment
  functions (`CrawlEnv`, `NetEnv`); failure modes are `Option` / `Except`.
-/

set_option maxHeartbeats 2000000
set_option maxRecDepth 4096

namespace Systemfehler

/-- Python strings, modeled as lists of Unicode scalar values. -/
abbrev PyStr := List Char

/-- `str.lower()`, modeled on the ASCII range. -/
def pyLower (s : PyStr) : PyStr := s.map Char.toLower

/-- `str.endswith(suf)`. -/
def pyEndsWith (s suf : PyStr) : Bool := suf.isSuffixOf s

/-- Index of the first occurrence of `c` in `s` (Python `str.find`, as an `Option`). -/
def pyFind (s : PyStr) (c : Char) : Option Nat :=
  match s with
  | [] => none
  | a :: rest => if a = c then some 0 else (pyFind rest c).map (· + 1)

/-- Index of the last occurrence of `c` in `s` (Python `str.rfind`, as an `Option`). -/
def pyRFind (s : PyStr) (c : Char) : Option Nat :=
  (pyFind s.reverse c).map (fun i => s.length - 1 - i)

/-- First occurrence of `c` at or after index `start` (Python `str.find(c, start)`). -/
def pyFindFrom (s : PyStr) (c : Char) (start : Nat) : Option Nat :=
  (pyFind (s.drop start) c).map (· + start)

/-- Python `str.split(c, 1)`: the parts before and after the first occurrence of `c`. -/
def pySplitOnce (s : PyStr) (c : Char) : Option (PyStr × PyStr) :=
  match s with
  | [] => none
  | a :: rest =>
    if a = c then some ([], rest)
    else (pySplitOnce rest c).map (fun p => (a :: p.1, p.2))

/-- Python `str.split(c)` (full split on a single-character separator). -/
def pySplitAll (s : PyStr) (c : Char) : List PyStr :=
  let r := s.foldr
    (fun ch acc => if ch = c then ([], acc.1 :: acc.2) else (ch :: acc.1, acc.2))
    ([], [])
  r.1 :: r.2

/-- Python `sep.join(pieces)` for a single-character separator. -/
def pyIntercalate (c : Char) : List PyStr → PyStr
  | [] => []
  | [x] => x
  | x :: y :: rest => x ++ c :: pyIntercalate c (y :: rest)

/-- Python `str.partition(c)`: `(before, found?, after)` at the first occurrence. -/
def pyPartition (s : PyStr) (c : Char) : PyStr × Bool × PyStr :=
  match pySplitOnce s c with
  | some p => (p.1, true, p.2)
  | none => (s, false, [])

/-- Python `str.rpartition(c)`: `(before, found?, after)` at the last occurrence. -/
def pyRPartition (s : PyStr) (c : Char) : PyStr × Bool × PyStr :=
  match pyRFind s c with
  | some i => (s.take i, true, s.drop (i + 1))
  | none => ([], false, s)

/-- Python `str.strip()` (whitespace strip, modeled on ASCII whitespace). -/
def pyStrip (s : PyStr) : PyStr :=
  ((s.dropWhile Char.isWhitespace).reverse.dropWhile Char.isWhitespace).reverse

/-- Boolean duplicate-freeness check for lists of strings. -/
def pyNodup : List PyStr → Bool
  | [] => true
  | x :: rest => !(rest.contains x) && pyNodup rest

/-! ## UTF-8 and percent-coding (urllib.parse quote/unquote machinery) -/

/-- UTF-8 encoding of one Unicode scalar value (`str.encode("utf-8")`, per char). -/
def utf8EncodeChar (c : Char) : List Nat :=
  let n := c.toNat
  if n < 0x80 then [n]
  else if n < 0x800 then [0xC0 + n / 64, 0x80 + n % 64]
  else if n < 0x10000 then [0xE0 + n / 4096, 0x80 + (n / 64) % 64, 0x80 + n % 64]
  else [0xF0 + n / 262144, 0x80 + (n / 4096) % 64, 0x80 + (n / 64) % 64, 0x80 + n % 64]

/-- UTF-8 encoding of a string as a byte sequence. -/
def utf8Encode (s : PyStr) : List Nat := (s.map utf8EncodeChar).flatten

/-- The U+FFFD replacement character. -/
def replChar : Char := Char.ofNat 0xFFFD

/-- `bytes.decode("utf-8", "replace")`: incremental UTF-8 decoding where each
maximal invalid subpart is replaced by U+FFFD (CPython's error handling). -/
def utf8DecodeReplace : List Nat → PyStr
  | [] => []
  | b :: bs =>
    if b < 0x80 then Char.ofNat b :: utf8DecodeReplace bs
    else if b < 0xC2 then replChar :: utf8DecodeReplace bs
    else if b < 0xE0 then
      match bs with
      | b1 :: bs1 =>
        if 0x80 ≤ b1 ∧ b1 ≤ 0xBF then
          Char.ofNat ((b - 0xC0) * 64 + (b1 - 0x80)) :: utf8DecodeReplace bs1
        else replChar :: utf8DecodeReplace (b1 :: bs1)
      | [] => [replChar]
    else if b < 0xF0 then
      match bs with
      | b1 :: bs1 =>
        if (if b = 0xE0 then 0xA0 else 0x80) ≤ b1 ∧ b1 ≤ (if b = 0xED then 0x9F else 0xBF) then
          match bs1 with
          | b2 :: bs2 =>
            if 0x80 ≤ b2 ∧ b2 ≤ 0xBF then
              Char.ofNat ((b - 0xE0) * 4096 + (b1 - 0x80) * 64 + (b2 - 0x80)) ::
                utf8DecodeReplace bs2
            else replChar :: utf8DecodeReplace (b2 :: bs2)
          | [] => [replChar]
        else replChar :: utf8DecodeReplace (b1 :: bs1)
      | [] => [replChar]
    else if b < 0xF5 then
      match bs with
      | b1 :: bs1 =>
        if (if b = 0xF0 then 0x90 else 0x80) ≤ b1 ∧ b1 ≤ (if b = 0xF4 then 0x8F else 0xBF) then
          match bs1 with
          | b2 :: bs2 =>
            if 0x80 ≤ b2 ∧ b2 ≤ 0xBF then
              match bs2 with
              | b3 :: bs3 =>
                if 0x80 ≤ b3 ∧ b3 ≤ 0xBF then
                  Char.ofNat
                      ((b - 0xF0) * 262144 + (b1 - 0x80) * 4096 + (b2 - 0x80) * 64 + (b3 - 0x80)) ::
                    utf8DecodeReplace bs3
                else replChar :: utf8DecodeReplace (b3 :: bs3)
              | [] => [replChar]
            else replChar :: utf8DecodeReplace (b2 :: bs2)
          | [] => [replChar]
        else replChar :: utf8DecodeReplace (b1 :: bs1)
      | [] => [replChar]
    else replChar :: utf8DecodeReplace bs

/-- Hexadecimal digit check (`string.hexdigits` membership of `unquote`). -/
def isHexDigitPy (c : Char) : Bool :=
  ('0' ≤ c && c ≤ '9') || ('a' ≤ c && c ≤ 'f') || ('A' ≤ c && c ≤ 'F')

/-- Value of a hexadecimal digit. -/
def hexVal (c : Char) : Nat :=
  if c ≤ '9' then c.toNat - 48 else if c ≤ 'F' then c.toNat - 55 else c.toNat - 87

/-- `urllib.parse.unquote_to_bytes` on an ASCII chunk: `%XX` pairs with valid hex
digits become single bytes, everything else passes through byte-for-byte. -/
def percentDecodeBytes : PyStr → List Nat
  | [] => []
  | c :: rest =>
    if c = '%' then
      match rest with
      | a :: b :: rest2 =>
        if isHexDigitPy a ∧ isHexDigitPy b then
          (hexVal a * 16 + hexVal b) :: percentDecodeBytes rest2
        else 0x25 :: percentDecodeBytes (a :: b :: rest2)
      | [] => [0x25]
      | [a] => 0x25 :: percentDecodeBytes [a]
    else c.toNat :: percentDecodeBytes rest
termination_by s => s.length
decreasing_by all_goals simp <;> omega

/-- ASCII-range check (`_asciire` chunking of `unquote`). -/
def isAsciiChar (c : Char) : Bool := c.toNat < 0x80

/-- The chunk walk of `urllib.parse.unquote`: non-ASCII runs pass through
verbatim; each maximal ASCII run is percent-decoded to bytes and decoded as
UTF-8 with replacement. -/
def unquoteChunks (s : PyStr) : PyStr :=
  if s = [] then []
  else
    let nonA := s.takeWhile (fun c => !(isAsciiChar c))
    let rest := s.dropWhile (fun c => !(isAsciiChar c))
    let chunk := rest.takeWhile isAsciiChar
    let rest2 := rest.dropWhile isAsciiChar
    nonA ++ utf8DecodeReplace (percentDecodeBytes chunk) ++ unquoteChunks rest2
termination_by s.length
decreasing_by
  simp_wf
  rename_i hne
  have hsuf : ∀ (l : List Char) (p : Char → Bool), (l.dropWhile p).length ≤ l.length := by
    intro l p
    induction l with
    | nil => simp
    | cons x xs ih =>
      by_cases h : p x
      · rw [List.dropWhile_cons_of_pos h]; simp; omega
      · rw [List.dropWhile_cons_of_neg h]
  have hhead : ∀ (l : List Char) (p : Char → Bool) (a : Char) (t : List Char),
      l.dropWhile p = a :: t → p a = false := by
    intro l p
    induction l with
    | nil => intro a t h; simp at h
    | cons x xs ih =>
      intro a t h
      by_cases hx : p x
      · rw [List.dropWhile_cons_of_pos hx] at h; exact ih a t h
      · rw [List.dropWhile_cons_of_neg hx] at h
        cases h
        simpa using hx
  rcases hd : s.dropWhile (fun c => !(isAsciiChar c)) with _ | ⟨a, t⟩
  · simp
    cases s with
    | nil => exact absurd rfl hne
    | cons x xs => simp
  · have ha : isAsciiChar a = true := by
      have := hhead s (fun c => !(isAsciiChar c)) a t hd
      simpa using this
    have h1 : (s.dropWhile fun c => !(isAsciiChar c)).length ≤ s.length := hsuf s _
    rw [hd] at h1
    rw [List.dropWhile_cons_of_pos ha]
    have h3 : (t.dropWhile isAsciiChar).length ≤ t.length := hsuf t _
    simp at h1
    omega

/-- `urllib.parse.unquote(s)` with the default `utf-8` / `replace` arguments. -/
def pyUnquote (s : PyStr) : PyStr :=
  if s.contains '%' then unquoteChunks s else s

/-- `str.replace("+", " ")` (applied by `parse_qsl` before unquoting). -/
def pyPlusToSpace (s : PyStr) : PyStr := s.map (fun c => if c = '+' then ' ' else c)

/-- The always-safe byte set of `urllib.parse.quote` (alphanumerics and `_.-~`). -/
def isSafeByte (b : Nat) : Bool :=
  (0x41 ≤ b && b ≤ 0x5A) || (0x61 ≤ b && b ≤ 0x7A) || (0x30 ≤ b && b ≤ 0x39) ||
    b == 0x5F || b == 0x2E || b == 0x2D || b == 0x7E

/-- Upper-case hexadecimal digit (percent-encoding uses `%{:02X}`). -/
def hexUpper (n : Nat) : Char :=
  if n < 10 then Char.ofNat (48 + n) else Char.ofNat (55 + n)

/-- Per-byte action of `urllib.parse.quote_plus` with `safe=''`:
space becomes `+`, safe bytes stay, everything else is `%XX`. -/
def quoteByte (b : Nat) : PyStr :=
  if b = 0x20 then ['+']
  else if isSafeByte b then [Char.ofNat b]
  else ['%', hexUpper (b / 16), hexUpper (b % 16)]

/-- `urllib.parse.quote_plus(s)` with `safe=''` (the `urlencode` default). -/
def pyQuotePlus (s : PyStr) : PyStr := ((utf8Encode s).map quoteByte).flatten

/-! ## urllib.parse: urlsplit / urlparse / urlunparse (CPython 3.11) -/

/-- WHATWG C0-control-or-space characters stripped from the start of a URL. -/
def isC0OrSpace (c : Char) : Bool := c.toNat ≤ 0x20

/-- The unsafe bytes `\t`, `\r`, `\n` removed everywhere in a URL. -/
def isRemovedByte (c : Char) : Bool := c = '\t' || c = '\r' || c = '\n'

/-- Characters valid in scheme names (`urllib.parse.scheme_chars`). -/
def isSchemeChar (c : Char) : Bool :=
  c.isAlpha || c.isDigit || c == '+' || c == '-' || c == '.'

/-- The netloc delimiters of `_splitnetloc`. -/
def isNetlocDelim (c : Char) : Bool := c == '/' || c == '?' || c == '#'

/-- Result of `urllib.parse.urlsplit` (`pathPart` is its `url` component). -/
structure UrlSplitResult where
  scheme : PyStr
  netloc : PyStr
  pathPart : PyStr
  query : PyStr
  fragment : PyStr
deriving Repr, DecidableEq

/-- `urllib.parse.urlsplit(url)` with default arguments.  The `ValueError`
raises for unbalanced brackets / NFKC-unsafe netlocs are not modeled. -/
def pyUrlsplit (url0 : PyStr) : UrlSplitResult :=
  let url1 := (url0.dropWhile isC0OrSpace).filter (fun c => !(isRemovedByte c))
  let schemeSplit :=
    match pyFind url1 ':' with
    | some i =>
      if 0 < i ∧ (url1.take 1).all Char.isAlpha ∧ (url1.take i).all isSchemeChar then
        (pyLower (url1.take i), url1.drop (i + 1))
      else ([], url1)
    | none => ([], url1)
  let url2 := schemeSplit.2
  let netlocSplit :=
    if url2.take 2 = ['/', '/'] then
      ((url2.drop 2).takeWhile (fun c => !(isNetlocDelim c)),
        (url2.drop 2).dropWhile (fun c => !(isNetlocDelim c)))
    else ([], url2)
  let url3 := netlocSplit.2
  let fragSplit :=
    match pySplitOnce url3 '#' with
    | some p => p
    | none => (url3, [])
  let querySplit :=
    match pySplitOnce fragSplit.1 '?' with
    | some p => p
    | none => (fragSplit.1, [])
  ⟨schemeSplit.1, netlocSplit.1, querySplit.1, querySplit.2, fragSplit.2⟩

/-- Result of `urllib.parse.urlparse`. -/
structure UrlParseResult where
  scheme : PyStr
  netloc : PyStr
  path : PyStr
  params : PyStr
  query : PyStr
  fragment : PyStr
deriving Repr, DecidableEq

/-- `urllib.parse.uses_params`. -/
def usesParams : List PyStr :=
  [[], ("ftp").data, ("hdl").data, ("prospero").data, ("http").data, ("imap").data,
    ("https").data, ("shttp").data, ("rtsp").data, ("rtsps").data, ("rtspu").data,
    ("sip").data, ("sips").data, ("mms").data, ("sftp").data, ("tel").data]

/-- `urllib.parse.uses_netloc`. -/
def usesNetloc : List PyStr :=
  [[], ("ftp").data, ("http").data, ("gopher").data, ("nntp").data, ("telnet").data,
    ("imap").data, ("wais").data, ("file").data, ("mms").data, ("https").data,
    ("shttp").data, ("snews").data, ("prospero").data, ("rtsp").data, ("rtsps").data,
    ("rtspu").data, ("rsync").data, ("svn").data, ("svn+ssh").data, ("sftp").data,
    ("nfs").data, ("git").data, ("git+ssh").data, ("ws").data, ("wss").data]

/-- `urllib.parse._splitparams` (total model; its callers guarantee `';' in url`). -/
def pySplitParams (url : PyStr) : PyStr × PyStr :=
  if url.contains '/' then
    match pyFindFrom url ';' ((pyRFind url '/').getD 0) with
    | none => (url, [])
    | some i => (url.take i, url.drop (i + 1))
  else
    match pyFind url ';' with
    | none => (url, [])
    | some i => (url.take i, url.drop (i + 1))

/-- `urllib.parse.urlparse(url)` with default arguments. -/
def pyUrlparse (url : PyStr) : UrlParseResult :=
  let s := pyUrlsplit url
  if s.scheme ∈ usesParams ∧ s.pathPart.contains ';' then
    let pp := pySplitParams s.pathPart
    ⟨s.scheme, s.netloc, pp.1, pp.2, s.query, s.fragment⟩
  else
    ⟨s.scheme, s.netloc, s.pathPart, [], s.query, s.fragment⟩

/-- `urllib.parse.urlunsplit`. -/
def pyUrlunsplit (scheme netloc url query fragment : PyStr) : PyStr :=
  let url :=
    if netloc ≠ [] ∨ (scheme ≠ [] ∧ scheme ∈ usesNetloc ∧ url.take 2 ≠ ['/', '/']) then
      let u := if url ≠ [] ∧ url.take 1 ≠ ['/'] then '/' :: url else url
      '/' :: '/' :: (netloc ++ u)
    else url
  let url := if scheme ≠ [] then scheme ++ ':' :: url else url
  let url := if query ≠ [] then url ++ '?' :: query else url
  if fragment ≠ [] then url ++ '#' :: fragment else url

/-- `urllib.parse.urlunparse`. -/
def pyUrlunparse (scheme netloc path params query fragment : PyStr) : PyStr :=
  let u := if params ≠ [] then path ++ ';' :: params else path
  pyUrlunsplit scheme netloc u query fragment

/-! ## urllib.parse: parse_qs / urlencode -/

/-- `urllib.parse.parse_qsl(qs)` with default arguments (`keep_blank_values=False`,
separator `&`): pairs without `=` or with an empty value are dropped; names and
values get `+`-to-space replacement and percent-unquoting. -/
def pyParseQsl (qs : PyStr) : List (PyStr × PyStr) :=
  let args := if qs = [] then [] else pySplitAll qs '&'
  args.foldr
    (fun nv acc =>
      if nv = [] then acc
      else
        match pySplitOnce nv '=' with
        | none => acc
        | some p =>
          if p.2 = [] then acc
          else (pyUnquote (pyPlusToSpace p.1), pyUnquote (pyPlusToSpace p.2)) :: acc)
    []

/-- Insertion into the ordered dict built by `parse_qs` (first-seen key order,
values appended in encounter order). -/
def qsInsert (d : List (PyStr × List PyStr)) (k : PyStr) (v : PyStr) :
    List (PyStr × List PyStr) :=
  match d with
  | [] => [(k, [v])]
  | (k', vs) :: rest => if k' = k then (k', vs ++ [v]) :: rest else (k', vs) :: qsInsert rest k v

/-- `urllib.parse.parse_qs(qs)`, as an ordered association list. -/
def pyParseQs (qs : PyStr) : List (PyStr × List PyStr) :=
  (pyParseQsl qs).foldl (fun d kv => qsInsert d kv.1 kv.2) []

/-- Code-point lexicographic comparison of Python strings (`str.__lt__`). -/
def pyStrLt : PyStr → PyStr → Bool
  | [], [] => false
  | [], _ :: _ => true
  | _ :: _, [] => false
  | a :: s, b :: t => if a.toNat < b.toNat then true else if b.toNat < a.toNat then false else pyStrLt s t

/-- Insertion step of sorting key/value-list pairs by key. -/
def sortInsertPair (x : PyStr × List PyStr) :
    List (PyStr × List PyStr) → List (PyStr × List PyStr)
  | [] => [x]
  | y :: rest => if pyStrLt y.1 x.1 then y :: sortInsertPair x rest else x :: y :: rest

/-- `sorted(d.items())` for the parameter dict (keys are distinct, so sorting
compares keys only). -/
def pySortPairs (l : List (PyStr × List PyStr)) : List (PyStr × List PyStr) :=
  l.foldr sortInsertPair []

/-- `urllib.parse.urlencode(pairs, doseq=True)` with the default `quote_plus`. -/
def pyUrlencode (l : List (PyStr × List PyStr)) : PyStr :=
  pyIntercalate '&'
    ((l.map (fun kv => kv.2.map (fun v => pyQuotePlus kv.1 ++ '=' :: pyQuotePlus v))).flatten)

/-! ## BaseCrawler.normalize_url -/

/-- The fixed tracking-parameter denylist of `normalize_url`. -/
def trackingParams : List PyStr :=
  [("utm_source").data, ("utm_medium").data, ("utm_campaign").data, ("utm_term").data,
    ("utm_content").data, ("fbclid").data, ("gclid").data, ("ref").data, ("source").data,
    ("mc_cid").data, ("mc_eid").data]

/-- The default-port strip of `normalize_url`: drop a trailing `:80` or `:443`. -/
def pyStripPort (netloc : PyStr) : PyStr :=
  if pyEndsWith netloc ((":80").data) then netloc.take (netloc.length - 3)
  else if pyEndsWith netloc ((":443").data) then netloc.take (netloc.length - 4)
  else netloc

/-- The trailing-slash strip of `normalize_url`: remove one trailing slash from
a non-root path. -/
def pyStripTrailingSlash (path : PyStr) : PyStr :=
  if path ≠ ['/'] ∧ pyEndsWith path (("/").data) then path.take (path.length - 1) else path

/-- `BaseCrawler.normalize_url` (crawlers/shared/base_crawler.py): lowercase the
host, strip default ports, drop tracking query parameters, re-encode the
remaining query sorted by key, strip one trailing slash from non-root paths,
and drop the fragment. -/
def normalize_url (url : PyStr) : PyStr :=
  let parsed := pyUrlparse url
  let netloc := pyStripPort (pyLower parsed.netloc)
  let queryParams := pyParseQs parsed.query
  let cleanedParams := queryParams.filter (fun kv => !(trackingParams.contains kv.1))
  let sortedQuery := pyUrlencode (pySortPairs cleanedParams)
  let path := pyStripTrailingSlash parsed.path
  pyUrlunparse parsed.scheme netloc path parsed.params sortedQuery []

/-! ## Failure Ledger (`_record_failed_urls` and friends) -/

/-- One line of `failed_urls.jsonl`.  `failCount`, `lastFailure` and `reason`
are optional because loaded records only guarantee `source` and `url`. -/
structure FailureRecord where
  source : PyStr
  url : PyStr
  failCount : Option Nat
  lastFailure : Option PyStr
  reason : Option PyStr
deriving Repr, DecidableEq

/-- The recovered-URL removal pass of `_record_failed_urls`. -/
def removeRecovered (records : List FailureRecord) (src : PyStr)
    (recovered : List PyStr) : List FailureRecord :=
  if recovered ≠ [] then
    records.filter (fun r => !(r.source == src && recovered.contains r.url))
  else records

/-- One failed `(url, reason)`: update the first existing `(source, url)` record
(`next(...)` returns the first match) or insert a fresh one.  An empty reason
leaves the stored reason unchanged (`if reason:`). -/
def applyFailure : List FailureRecord → PyStr → PyStr → PyStr → PyStr → List FailureRecord
  | [], src, u, reason, now =>
    [{ source := src, url := u, failCount := some 1, lastFailure := some now,
       reason := if reason ≠ [] then some reason else none }]
  | r :: rest, src, u, reason, now =>
    if r.source = src ∧ r.url = u then
      { r with lastFailure := some now,
               failCount := some ((r.failCount.getD 1) + 1),
               reason := if reason ≠ [] then some reason else r.reason } :: rest
    else r :: applyFailure rest src u reason now

/-- `FederalSourceCrawler._record_failed_urls(source, failures, recovered)`:
remove recovered records for the source, then apply each failure in order
(skipping empty URLs); `now` is the single timestamp taken for the call.
The returned list is exactly what `_persist_failed_url_records` writes. -/
def recordFailedUrls (records : List FailureRecord) (src : PyStr)
    (failures : List (PyStr × PyStr)) (recovered : List PyStr) (now : PyStr) :
    List FailureRecord :=
  let records := removeRecovered records src recovered
  if failures ≠ [] then
    failures.foldl
      (fun recs f => if f.1 = [] then recs else applyFailure recs src f.1 f.2 now)
      records
  else records

/-- `_load_failed_urls(seed_name)`: pending retry URLs of one source. -/
def loadFailedUrls (records : List FailureRecord) (seedName : PyStr) : List PyStr :=
  if seedName = [] then []
  else (records.filter (fun r => r.source == seedName)).map (·.url)

/-- Boolean check that every `(source, url)` pair occurs at most once. -/
def ledgerKeyUnique : List FailureRecord → Bool
  | [] => true
  | r :: rest =>
    rest.all (fun r2 => !(r2.source == r.source && r2.url == r.url)) && ledgerKeyUnique rest

/-! ## Crawl orchestrator (`crawl`) -/

/-- `FederalSourceCrawler.crawl`: process the seed groups in order; a group
whose processing raises (`Except.error`) is logged and skipped, the entries of
all other groups are concatenated.  `process` abstracts `_crawl_seed_group`. -/
def crawl {α β ε : Type} (process : α → Except ε (List β)) (seedGroups : List α) : List β :=
  seedGroups.foldl
    (fun acc g =>
      match process g with
      | Except.ok entries => acc ++ entries
      | Except.error _ => acc)
    []

/-! ## Seed groups, robots metadata, XML and the sitemap resolver -/

/-- A seed group from the federal registry. -/
structure SeedGroup where
  name : PyStr
  startUrls : List PyStr
  allowedDomains : List PyStr
  defaultTopic : Option PyStr
  providerName : Option PyStr
  providerLevel : Option PyStr

/-- Robots metadata per origin (`_get_robots_metadata` output). -/
structure RobotsMetadata where
  allowedPaths : List PyStr
  sitemaps : List PyStr

/-- An XML element: tag, text content, and child elements. -/
inductive XmlElem where
  | mk (tag : PyStr) (text : PyStr) (children : List XmlElem)

/-- Tag of an XML element. -/
def XmlElem.tag : XmlElem → PyStr
  | XmlElem.mk t _ _ => t

/-- Text of an XML element (`elem.text or ""`). -/
def XmlElem.text : XmlElem → PyStr
  | XmlElem.mk _ t _ => t

/-- Children of an XML element. -/
def XmlElem.children : XmlElem → List XmlElem
  | XmlElem.mk _ _ c => c

/-- `ElementTree.Element.iter()`: the element and all descendants, preorder. -/
def xmlIter : XmlElem → List XmlElem
  | XmlElem.mk t x c => XmlElem.mk t x c :: (c.attach.map (fun e => xmlIter e.1)).flatten
decreasing_by
  have := List.sizeOf_lt_of_mem e.2
  simp at this ⊢
  omega

/-- Environment of the target-discovery phase: robots metadata per origin and
the fetch-plus-XML-parse of one sitemap URL (`None` models a request failure
or an XML parse error, both of which yield zero URLs in the code). -/
structure CrawlEnv where
  robotsOf : PyStr → RobotsMetadata
  fetchSitemap : PyStr → Option XmlElem

/-- `FederalSourceCrawler._local_tag`. -/
def localTag (tag : PyStr) : PyStr :=
  if tag = [] then []
  else
    match pySplitOnce tag '}' with
    | some p => pyLower p.2
    | none => pyLower tag

/-- `FederalSourceCrawler._is_in_allowed_domains`. -/
def isInAllowedDomains (url : PyStr) (allowedDomains : List PyStr) : Bool :=
  if allowedDomains = [] then true
  else
    let netloc := pyLower (pyUrlparse url).netloc
    allowedDomains.any (fun d => d ≠ [] && pyEndsWith netloc d)

/-- `EXCLUDED_LINK_KEYWORDS`. -/
def excludedLinkKeywords : List PyStr :=
  [("datenschutz").data, ("privacy").data, ("impressum").data, ("barriere").data,
    ("cookie").data]

/-- Python's substring test `needle in haystack`. -/
def pyInStr (needle haystack : PyStr) : Bool :=
  match haystack with
  | [] => needle == []
  | _ :: rest => needle.isPrefixOf haystack || pyInStr needle rest

/-- `FederalSourceCrawler._should_skip_link`. -/
def shouldSkipLink (text url : PyStr) : Bool :=
  let haystack := pyLower (text ++ ' ' :: url)
  excludedLinkKeywords.any (fun k => pyInStr k haystack)

/-- `MAX_ALLOWED_PATHS`. -/
def MAX_ALLOWED_PATHS : Nat := 25

/-- `MAX_SITEMAP_URLS`. -/
def MAX_SITEMAP_URLS : Nat := 500

/-- `MAX_SITEMAP_DEPTH`. -/
def MAX_SITEMAP_DEPTH : Nat := 2

/-- `f"{scheme}://{netloc}"`. -/
def originOf (scheme netloc : PyStr) : PyStr := scheme ++ ':' :: '/' :: '/' :: netloc

/-- The first `loc` child's stripped text (`for child in ...: if loc: break`). -/
def findLoc : List XmlElem → Option PyStr
  | [] => none
  | c :: rest => if localTag c.tag = ("loc").data then some (pyStrip c.text) else findLoc rest

/-- `for candidate in nested: if len(urls) >= MAX_SITEMAP_URLS: break; urls.append(...)`. -/
def appendCapped (urls : List PyStr) : List PyStr → List PyStr
  | [] => urls
  | c :: rest =>
    if MAX_SITEMAP_URLS ≤ urls.length then urls else appendCapped (urls ++ [c]) rest

/-- The `urlset` branch of `_fetch_sitemap_urls`. -/
def urlsetLoop (allowedDomains : List PyStr) : List XmlElem → List PyStr → List PyStr
  | [], urls => urls
  | e :: rest, urls =>
    if MAX_SITEMAP_URLS ≤ urls.length then urls
    else if localTag e.tag ≠ ("url").data then urlsetLoop allowedDomains rest urls
    else
      let locValue := (findLoc e.children).getD []
      if locValue = [] then urlsetLoop allowedDomains rest urls
      else if !(isInAllowedDomains locValue allowedDomains) then
        urlsetLoop allowedDomains rest urls
      else urlsetLoop allowedDomains rest (urls ++ [locValue])

/-- The generic `loc`-scan branch of `_fetch_sitemap_urls` (unknown root tag). -/
def genericLocLoop (allowedDomains : List PyStr) : List XmlElem → List PyStr → List PyStr
  | [], urls => urls
  | e :: rest, urls =>
    if MAX_SITEMAP_URLS ≤ urls.length then urls
    else if localTag e.tag ≠ ("loc").data then genericLocLoop allowedDomains rest urls
    else
      let v := pyStrip e.text
      if v = [] then genericLocLoop allowedDomains rest urls
      else if !(isInAllowedDomains v allowedDomains) then genericLocLoop allowedDomains rest urls
      else genericLocLoop allowedDomains rest (urls ++ [v])

/-- The `sitemapindex` branch of `_fetch_sitemap_urls`: for each `sitemap`
child with a usable `loc`, recurse via `fetchChild` (the fetch at `depth + 1`),
appending the collected URLs under the cap and threading `visited` / the fetch
log. -/
def sitemapIndexLoop
    (fetchChild : PyStr → List PyStr → List PyStr → List PyStr × List PyStr × List PyStr)
    (allowedDomains : List PyStr) :
    List XmlElem → List PyStr → List PyStr → List PyStr →
      List PyStr × List PyStr × List PyStr
  | [], urls, visited, log => (urls, visited, log)
  | sm :: rest, urls, visited, log =>
    if MAX_SITEMAP_URLS ≤ urls.length then (urls, visited, log)
    else if localTag sm.tag ≠ ("sitemap").data then
      sitemapIndexLoop fetchChild allowedDomains rest urls visited log
    else
      let childLoc := (findLoc sm.children).getD []
      if childLoc = [] ∨ pyEndsWith childLoc ((".gz").data) then
        sitemapIndexLoop fetchChild allowedDomains rest urls visited log
      else if !(isInAllowedDomains childLoc allowedDomains) then
        sitemapIndexLoop fetchChild allowedDomains rest urls visited log
      else
        let r := fetchChild childLoc visited log
        sitemapIndexLoop fetchChild allowedDomains rest (appendCapped urls r.1) r.2.1 r.2.2

/-- `FederalSourceCrawler._fetch_sitemap_urls`, structured on a `fuel`
argument that the wrapper instantiates with `MAX_SITEMAP_DEPTH + 1 - depth`;
the `fuel = 0` branch coincides with the `depth > MAX_SITEMAP_DEPTH` guard and
is unreachable under that instantiation.  Returns `(urls, visited', log')`
where `log'` instruments the model: it appends the normalized form of every
sitemap URL for which `session.get` is actually issued. -/
def fetchSitemapAux (env : CrawlEnv) (allowedDomains : List PyStr) :
    Nat → PyStr → List PyStr → List PyStr → Nat →
      List PyStr × List PyStr × List PyStr
  | fuel, sitemapUrl, visited, log, depth =>
    if MAX_SITEMAP_DEPTH < depth then ([], visited, log)
    else
      match fuel with
      | 0 => ([], visited, log)
      | fuel' + 1 =>
        let normalized := normalize_url sitemapUrl
        if visited.contains normalized then ([], visited, log)
        else
          let visited := visited ++ [normalized]
          let log := log ++ [normalized]
          match env.fetchSitemap sitemapUrl with
          | none => ([], visited, log)
          | some root =>
            let tag := localTag root.tag
            if tag = ("sitemapindex").data then
              sitemapIndexLoop
                (fun u v l => fetchSitemapAux env allowedDomains fuel' u v l (depth + 1))
                allowedDomains root.children [] visited log
            else if tag = ("urlset").data then
              (urlsetLoop allowedDomains root.children [], visited, log)
            else
              (genericLocLoop allowedDomains (xmlIter root) [], visited, log)

/-- `FederalSourceCrawler._fetch_sitemap_urls(sitemap_url, allowed_domains,
visited_sitemaps, depth)`. -/
def fetchSitemapUrls (env : CrawlEnv) (allowedDomains : List PyStr)
    (sitemapUrl : PyStr) (visited : List PyStr) (log : List PyStr) (depth : Nat) :
    List PyStr × List PyStr × List PyStr :=
  fetchSitemapAux env allowedDomains (MAX_SITEMAP_DEPTH + 1 - depth) sitemapUrl visited log depth

/-! ## `_derive_allowed_urls` and `_derive_sitemap_urls` -/

/-- The inner loop of `_derive_allowed_urls` over one origin's allowed paths.
The `Bool` result records whether the cap was hit (Python's early `return`). -/
def deriveAllowedInner : List PyStr → List PyStr → List PyStr →
    List PyStr × List PyStr × Bool
  | [], allowed, seen => (allowed, seen, false)
  | u :: rest, allowed, seen =>
    if seen.contains u then deriveAllowedInner rest allowed seen
    else if shouldSkipLink [] u then deriveAllowedInner rest allowed seen
    else
      let allowed := allowed ++ [u]
      let seen := seen ++ [u]
      if MAX_ALLOWED_PATHS ≤ allowed.length then (allowed, seen, true)
      else deriveAllowedInner rest allowed seen

/-- The outer loop of `_derive_allowed_urls` over the start URLs. -/
def deriveAllowedOuter (env : CrawlEnv) : List PyStr → List PyStr → List PyStr → List PyStr
  | [], allowed, _ => allowed
  | u :: rest, allowed, seen =>
    let parsed := pyUrlparse u
    if parsed.scheme ≠ [] ∧ parsed.netloc ≠ [] then
      let meta := env.robotsOf (originOf parsed.scheme parsed.netloc)
      let r := deriveAllowedInner meta.allowedPaths allowed seen
      if r.2.2 then r.1 else deriveAllowedOuter env rest r.1 r.2.1
    else deriveAllowedOuter env rest allowed seen

/-- `FederalSourceCrawler._derive_allowed_urls(seed_group)`. -/
def deriveAllowedUrls (env : CrawlEnv) (sg : SeedGroup) : List PyStr :=
  deriveAllowedOuter env sg.startUrls [] []

/-- The candidate loop of `_derive_sitemap_urls` over one sitemap's collected
URLs (normalize, dedup, keyword filter, allowed-domain filter, cap). -/
def deriveSitemapInner (allowedDomains : List PyStr) :
    List PyStr → List PyStr → List PyStr → List PyStr × List PyStr
  | [], urls, seen => (urls, seen)
  | c :: rest, urls, seen =>
    let normalized := normalize_url c
    if seen.contains normalized then deriveSitemapInner allowedDomains rest urls seen
    else if shouldSkipLink [] normalized then deriveSitemapInner allowedDomains rest urls seen
    else if !(isInAllowedDomains normalized allowedDomains) then
      deriveSitemapInner allowedDomains rest urls seen
    else
      let urls := urls ++ [normalized]
      let seen := seen ++ [normalized]
      if MAX_SITEMAP_URLS ≤ urls.length then (urls, seen)
      else deriveSitemapInner allowedDomains rest urls seen

/-- The loop of `_derive_sitemap_urls` over one origin's declared sitemaps. -/
def deriveSitemapPerSitemaps (env : CrawlEnv) (allowedDomains : List PyStr) :
    List PyStr → List PyStr → List PyStr → List PyStr →
      List PyStr × List PyStr × List PyStr
  | [], urls, seen, visited => (urls, seen, visited)
  | sm :: rest, urls, seen, visited =>
    if MAX_SITEMAP_URLS ≤ urls.length then (urls, seen, visited)
    else
      let r := fetchSitemapUrls env allowedDomains sm visited [] 0
      let ir := deriveSitemapInner allowedDomains r.1 urls seen
      deriveSitemapPerSitemaps env allowedDomains rest ir.1 ir.2 r.2.1

/-- The outer loop of `_derive_sitemap_urls` over the start URLs. -/
def deriveSitemapOuter (env : CrawlEnv) (allowedDomains : List PyStr) :
    List PyStr → List PyStr → List PyStr → List PyStr → List PyStr
  | [], urls, _, _ => urls
  | su :: rest, urls, seen, visited =>
    let parsed := pyUrlparse su
    if parsed.scheme ≠ [] ∧ parsed.netloc ≠ [] then
      let meta := env.robotsOf (originOf parsed.scheme parsed.netloc)
      let r := deriveSitemapPerSitemaps env allowedDomains meta.sitemaps urls seen visited
      if MAX_SITEMAP_URLS ≤ r.1.length then r.1
      else deriveSitemapOuter env allowedDomains rest r.1 r.2.1 r.2.2
    else deriveSitemapOuter env allowedDomains rest urls seen visited

/-- `FederalSourceCrawler._derive_sitemap_urls(seed_group)`. -/
def deriveSitemapUrls (env : CrawlEnv) (sg : SeedGroup) : List PyStr :=
  deriveSitemapOuter env (sg.allowedDomains.map pyLower) sg.startUrls [] [] []

/-! ## `_collect_crawl_targets` -/

/-- `dict.fromkeys(...)` dedup preserving first occurrence. -/
def dedupKeepOrder (l : List PyStr) : List PyStr :=
  l.foldl (fun acc u => if acc.contains u then acc else acc ++ [u]) []

/-- The origins for which a more specific path was derived
(`specific_allowed_by_origin`). -/
def specificAllowedOrigins (urls : List PyStr) : List PyStr :=
  urls.foldl
    (fun acc u =>
      let parsed := pyUrlparse u
      if parsed.scheme ≠ [] ∧ parsed.netloc ≠ [] ∧ parsed.path ≠ [] ∧ parsed.path ≠ ['/'] then
        acc ++ [originOf parsed.scheme parsed.netloc]
      else acc)
    []

/-- The filtering loop of `_collect_crawl_targets` (normalize, dedup via
`seen`, bare-origin specificity filter, keyword-exclusion filter). -/
def collectLoop (specificOrigins : List PyStr) :
    List PyStr → List PyStr → List PyStr → List PyStr
  | [], _, targets => targets
  | u :: rest, seen, targets =>
    let normalized := normalize_url u
    if seen.contains normalized then collectLoop specificOrigins rest seen targets
    else
      let seen := seen ++ [normalized]
      let parsed := pyUrlparse normalized
      let origin :=
        if parsed.scheme ≠ [] ∧ parsed.netloc ≠ [] then originOf parsed.scheme parsed.netloc
        else []
      if origin ≠ [] ∧ (parsed.path = [] ∨ parsed.path = ['/']) ∧
          specificOrigins.contains origin then
        collectLoop specificOrigins rest seen targets
      else if shouldSkipLink [] normalized then collectLoop specificOrigins rest seen targets
      else collectLoop specificOrigins rest seen (targets ++ [normalized])

/-- `FederalSourceCrawler._collect_crawl_targets(seed_group)`; `records` is the
loaded failure ledger backing `_load_failed_urls`. -/
def collectCrawlTargets (env : CrawlEnv) (records : List FailureRecord) (sg : SeedGroup) :
    List PyStr :=
  let derivedAllowed := deriveAllowedUrls env sg
  let derivedSitemap := deriveSitemapUrls env sg
  let retryTargets := loadFailedUrls records sg.name
  let combined := dedupKeepOrder (sg.startUrls ++ derivedAllowed ++ derivedSitemap ++ retryTargets)
  let specificOrigins := specificAllowedOrigins (derivedAllowed ++ derivedSitemap)
  collectLoop specificOrigins combined [] []

/-! ## Reachability safeguards -/

/-- Decimal representation of a natural number. -/
def natRepr (n : Nat) : PyStr := Nat.toDigits 10 n

/-- Python `f"{i}"` for an `int`. -/
def intRepr (i : Int) : PyStr := if i < 0 then '-' :: natRepr i.natAbs else natRepr i.toNat

/-- Outcome of `socket.getaddrinfo(host, None)`: success, a `socket.gaierror`
with optional `errno`, or another `OSError` with optional `errno`. -/
inductive DnsOutcome where
  | ok
  | gaiError (code : Option Int)
  | osError (code : Option Int)
deriving DecidableEq

/-- `urlparse(...).hostname or ""` (the `_hostinfo` property plus lowercasing;
the part after an IPv6 zone separator `%` is not lowercased). -/
def pyHostname (netloc : PyStr) : PyStr :=
  let hostinfo := (pyRPartition netloc '@').2.2
  let br := pyPartition hostinfo '['
  let hostname :=
    if br.2.1 then (pyPartition br.2.2 ']').1
    else (pyPartition hostinfo ':').1
  if hostname = [] then []
  else
    let z := pyPartition hostname '%'
    pyLower z.1 ++ (if z.2.1 then '%' :: z.2.2 else [])

/-- The per-run caches of reachability verdicts, keyed by hostname resp. by
origin root. -/
abbrev VerdictCache := List (PyStr × (Bool × Option PyStr))

/-- Network-facing environment of `_crawl_url`, with the page-extraction
collaborators abstracted as functions of the fetched HTML. -/
structure NetEnv where
  dns : PyStr → DnsOutcome
  headStatus : PyStr → Except PyStr Nat
  fetchPage : PyStr → Option PyStr
  extractTitle : PyStr → PyStr → PyStr → PyStr
  extractSummary : PyStr → PyStr
  extractContent : PyStr → PyStr
  extractRelated : PyStr → PyStr → List PyStr → List (PyStr × PyStr × PyStr × PyStr)
  extractHeadTitle : PyStr → PyStr
  extractMetaDesc : PyStr → PyStr

/-- `FederalSourceCrawler._is_host_reachable(host)`: empty hosts are rejected
before the cache; DNS outcomes are cached per hostname and tagged with the
underlying error code when available. -/
def isHostReachable (env : NetEnv) (cache : VerdictCache) (host : PyStr) :
    (Bool × Option PyStr) × VerdictCache :=
  if host = [] then ((false, some (("invalid_host").data)), cache)
  else
    match cache.lookup host with
    | some r => (r, cache)
    | none =>
      let r :=
        match env.dns host with
        | DnsOutcome.ok => (true, none)
        | DnsOutcome.gaiError c =>
          (false, some
            (match c with
             | some code => ("dns_error:").data ++ intRepr code
             | none => ("dns_error").data))
        | DnsOutcome.osError c =>
          (false, some
            (match c with
             | some code => ("network_error:").data ++ intRepr code
             | none => ("network_error").data))
      (r, cache ++ [(host, r)])

/-- `FederalSourceCrawler._probe_url_head(url)`: HEAD-probe the origin root,
cached by origin root; 405 and any status below 500 count as alive. -/
def probeUrlHead (env : NetEnv) (cache : VerdictCache) (url : PyStr) :
    (Bool × Option PyStr) × VerdictCache :=
  let parsed := pyUrlparse url
  if ¬(parsed.scheme = ("http").data ∨ parsed.scheme = ("https").data) ∨ parsed.netloc = [] then
    ((false, some (("invalid_url").data)), cache)
  else
    let root := parsed.scheme ++ ':' :: '/' :: '/' :: parsed.netloc ++ ['/']
    match cache.lookup root with
    | some r => (r, cache)
    | none =>
      match env.headStatus root with
      | Except.error excName =>
        let r := (false, some (("head_error:").data ++ excName))
        (r, cache ++ [(root, r)])
      | Except.ok status =>
        let r :=
          if status = 405 then (true, (none : Option PyStr))
          else if 500 ≤ status then (false, some (("head_status:").data ++ natRepr status))
          else (true, none)
        (r, cache ++ [(root, r)])

/-! ## SHA-1 and UUIDv5 (uuid.uuid5 over NAMESPACE_URL) -/

/-- Big-endian byte representation of `v` in `k` bytes. -/
def beBytes : Nat → Nat → List Nat
  | 0, _ => []
  | k + 1, v => beBytes k (v / 256) ++ [v % 256]

/-- SHA-1 message padding. -/
def sha1Pad (ms : List Nat) : List Nat :=
  let len := ms.length
  let padLen := (64 - ((len + 9) % 64)) % 64
  ms ++ 0x80 :: List.replicate padLen 0 ++ beBytes 8 (8 * len)

/-- Split a byte list into 64-byte chunks. -/
def chunks64 (l : List Nat) : List (List Nat) :=
  if l = [] then [] else l.take 64 :: chunks64 (l.drop 64)
termination_by l.length
decreasing_by
  simp_wf
  rename_i h
  cases l with
  | nil => exact absurd rfl h
  | cons x xs => simp

/-- 32-bit words from big-endian bytes. -/
def bytesToWords : List Nat → List Nat
  | b0 :: b1 :: b2 :: b3 :: rest => (((b0 * 256 + b1) * 256 + b2) * 256 + b3) :: bytesToWords rest
  | _ => []

/-- 32-bit left rotation. -/
def rotl32 (n x : Nat) : Nat := ((x * 2 ^ n) % 4294967296) + (x % 4294967296) / 2 ^ (32 - n)

/-- Extend 16 words to 80 words (SHA-1 message schedule). -/
def sha1ExtendAux : List Nat → Nat → List Nat
  | w, 0 => w
  | w, k + 1 =>
    let n := w.length
    let x := rotl32 1 ((w.getD (n - 3) 0) ^^^ (w.getD (n - 8) 0) ^^^
      (w.getD (n - 14) 0) ^^^ (w.getD (n - 16) 0))
    sha1ExtendAux (w ++ [x]) k

/-- One SHA-1 round. -/
def sha1Round (st : Nat × Nat × Nat × Nat × Nat) (i wi : Nat) : Nat × Nat × Nat × Nat × Nat :=
  let a := st.1
  let b := st.2.1
  let c := st.2.2.1
  let d := st.2.2.2.1
  let e := st.2.2.2.2
  let f :=
    if i < 20 then (b &&& c) ||| ((b ^^^ 4294967295) &&& d)
    else if i < 40 then b ^^^ c ^^^ d
    else if i < 60 then (b &&& c) ||| (b &&& d) ||| (c &&& d)
    else b ^^^ c ^^^ d
  let k :=
    if i < 20 then 0x5A827999
    else if i < 40 then 0x6ED9EBA1
    else if i < 60 then 0x8F1BBCDC
    else 0xCA62C1D6
  let temp := (rotl32 5 a + f + e + k + wi) % 4294967296
  (temp, a, rotl32 30 b, c, d)

/-- Process one 64-byte chunk. -/
def sha1ProcessChunk (h : Nat × Nat × Nat × Nat × Nat) (chunk : List Nat) :
    Nat × Nat × Nat × Nat × Nat :=
  let w := sha1ExtendAux (bytesToWords chunk) 64
  let fin := (List.range 80).foldl (fun st i => sha1Round st i (w.getD i 0)) h
  ((h.1 + fin.1) % 4294967296, (h.2.1 + fin.2.1) % 4294967296,
    (h.2.2.1 + fin.2.2.1) % 4294967296, (h.2.2.2.1 + fin.2.2.2.1) % 4294967296,
    (h.2.2.2.2 + fin.2.2.2.2) % 4294967296)

/-- SHA-1 digest (20 bytes) of a byte message. -/
def sha1 (msg : List Nat) : List Nat :=
  let fin := (chunks64 (sha1Pad msg)).foldl sha1ProcessChunk
    (0x67452301, 0xEFCDAB89, 0x98BADCFE, 0x10325476, 0xC3D2E1F0)
  beBytes 4 fin.1 ++ beBytes 4 fin.2.1 ++ beBytes 4 fin.2.2.1 ++
    beBytes 4 fin.2.2.2.1 ++ beBytes 4 fin.2.2.2.2

/-- The 16 bytes of `uuid.NAMESPACE_URL`. -/
def namespaceUrlBytes : List Nat :=
  [0x6b, 0xa7, 0xb8, 0x11, 0x9d, 0xad, 0x11, 0xd1, 0x80, 0xb4, 0x00, 0xc0,
    0x4f, 0xd4, 0x30, 0xc8]

/-- Lower-case hexadecimal digit. -/
def hexLower (n : Nat) : Char :=
  if n < 10 then Char.ofNat (48 + n) else Char.ofNat (87 + n)

/-- Two lower-case hex digits of one byte. -/
def byteHex (b : Nat) : PyStr := [hexLower (b / 16), hexLower (b % 16)]

/-- `str(uuid.uuid5(uuid.NAMESPACE_URL, name))`: SHA-1 of namespace bytes plus
the UTF-8 of `name`, truncated to 16 bytes, version and variant bits set,
formatted as 8-4-4-4-12 lower-case hex. -/
def uuid5Url (name : PyStr) : PyStr :=
  let digest := (sha1 (namespaceUrlBytes ++ utf8Encode name)).take 16
  let bytes := digest.mapIdx
    (fun i b => if i = 6 then b % 16 + 0x50 else if i = 8 then b % 64 + 0x80 else b)
  let hx := (bytes.map byteHex).flatten
  hx.take 8 ++ '-' :: ((hx.drop 8).take 4 ++ '-' :: ((hx.drop 12).take 4 ++
    '-' :: ((hx.drop 16).take 4 ++ '-' :: hx.drop 20)))

/-! ## `_crawl_url` and the Entry record -/

/-- `BaseCrawler.generate_provenance` output plus the `crawler` override. -/
structure Provenance where
  src : PyStr
  crawler : PyStr
  crawledAt : PyStr
  crawlId : PyStr
deriving Repr, DecidableEq

/-- The entry dict built by `_crawl_url` (language maps such as
`{"de": title}` are modeled by their `de` value; `summary`/`head` are
`Option` because the code conditionally omits resp. empties them). -/
structure Entry where
  id : PyStr
  title : PyStr
  summary : Option PyStr
  content : PyStr
  url : PyStr
  topics : List (Option PyStr)
  tags : List PyStr
  targetGroups : List PyStr
  status : PyStr
  firstSeen : PyStr
  lastSeen : PyStr
  sourceUnavailable : Bool
  relatedLinks : List (PyStr × PyStr × PyStr × PyStr)
  providerName : Option PyStr
  providerLevel : Option PyStr
  geographicScope : PyStr
  official : Bool
  applicationChannel : List PyStr
  benefitType : List PyStr
  rawHtml : PyStr
  head : Option (PyStr × PyStr)
  provenance : Option Provenance
  qualityScores : Option PyStr

/-- `str.replace(" ", "_")`. -/
def pySpaceToUnderscore (s : PyStr) : PyStr := s.map (fun c => if c = ' ' then '_' else c)

/-- Events observable in `_crawl_url`'s interaction with the network,
instrumenting the model for ordering claims. -/
inductive CrawlEvent where
  | headProbe (url : PyStr)
  | pageFetch (url : PyStr)
deriving DecidableEq

/-- The two verdict caches owned by the crawler instance. -/
structure Caches where
  host : VerdictCache
  head : VerdictCache

/-- The quality scorer collaborator (`QualityScorer.calculate_scores`),
scoring the entry as built before head metadata is attached. -/
structure ScoreEnv where
  calculateScores : Entry → PyStr

/-- `FederalSourceCrawler._crawl_url(url, seed_group)`.  `nowIso` is the
timestamp taken once for `firstSeen`/`lastSeen`; `provNow`/`epochStr` feed
`generate_provenance`.  Returns the `(entry?, failure_reason?)` pair of the
code, the updated caches, and the list of network events that occurred. -/
def crawlUrl (env : NetEnv) (scorer : ScoreEnv) (caches : Caches) (url : PyStr)
    (sg : SeedGroup) (nowIso provNow epochStr : PyStr) :
    (Option Entry × Option PyStr) × Caches × List CrawlEvent :=
  let parsed := pyUrlparse url
  if ¬(parsed.scheme = ("http").data ∨ parsed.scheme = ("https").data) ∨ parsed.netloc = [] then
    ((none, some (("invalid_url").data)), caches, [])
  else
    let hostR := isHostReachable env caches.host (pyHostname parsed.netloc)
    let caches := { caches with host := hostR.2 }
    if !hostR.1.1 then
      ((none, some (hostR.1.2.getD (("host_unreachable").data))), caches, [])
    else
      let headR := probeUrlHead env caches.head url
      let caches := { caches with head := headR.2 }
      let events := [CrawlEvent.headProbe url]
      if !headR.1.1 then
        ((none, some (headR.1.2.getD (("head_failed").data))), caches, events)
      else
        let events := events ++ [CrawlEvent.pageFetch url]
        match env.fetchPage url with
        | none => ((none, some (("fetch_failed").data)), caches, events)
        | some html =>
          if html = [] then ((none, some (("fetch_failed").data)), caches, events)
          else
            let normalized := normalize_url url
            let allowedDomains := sg.allowedDomains.map pyLower
            let title := env.extractTitle html sg.name normalized
            let summary := env.extractSummary html
            let content := env.extractContent html
            if content = [] then ((none, some (("content_empty").data)), caches, events)
            else
              let relatedLinks := env.extractRelated html normalized allowedDomains
              let entry0 : Entry :=
                { id := uuid5Url normalized
                  title := title
                  summary := if summary ≠ [] then some summary else none
                  content := content
                  url := normalized
                  topics := [sg.defaultTopic]
                  tags := []
                  targetGroups := [("general").data]
                  status := ("active").data
                  firstSeen := nowIso
                  lastSeen := nowIso
                  sourceUnavailable := false
                  relatedLinks := relatedLinks
                  providerName := sg.providerName
                  providerLevel := sg.providerLevel
                  geographicScope := ("Germany-wide").data
                  official := true
                  applicationChannel := []
                  benefitType := []
                  rawHtml := html
                  head := none
                  provenance := some
                    { src := url
                      crawler := ("federal_").data ++ pySpaceToUnderscore (pyLower sg.name)
                      crawledAt := provNow
                      crawlId := ("federal-").data ++ epochStr }
                  qualityScores := none }
              let entry1 := { entry0 with qualityScores := some (scorer.calculateScores entry0) }
              let headTitle := env.extractHeadTitle html
              let headDesc := env.extractMetaDesc html
              let entry2 :=
                if headTitle ≠ [] ∨ headDesc ≠ [] then
                  { entry1 with head := some (headTitle, headDesc) }
                else entry1
              ((some entry2, none), caches, events)

/-! ## Concrete fixtures used by witnesses and counterexamples -/

/-- A minimal seed group. -/
def sgTest : SeedGroup :=
  { name := ("aual").data
    startUrls := [("https://a.de/").data]
    allowedDomains := [("a.de").data]
    defaultTopic := none
    providerName := none
    providerLevel := none }

/-- A discovery environment whose robots metadata lists a bare origin and a
double-slash path, and whose sitemap fetches all fail. -/
def envSlash : CrawlEnv :=
  { robotsOf := fun _ =>
      { allowedPaths := [("https://a.de/").data, ("https://a.de//").data]
        sitemaps := [("https://a.de/sitemap.xml").data] }
    fetchSitemap := fun _ => none }

/-- A discovery environment whose robots metadata lists a bare origin and a
specific path, and whose sitemap fetches all fail. -/
def envKeep : CrawlEnv :=
  { robotsOf := fun _ =>
      { allowedPaths := [("https://a.de/").data, ("https://a.de/leistungen").data]
        sitemaps := [("https://a.de/sitemap.xml").data] }
    fetchSitemap := fun _ => none }

/-- A discovery environment with no robots data and failing sitemap fetches. -/
def envEmpty : CrawlEnv :=
  { robotsOf := fun _ =>
      { allowedPaths := [], sitemaps := [("https://a.de/sitemap.xml").data] }
    fetchSitemap := fun _ => none }

/-- A network environment whose DNS resolution always fails with `errno 2`. -/
def netEnvDnsFail : NetEnv :=
  { dns := fun _ => DnsOutcome.gaiError (some 2)
    headStatus := fun _ => Except.ok 200
    fetchPage := fun _ => none
    extractTitle := fun _ _ _ => []
    extractSummary := fun _ => []
    extractContent := fun _ => []
    extractRelated := fun _ _ _ => []
    extractHeadTitle := fun _ => []
    extractMetaDesc := fun _ => [] }

/-- A trivial quality scorer. -/
def scoreEnvZero : ScoreEnv := { calculateScores := fun _ => [] }

/-! # Theorems

Helper lemmas first, then one theorem per claim (with witnesses and
counterexamples where required). -/

/-! ## Character arithmetic helpers -/

/-- `Char.ofNat` inverts `Char.toNat` on valid scalar values. -/
theorem char_toNat_ofNat (n : Nat) (h : Nat.isValidChar n) : (Char.ofNat n).toNat = n := by
  unfold Char.ofNat
  rw [dif_pos h]
  rcases h with h | ⟨h1, h2⟩
  · simp [Char.ofNatAux, Char.toNat, UInt32.toNat, UInt32.ofNatCore]
  · simp [Char.ofNatAux, Char.toNat, UInt32.toNat, UInt32.ofNatCore]

/-- Characters with equal scalar values are equal. -/
theorem char_eq_of_toNat_eq {a b : Char} (h : a.toNat = b.toNat) : a = b := by
  rcases a with ⟨av, hva⟩
  rcases b with ⟨bv, hvb⟩
  simp only [Char.toNat] at h
  have : av = bv := UInt32.ext h
  subst this
  rfl

/-- The scalar value of a character is a valid Unicode scalar value. -/
theorem char_valid_toNat (c : Char) : c.toNat < 55296 ∨ (57343 < c.toNat ∧ c.toNat < 1114112) := by
  have h := c.valid
  rcases h with h | ⟨h1, h2⟩
  · exact Or.inl h
  · exact Or.inr ⟨h1, h2⟩

/-- Comparison of characters is comparison of scalar values. -/
theorem char_le_iff_toNat (a b : Char) : a ≤ b ↔ a.toNat ≤ b.toNat := by
  rw [Char.le_def]
  exact ⟨fun h => h, fun h => h⟩

/-- Equality of characters is equality of scalar values. -/
theorem char_eq_iff_toNat (a b : Char) : a = b ↔ a.toNat = b.toNat :=
  ⟨fun h => h ▸ rfl, char_eq_of_toNat_eq⟩

/-- Scalar-value characterization of `Char.toLower`. -/
theorem char_toLower_toNat (c : Char) :
    (Char.toLower c).toNat = if 65 ≤ c.toNat ∧ c.toNat ≤ 90 then c.toNat + 32 else c.toNat := by
  unfold Char.toLower
  split
  · rename_i h
    rw [if_pos]
    · exact char_toNat_ofNat _ (Or.inl (by omega))
    · exact ⟨h.1, h.2⟩
  · rename_i h
    rw [if_neg]
    intro hc
    exact h ⟨hc.1, hc.2⟩

/-! ## UTF-8 round trip -/

/-- Decoding after encoding restores one character (prepended to any tail). -/
theorem utf8DecodeReplace_encodeChar (c : Char) (bs : List Nat) :
    utf8DecodeReplace (utf8EncodeChar c ++ bs) = c :: utf8DecodeReplace bs := by
  have hval := char_valid_toNat c
  have hofn : Char.ofNat c.toNat = c := Char.ofNat_toNat c
  unfold utf8EncodeChar
  by_cases h1 : c.toNat < 128
  · rw [if_pos h1]
    show utf8DecodeReplace (c.toNat :: bs) = _
    rw [utf8DecodeReplace.eq_def]
    dsimp only
    rw [if_pos h1, hofn]
  · by_cases h2 : c.toNat < 2048
    · rw [if_neg h1, if_pos h2]
      show utf8DecodeReplace ((192 + c.toNat / 64) :: (128 + c.toNat % 64) :: bs) = _
      rw [utf8DecodeReplace.eq_def]
      dsimp only
      rw [if_neg (by omega), if_neg (by omega), if_pos (by omega)]
      rw [if_pos (by omega)]
      have hv : 192 + c.toNat / 64 - 192 = c.toNat / 64 := by omega
      have : (192 + c.toNat / 64 - 192) * 64 + (128 + c.toNat % 64 - 128) = c.toNat := by omega
      rw [this, hofn]
    · by_cases h3 : c.toNat < 65536
      · rw [if_neg h1, if_neg h2, if_pos h3]
        show utf8DecodeReplace
            ((224 + c.toNat / 4096) :: (128 + c.toNat / 64 % 64) :: (128 + c.toNat % 64) :: bs) = _
        rw [utf8DecodeReplace.eq_def]
        dsimp only
        rw [if_neg (by omega), if_neg (by omega), if_neg (by omega), if_pos (by omega)]
        rw [if_pos (by constructor <;> split <;> omega)]
        rw [if_pos (by omega)]
        have : (224 + c.toNat / 4096 - 224) * 4096 + (128 + c.toNat / 64 % 64 - 128) * 64 +
            (128 + c.toNat % 64 - 128) = c.toNat := by omega
        rw [this, hofn]
      · rw [if_neg h1, if_neg h2, if_neg h3]
        show utf8DecodeReplace
            ((240 + c.toNat / 262144) :: (128 + c.toNat / 4096 % 64) ::
              (128 + c.toNat / 64 % 64) :: (128 + c.toNat % 64) :: bs) = _
        rw [utf8DecodeReplace.eq_def]
        dsimp only
        rw [if_neg (by omega), if_neg (by omega), if_neg (by omega), if_neg (by omega),
          if_pos (by omega)]
        rw [if_pos (by constructor <;> split <;> omega)]
        rw [if_pos (by omega), if_pos (by omega)]
        have : (240 + c.toNat / 262144 - 240) * 262144 + (128 + c.toNat / 4096 % 64 - 128) * 4096 +
            (128 + c.toNat / 64 % 64 - 128) * 64 + (128 + c.toNat % 64 - 128) = c.toNat := by omega
        rw [this, hofn]

/-- Decoding after encoding restores the string. -/
theorem utf8DecodeReplace_encode (s : PyStr) : utf8DecodeReplace (utf8Encode s) = s := by
  induction s with
  | nil => rfl
  | cons c rest ih =>
    show utf8DecodeReplace ((utf8EncodeChar c :: rest.map utf8EncodeChar).flatten) = _
    rw [List.flatten_cons, utf8DecodeReplace_encodeChar]
    exact congrArg (c :: ·) ih

/-! ## Percent-coding round trip -/

/-- `percentDecodeBytes` on a non-percent head. -/
theorem percentDecodeBytes_cons (c : Char) (rest : PyStr) (h : ¬c = '%') :
    percentDecodeBytes (c :: rest) = c.toNat :: percentDecodeBytes rest := by
  rw [percentDecodeBytes.eq_def]
  dsimp only
  rw [if_neg h]

/-- `percentDecodeBytes` on a valid escape. -/
theorem percentDecodeBytes_pct (a b : Char) (rest : PyStr)
    (ha : isHexDigitPy a = true) (hb : isHexDigitPy b = true) :
    percentDecodeBytes ('%' :: a :: b :: rest) =
      (hexVal a * 16 + hexVal b) :: percentDecodeBytes rest := by
  rw [percentDecodeBytes.eq_def]
  dsimp only
  rw [if_pos rfl, if_pos ⟨ha, hb⟩]

/-- The scalar value of an upper-case hex digit. -/
theorem hexUpper_toNat (x : Nat) (h : x < 16) :
    (hexUpper x).toNat = if x < 10 then 48 + x else 55 + x := by
  unfold hexUpper
  split
  · exact char_toNat_ofNat _ (Or.inl (by omega))
  · exact char_toNat_ofNat _ (Or.inl (by omega))

/-- Upper-case hex digits satisfy the hex-digit test of `unquote`. -/
theorem isHexDigitPy_hexUpper (x : Nat) (h : x < 16) : isHexDigitPy (hexUpper x) = true := by
  have ht := hexUpper_toNat x h
  simp only [isHexDigitPy, Bool.or_eq_true, Bool.and_eq_true, decide_eq_true_eq,
    char_le_iff_toNat, ht]
  have h0 : ('0').toNat = 48 := rfl
  have h9 : ('9').toNat = 57 := rfl
  have hA : ('A').toNat = 65 := rfl
  have hF : ('F').toNat = 70 := rfl
  have ha : ('a').toNat = 97 := rfl
  have hf : ('f').toNat = 102 := rfl
  rw [h0, h9, hA, hF, ha, hf]
  split <;> omega

/-- `hexVal` inverts `hexUpper`. -/
theorem hexVal_hexUpper (x : Nat) (h : x < 16) : hexVal (hexUpper x) = x := by
  have ht := hexUpper_toNat x h
  unfold hexVal
  by_cases hx : x < 10
  · rw [if_pos]
    · rw [ht, if_pos hx]
      omega
    · rw [char_le_iff_toNat, ht, if_pos hx]
      show 48 + x ≤ 57
      omega
  · rw [if_neg, if_pos]
    · rw [ht, if_neg hx]
      omega
    · rw [char_le_iff_toNat, ht, if_neg hx]
      show 55 + x ≤ 70
      omega
    · rw [char_le_iff_toNat, ht, if_neg hx]
      show ¬(55 + x ≤ 57)
      omega

/-- `percentDecodeBytes` of the empty string. -/
theorem percentDecodeBytes_nil : percentDecodeBytes [] = [] := by
  rw [percentDecodeBytes.eq_def]

/-- Scalar-value facts for every character emitted by `quoteByte`. -/
theorem mem_quoteByte_toNat (b : Nat) (hb : b < 256) {c : Char} (h : c ∈ quoteByte b) :
    33 ≤ c.toNat ∧ c.toNat ≤ 126 ∧ c.toNat ≠ 35 ∧ c.toNat ≠ 38 ∧ c.toNat ≠ 47 ∧
      c.toNat ≠ 58 ∧ c.toNat ≠ 59 ∧ c.toNat ≠ 61 ∧ c.toNat ≠ 63 := by
  unfold quoteByte at h
  by_cases h32 : b = 32
  · rw [if_pos h32] at h
    simp only [List.mem_singleton] at h
    subst h
    decide
  · rw [if_neg h32] at h
    by_cases hsafe : isSafeByte b = true
    · rw [if_pos hsafe] at h
      simp only [List.mem_singleton] at h
      subst h
      rw [char_toNat_ofNat _ (Or.inl (by omega))]
      simp only [isSafeByte, Bool.or_eq_true, Bool.and_eq_true, decide_eq_true_eq,
        beq_iff_eq] at hsafe
      omega
    · rw [if_neg hsafe] at h
      simp only [List.mem_cons, List.not_mem_nil, or_false] at h
      rcases h with h | h | h
      · subst h
        decide
      · subst h
        have ht := hexUpper_toNat (b / 16) (by omega)
        rw [ht]
        split <;> omega
      · subst h
        have ht := hexUpper_toNat (b % 16) (by omega)
        rw [ht]
        split <;> omega

/-- Every UTF-8 code unit is a byte. -/
theorem utf8EncodeChar_lt (c : Char) : ∀ b ∈ utf8EncodeChar c, b < 256 := by
  have hval := char_valid_toNat c
  intro b hb
  unfold utf8EncodeChar at hb
  dsimp only at hb
  split at hb
  · simp only [List.mem_singleton] at hb
    omega
  · split at hb
    · simp only [List.mem_cons, List.not_mem_nil, or_false] at hb
      rcases hb with hb | hb <;> omega
    · split at hb
      · simp only [List.mem_cons, List.not_mem_nil, or_false] at hb
        rcases hb with hb | hb | hb <;> omega
      · simp only [List.mem_cons, List.not_mem_nil, or_false] at hb
        rcases hb with hb | hb | hb | hb <;> omega

/-- Every byte of an encoded string is below 256. -/
theorem utf8Encode_lt (s : PyStr) : ∀ b ∈ utf8Encode s, b < 256 := by
  intro b hb
  unfold utf8Encode at hb
  rw [List.mem_flatten] at hb
  obtain ⟨l, hl, hbl⟩ := hb
  rw [List.mem_map] at hl
  obtain ⟨c, _, rfl⟩ := hl
  exact utf8EncodeChar_lt c b hbl

/-- Scalar-value facts for every character of a `quote_plus` encoding. -/
theorem mem_pyQuotePlus_toNat (s : PyStr) {c : Char} (h : c ∈ pyQuotePlus s) :
    33 ≤ c.toNat ∧ c.toNat ≤ 126 ∧ c.toNat ≠ 35 ∧ c.toNat ≠ 38 ∧ c.toNat ≠ 47 ∧
      c.toNat ≠ 58 ∧ c.toNat ≠ 59 ∧ c.toNat ≠ 61 ∧ c.toNat ≠ 63 := by
  unfold pyQuotePlus at h
  rw [List.mem_flatten] at h
  obtain ⟨l, hl, hcl⟩ := h
  rw [List.mem_map] at hl
  obtain ⟨b, hb, rfl⟩ := hl
  exact mem_quoteByte_toNat b (utf8Encode_lt s b hb) hcl

/-- `+`-to-space on one quoted byte. -/
theorem plusToSpace_quoteByte (b : Nat) (hb : b < 256) :
    pyPlusToSpace (quoteByte b) =
      if b = 32 then [' ']
      else if isSafeByte b then [Char.ofNat b]
      else ['%', hexUpper (b / 16), hexUpper (b % 16)] := by
  unfold quoteByte pyPlusToSpace
  by_cases h32 : b = 32
  · rw [if_pos h32, if_pos h32]
    simp
  · rw [if_neg h32, if_neg h32]
    by_cases hsafe : isSafeByte b = true
    · rw [if_pos hsafe]
      have hne : ¬ Char.ofNat b = '+' := by
        intro heq
        have h43 : b = 43 := by
          rw [← char_toNat_ofNat b (Or.inl (by omega)), heq]
          rfl
        subst h43
        simp [isSafeByte] at hsafe
      simp only [List.map_cons, List.map_nil, if_neg hne]
    · rw [if_neg hsafe]
      have h16a : b / 16 < 16 := by omega
      have h16b : b % 16 < 16 := by omega
      have hneA : ¬ hexUpper (b / 16) = '+' := by
        intro heq
        have ht := hexUpper_toNat (b / 16) h16a
        rw [heq] at ht
        have h43 : ('+').toNat = 43 := rfl
        rw [h43] at ht
        revert ht
        split <;> omega
      have hneB : ¬ hexUpper (b % 16) = '+' := by
        intro heq
        have ht := hexUpper_toNat (b % 16) h16b
        rw [heq] at ht
        have h43 : ('+').toNat = 43 := rfl
        rw [h43] at ht
        revert ht
        split <;> omega
      simp only [List.map_cons, List.map_nil, if_neg hneA, if_neg hneB]
      rw [if_neg (by decide)]

/-- Percent-decoding inverts quoting of one byte. -/
theorem percentDecode_quoteByte (b : Nat) (hb : b < 256) (rest : PyStr) :
    percentDecodeBytes (pyPlusToSpace (quoteByte b) ++ rest) = b :: percentDecodeBytes rest := by
  rw [plusToSpace_quoteByte b hb]
  by_cases h32 : b = 32
  · rw [if_pos h32]
    show percentDecodeBytes (' ' :: rest) = _
    rw [percentDecodeBytes_cons ' ' rest (by decide)]
    subst h32
    rfl
  · rw [if_neg h32]
    by_cases hsafe : isSafeByte b = true
    · rw [if_pos hsafe]
      show percentDecodeBytes (Char.ofNat b :: rest) = _
      have hne : ¬ Char.ofNat b = '%' := by
        intro heq
        have h37 : b = 37 := by
          rw [← char_toNat_ofNat b (Or.inl (by omega)), heq]
          rfl
        subst h37
        simp [isSafeByte] at hsafe
      rw [percentDecodeBytes_cons _ rest hne, char_toNat_ofNat b (Or.inl (by omega))]
    · rw [if_neg hsafe]
      show percentDecodeBytes ('%' :: hexUpper (b / 16) :: hexUpper (b % 16) :: rest) = _
      rw [percentDecodeBytes_pct _ _ rest (isHexDigitPy_hexUpper _ (by omega))
        (isHexDigitPy_hexUpper _ (by omega))]
      rw [hexVal_hexUpper _ (by omega), hexVal_hexUpper _ (by omega)]
      congr 1
      omega

/-- Percent-decoding inverts `quote_plus` after `+`-to-space replacement. -/
theorem percentDecode_plusToSpace_quotePlus (s : PyStr) :
    percentDecodeBytes (pyPlusToSpace (pyQuotePlus s)) = utf8Encode s := by
  suffices h : ∀ l : List Nat, (∀ b ∈ l, b < 256) →
      percentDecodeBytes (pyPlusToSpace ((l.map quoteByte).flatten)) = l by
    exact h (utf8Encode s) (utf8Encode_lt s)
  intro l hl
  induction l with
  | nil =>
    show percentDecodeBytes (pyPlusToSpace []) = []
    exact percentDecodeBytes_nil
  | cons b t ih =>
    rw [List.map_cons, List.flatten_cons]
    show percentDecodeBytes (List.map _ (quoteByte b ++ (t.map quoteByte).flatten)) = _
    rw [List.map_append]
    show percentDecodeBytes
      (pyPlusToSpace (quoteByte b) ++ pyPlusToSpace ((t.map quoteByte).flatten)) = _
    rw [percentDecode_quoteByte b (hl b (List.mem_cons_self b t))]
    rw [ih (fun x hx => hl x (List.mem_cons_of_mem b hx))]

/-- `unquoteChunks` of the empty string. -/
theorem unquoteChunks_eq_nil : unquoteChunks [] = [] := by
  rw [unquoteChunks]
  simp

/-- On an all-ASCII string, the chunk walk is a single percent-decode pass. -/
theorem unquoteChunks_ascii (t : PyStr) (h : ∀ c ∈ t, isAsciiChar c = true) :
    unquoteChunks t = utf8DecodeReplace (percentDecodeBytes t) := by
  cases t with
  | nil =>
    rw [unquoteChunks_eq_nil, percentDecodeBytes_nil]
    rfl
  | cons c rest =>
    rw [unquoteChunks]
    rw [if_neg (by simp)]
    dsimp only
    have hc : isAsciiChar c = true := h c (List.mem_cons_self c rest)
    have h1 : ¬ (fun x => !isAsciiChar x) c = true := by simp [hc]
    rw [List.takeWhile_cons, if_neg h1, List.dropWhile_cons, if_neg h1]
    rw [List.takeWhile_eq_self_iff.mpr h, List.dropWhile_eq_nil_iff.mpr h]
    rw [unquoteChunks_eq_nil]
    simp

/-- `quote_plus` on a cons cell. -/
theorem pyQuotePlus_cons (c : Char) (rest : PyStr) :
    pyQuotePlus (c :: rest) = ((utf8EncodeChar c).map quoteByte).flatten ++ pyQuotePlus rest := by
  unfold pyQuotePlus utf8Encode
  rw [List.map_cons, List.flatten_cons, List.map_append, List.flatten_append]

/-- `+`-to-space distributes over append. -/
theorem pyPlusToSpace_append (a b : PyStr) :
    pyPlusToSpace (a ++ b) = pyPlusToSpace a ++ pyPlusToSpace b :=
  List.map_append _ a b

/-- Bytes at and above 127 are never safe. -/
theorem isSafeByte_false_of_ge (b : Nat) (h : 127 ≤ b) : isSafeByte b = false := by
  rw [Bool.eq_false_iff]
  intro hs
  simp only [isSafeByte, Bool.or_eq_true, Bool.and_eq_true, decide_eq_true_eq,
    beq_iff_eq] at hs
  omega

/-- A quoted string that contains no percent sign is the original string
(up to the `+`-to-space replacement, which then is the identity). -/
theorem plusToSpace_quotePlus_no_pct (s : PyStr)
    (h : ¬ '%' ∈ pyPlusToSpace (pyQuotePlus s)) :
    pyPlusToSpace (pyQuotePlus s) = s := by
  induction s with
  | nil => rfl
  | cons c rest ih =>
    rw [pyQuotePlus_cons, pyPlusToSpace_append] at h ⊢
    have hnr : ¬ '%' ∈ pyPlusToSpace (pyQuotePlus rest) := fun hm =>
      h (List.mem_append.mpr (Or.inr hm))
    have hnc : ¬ '%' ∈ pyPlusToSpace ((utf8EncodeChar c).map quoteByte).flatten := fun hm =>
      h (List.mem_append.mpr (Or.inl hm))
    rw [ih hnr]
    have hval := char_valid_toNat c
    by_cases hascii : c.toNat < 128
    · have henc : utf8EncodeChar c = [c.toNat] := by
        unfold utf8EncodeChar
        rw [if_pos hascii]
      rw [henc] at hnc ⊢
      have hfl : (List.map quoteByte [c.toNat]).flatten = quoteByte c.toNat := by simp
      rw [hfl] at hnc ⊢
      rw [plusToSpace_quoteByte c.toNat (by omega)] at hnc ⊢
      by_cases h32 : c.toNat = 32
      · rw [if_pos h32]
        have : c = ' ' := char_eq_of_toNat_eq h32
        rw [this]
        rfl
      · rw [if_neg h32] at hnc ⊢
        by_cases hsafe : isSafeByte c.toNat = true
        · rw [if_pos hsafe, Char.ofNat_toNat]
          rfl
        · rw [if_neg hsafe] at hnc
          exact absurd (List.mem_cons_self '%' _) hnc
    · exfalso
      have hb0 : ∃ b0 tl, utf8EncodeChar c = b0 :: tl ∧ 194 ≤ b0 ∧ b0 < 256 := by
        unfold utf8EncodeChar
        rw [if_neg hascii]
        by_cases h2 : c.toNat < 2048
        · rw [if_pos h2]
          exact ⟨_, _, rfl, by omega, by omega⟩
        · rw [if_neg h2]
          by_cases h3 : c.toNat < 65536
          · rw [if_pos h3]
            exact ⟨_, _, rfl, by omega, by omega⟩
          · rw [if_neg h3]
            exact ⟨_, _, rfl, by omega, by omega⟩
      obtain ⟨b0, tl, henc, hge, hlt⟩ := hb0
      rw [henc] at hnc
      apply hnc
      show '%' ∈ pyPlusToSpace ((quoteByte b0 :: tl.map quoteByte).flatten)
      rw [List.flatten_cons, pyPlusToSpace_append]
      apply List.mem_append.mpr
      apply Or.inl
      rw [plusToSpace_quoteByte b0 hlt, if_neg (by omega),
        if_neg (by rw [isSafeByte_false_of_ge b0 (by omega)]; exact Bool.false_ne_true)]
      exact List.mem_cons_self '%' _

/-- Characters of a quoted-then-replaced string are ASCII. -/
theorem plusToSpace_quotePlus_ascii (s : PyStr) :
    ∀ c ∈ pyPlusToSpace (pyQuotePlus s), isAsciiChar c = true := by
  intro c hc
  unfold pyPlusToSpace at hc
  rw [List.mem_map] at hc
  obtain ⟨c0, hc0, rfl⟩ := hc
  have hb := mem_pyQuotePlus_toNat s hc0
  by_cases h43 : c0 = '+'
  · rw [if_pos h43]
    decide
  · rw [if_neg h43]
    unfold isAsciiChar
    simp only [decide_eq_true_eq]
    omega

/-- The full `unquote(quote_plus(s).replace('+', ' '))` round trip. -/
theorem pyUnquote_plusToSpace_quotePlus (s : PyStr) :
    pyUnquote (pyPlusToSpace (pyQuotePlus s)) = s := by
  unfold pyUnquote
  by_cases hp : (pyPlusToSpace (pyQuotePlus s)).contains '%' = true
  · rw [if_pos hp]
    rw [unquoteChunks_ascii _ (plusToSpace_quotePlus_ascii s),
      percentDecode_plusToSpace_quotePlus, utf8DecodeReplace_encode]
  · rw [if_neg hp]
    apply plusToSpace_quotePlus_no_pct
    intro hm
    exact hp (List.elem_eq_true_of_mem hm)

/-! ## parse_qsl of urlencode -/

/-- `pySplitOnce` misses an absent separator. -/
theorem pySplitOnce_eq_none (s : PyStr) (ch : Char) (h : ∀ x ∈ s, ¬ x = ch) :
    pySplitOnce s ch = none := by
  induction s with
  | nil => rfl
  | cons a rest ih =>
    unfold pySplitOnce
    rw [if_neg (h a (List.mem_cons_self a rest))]
    rw [ih (fun x hx => h x (List.mem_cons_of_mem a hx))]
    rfl

/-- `pySplitOnce` splits at an explicit first separator. -/
theorem pySplitOnce_append (a b : PyStr) (ch : Char) (h : ∀ x ∈ a, ¬ x = ch) :
    pySplitOnce (a ++ ch :: b) ch = some (a, b) := by
  induction a with
  | nil =>
    show pySplitOnce (ch :: b) ch = _
    unfold pySplitOnce
    rw [if_pos rfl]
  | cons x rest ih =>
    show pySplitOnce (x :: (rest ++ ch :: b)) ch = _
    unfold pySplitOnce
    rw [if_neg (h x (List.mem_cons_self x rest))]
    rw [ih (fun y hy => h y (List.mem_cons_of_mem x hy))]
    rfl

/-- The split fold passes over separator-free text. -/
theorem foldr_splitStep_no_sep (c : Char) (p : PyStr) (acc : PyStr × List PyStr)
    (h : ∀ x ∈ p, ¬ x = c) :
    p.foldr (fun ch acc => if ch = c then ([], acc.1 :: acc.2) else (ch :: acc.1, acc.2)) acc =
      (p ++ acc.1, acc.2) := by
  induction p with
  | nil => rfl
  | cons x rest ih =>
    rw [List.foldr_cons, ih (fun y hy => h y (List.mem_cons_of_mem x hy)),
      if_neg (h x (List.mem_cons_self x rest))]
    rfl

/-- `str.split(c)` of separator-free text. -/
theorem pySplitAll_no_sep (c : Char) (p : PyStr) (h : ∀ x ∈ p, ¬ x = c) :
    pySplitAll p c = [p] := by
  unfold pySplitAll
  rw [foldr_splitStep_no_sep c p _ h]
  simp

/-- `str.split(c)` peels one leading separator-free piece. -/
theorem pySplitAll_append_sep (c : Char) (p rest : PyStr) (h : ∀ x ∈ p, ¬ x = c) :
    pySplitAll (p ++ c :: rest) c = p :: pySplitAll rest c := by
  unfold pySplitAll
  rw [List.foldr_append, List.foldr_cons, if_pos rfl, foldr_splitStep_no_sep c p _ h]
  simp

/-- `str.split(c)` inverts `c.join` on separator-free pieces. -/
theorem pySplitAll_intercalate (c : Char) (pieces : List PyStr) (hne : ¬ pieces = [])
    (h : ∀ p ∈ pieces, ∀ x ∈ p, ¬ x = c) :
    pySplitAll (pyIntercalate c pieces) c = pieces := by
  induction pieces with
  | nil => exact absurd rfl hne
  | cons p rest ih =>
    cases rest with
    | nil =>
      have he : pyIntercalate c [p] = p := rfl
      rw [he]
      exact pySplitAll_no_sep c p (h p (List.mem_cons_self p []))
    | cons q rest2 =>
      have he : pyIntercalate c (p :: q :: rest2) = p ++ c :: pyIntercalate c (q :: rest2) := rfl
      rw [he]
      rw [pySplitAll_append_sep c p _ (h p (List.mem_cons_self p _))]
      rw [ih (by simp) (fun y hy x hx => h y (List.mem_cons_of_mem p hy) x hx)]

/-- `quoteByte` is never empty. -/
theorem quoteByte_ne_nil (b : Nat) : ¬ quoteByte b = [] := by
  unfold quoteByte
  split
  · simp
  · split <;> simp

/-- `utf8EncodeChar` is never empty. -/
theorem utf8EncodeChar_ne_nil (c : Char) : ¬ utf8EncodeChar c = [] := by
  unfold utf8EncodeChar
  dsimp only
  split
  · simp
  · split
    · simp
    · split <;> simp

/-- `quote_plus` of a nonempty string is nonempty. -/
theorem pyQuotePlus_ne_nil (v : PyStr) (h : ¬ v = []) : ¬ pyQuotePlus v = [] := by
  intro hq
  unfold pyQuotePlus at hq
  rw [List.flatten_eq_nil_iff] at hq
  cases v with
  | nil => exact h rfl
  | cons c r =>
    have hb : utf8EncodeChar c ≠ [] := utf8EncodeChar_ne_nil c
    cases henc : utf8EncodeChar c with
    | nil => exact hb henc
    | cons b0 tl =>
      have hmem : b0 ∈ utf8Encode (c :: r) := by
        unfold utf8Encode
        rw [List.map_cons, List.flatten_cons, henc]
        exact List.mem_append.mpr (Or.inl (List.mem_cons_self b0 tl))
      have := hq (quoteByte b0) (List.mem_map.mpr ⟨b0, hmem, rfl⟩)
      exact quoteByte_ne_nil b0 this

/-- A `k=v` piece of `urlencode` parses back to the decoded pair. -/
theorem foldr_qsl_pieces (ps : List (PyStr × PyStr)) (h : ∀ kv ∈ ps, ¬ kv.2 = []) :
    (ps.map (fun kv => pyQuotePlus kv.1 ++ '=' :: pyQuotePlus kv.2)).foldr
      (fun nv acc =>
        if nv = [] then acc
        else
          match pySplitOnce nv '=' with
          | none => acc
          | some p =>
            if p.2 = [] then acc
            else (pyUnquote (pyPlusToSpace p.1), pyUnquote (pyPlusToSpace p.2)) :: acc)
      [] = ps := by
  induction ps with
  | nil => rfl
  | cons kv rest ih =>
    rw [List.map_cons, List.foldr_cons, ih (fun x hx => h x (List.mem_cons_of_mem kv hx))]
    have hq : ∀ x ∈ pyQuotePlus kv.1, ¬ x = '=' := by
      intro x hx heq
      have hb := mem_pyQuotePlus_toNat kv.1 hx
      rw [heq] at hb
      exact hb.2.2.2.2.2.2.2.1 rfl
    rw [if_neg (by simp)]
    rw [pySplitOnce_append _ _ _ hq]
    have hv : ¬ pyQuotePlus kv.2 = [] := pyQuotePlus_ne_nil kv.2 (h kv (List.mem_cons_self kv rest))
    dsimp only
    rw [if_neg hv]
    rw [pyUnquote_plusToSpace_quotePlus, pyUnquote_plusToSpace_quotePlus]

/-- A nonempty-headed join is nonempty. -/
theorem pyIntercalate_ne_nil (c : Char) (x : PyStr) (rest : List PyStr) (hx : ¬ x = []) :
    ¬ pyIntercalate c (x :: rest) = [] := by
  cases rest with
  | nil => exact hx
  | cons y r =>
    have he : pyIntercalate c (x :: y :: r) = x ++ c :: pyIntercalate c (y :: r) := rfl
    rw [he]
    simp

/-- `parse_qsl` inverts `urlencode` up to flattening of the value lists. -/
theorem pyParseQsl_urlencode (l : List (PyStr × List PyStr))
    (h : ∀ kv ∈ l, ∀ v ∈ kv.2, ¬ v = []) :
    pyParseQsl (pyUrlencode l) =
      (l.map (fun kv => kv.2.map (fun v => (kv.1, v)))).flatten := by
  have hpieces : (l.map (fun kv => kv.2.map (fun v => pyQuotePlus kv.1 ++ '=' :: pyQuotePlus v))).flatten
      = ((l.map (fun kv => kv.2.map (fun v => (kv.1, v)))).flatten).map
          (fun kv => pyQuotePlus kv.1 ++ '=' :: pyQuotePlus kv.2) := by
    rw [List.map_flatten, List.map_map]
    apply congrArg
    apply List.map_congr_left
    intro kv _
    show _ = (kv.2.map (fun v => (kv.1, v))).map (fun kw => pyQuotePlus kw.1 ++ '=' :: pyQuotePlus kw.2)
    rw [List.map_map]
    rfl
  have hflat : ∀ kv ∈ (l.map (fun kv => kv.2.map (fun v => (kv.1, v)))).flatten, ¬ kv.2 = [] := by
    intro kv hkv
    rw [List.mem_flatten] at hkv
    obtain ⟨piece, hp, hkvp⟩ := hkv
    rw [List.mem_map] at hp
    obtain ⟨kw, hkw, rfl⟩ := hp
    rw [List.mem_map] at hkvp
    obtain ⟨v, hv, rfl⟩ := hkvp
    exact h kw hkw v hv
  unfold pyUrlencode pyParseQsl
  rw [hpieces]
  cases hfp : (l.map (fun kv => kv.2.map (fun v => (kv.1, v)))).flatten with
  | nil => rfl
  | cons kv0 ps =>
    have hqs : ¬ pyIntercalate '&'
        (((kv0 :: ps).map (fun kv => pyQuotePlus kv.1 ++ '=' :: pyQuotePlus kv.2))) = [] := by
      rw [List.map_cons]
      exact pyIntercalate_ne_nil '&' _ _ (by simp)
    rw [if_neg hqs]
    have hnoamp : ∀ p ∈ (kv0 :: ps).map (fun kv => pyQuotePlus kv.1 ++ '=' :: pyQuotePlus kv.2),
        ∀ x ∈ p, ¬ x = '&' := by
      intro p hp x hx heq
      rw [List.mem_map] at hp
      obtain ⟨kw, _, rfl⟩ := hp
      rw [List.mem_append] at hx
      rcases hx with hx | hx
      · have hb := mem_pyQuotePlus_toNat kw.1 hx
        rw [heq] at hb
        exact hb.2.2.2.1 rfl
      · rw [List.mem_cons] at hx
        rcases hx with hx | hx
        · rw [hx] at heq
          cases heq
        · have hb := mem_pyQuotePlus_toNat kw.2 hx
          rw [heq] at hb
          exact hb.2.2.2.1 rfl
    rw [pySplitAll_intercalate '&' _ (by simp) hnoamp]
    have := foldr_qsl_pieces (kv0 :: ps) (by rw [← hfp]; exact hflat)
    exact this

/-! ## parse_qs grouping -/

/-- Inserting a fresh key appends it. -/
theorem qsInsert_notMem (d : List (PyStr × List PyStr)) (k : PyStr) (v : PyStr)
    (h : ∀ kv ∈ d, ¬ kv.1 = k) : qsInsert d k v = d ++ [(k, [v])] := by
  induction d with
  | nil => rfl
  | cons a rest ih =>
    obtain ⟨k', vs⟩ := a
    show qsInsert ((k', vs) :: rest) k v = _
    unfold qsInsert
    rw [if_neg (h (k', vs) (List.mem_cons_self _ rest))]
    rw [ih (fun kv hkv => h kv (List.mem_cons_of_mem _ hkv))]
    rfl

/-- Inserting into the final run extends its value list. -/
theorem qsInsert_append_match (d : List (PyStr × List PyStr)) (k : PyStr) (ws : List PyStr)
    (v : PyStr) (h : ∀ kv ∈ d, ¬ kv.1 = k) :
    qsInsert (d ++ [(k, ws)]) k v = d ++ [(k, ws ++ [v])] := by
  induction d with
  | nil =>
    show qsInsert [(k, ws)] k v = _
    unfold qsInsert
    rw [if_pos rfl]
    rfl
  | cons a rest ih =>
    obtain ⟨k', vs⟩ := a
    show qsInsert ((k', vs) :: (rest ++ [(k, ws)])) k v = _
    unfold qsInsert
    rw [if_neg (h (k', vs) (List.mem_cons_self _ rest))]
    rw [ih (fun kv hkv => h kv (List.mem_cons_of_mem _ hkv))]
    rfl

/-- Folding one key run of the flat pair list extends its value list. -/
theorem foldl_qsInsert_run (k : PyStr) (vs : List PyStr) (d : List (PyStr × List PyStr))
    (ws : List PyStr) (h : ∀ kv ∈ d, ¬ kv.1 = k) :
    (vs.map (fun v => (k, v))).foldl (fun d kv => qsInsert d kv.1 kv.2) (d ++ [(k, ws)]) =
      d ++ [(k, ws ++ vs)] := by
  induction vs generalizing ws with
  | nil => simp
  | cons v vs' ih =>
    rw [List.map_cons, List.foldl_cons]
    dsimp only
    rw [qsInsert_append_match d k ws v h]
    rw [ih (ws ++ [v])]
    simp

/-- Folding the flattened pair list rebuilds the grouped association list. -/
theorem foldl_qsInsert_flat (l : List (PyStr × List PyStr)) (d : List (PyStr × List PyStr))
    (hd : ∀ kv ∈ d, ∀ kw ∈ l, ¬ kv.1 = kw.1)
    (hk : l.Pairwise (fun a b => ¬ a.1 = b.1))
    (hv : ∀ kv ∈ l, ¬ kv.2 = []) :
    ((l.map (fun kv => kv.2.map (fun v => (kv.1, v)))).flatten).foldl
      (fun d kv => qsInsert d kv.1 kv.2) d = d ++ l := by
  induction l generalizing d with
  | nil => simp
  | cons kv rest ih =>
    obtain ⟨k, vs⟩ := kv
    cases vs with
    | nil => exact absurd rfl (hv (k, []) (List.mem_cons_self _ rest))
    | cons v vs' =>
      rw [List.map_cons, List.flatten_cons, List.foldl_append]
      rw [List.map_cons, List.foldl_cons]
      dsimp only
      have hdk : ∀ kw ∈ d, ¬ kw.1 = k := fun kw hkw =>
        hd kw hkw (k, v :: vs') (List.mem_cons_self _ rest)
      rw [qsInsert_notMem d k v hdk]
      rw [foldl_qsInsert_run k vs' d [v] hdk]
      simp only [List.singleton_append]
      rw [List.pairwise_cons] at hk
      have hd1 : ∀ kw ∈ d ++ [(k, v :: vs')], ∀ kw2 ∈ rest, ¬ kw.1 = kw2.1 := by
        intro kw hkw kw2 hkw2
        rw [List.mem_append] at hkw
        rcases hkw with hkw | hkw
        · exact hd kw hkw kw2 (List.mem_cons_of_mem _ hkw2)
        · rw [List.mem_singleton] at hkw
          subst hkw
          exact hk.1 kw2 hkw2
      rw [ih (d ++ [(k, v :: vs')]) hd1 hk.2 (fun kw hkw => hv kw (List.mem_cons_of_mem _ hkw))]
      simp

/-- `parse_qs` inverts `urlencode` on grouped lists with distinct keys and
nonempty values. -/
theorem pyParseQs_urlencode (l : List (PyStr × List PyStr))
    (hk : l.Pairwise (fun a b => ¬ a.1 = b.1))
    (hvl : ∀ kv ∈ l, ¬ kv.2 = [])
    (hvs : ∀ kv ∈ l, ∀ v ∈ kv.2, ¬ v = []) :
    pyParseQs (pyUrlencode l) = l := by
  unfold pyParseQs
  rw [pyParseQsl_urlencode l hvs]
  have := foldl_qsInsert_flat l [] (by simp) hk hvl
  simpa using this

/-! ## Non-emptiness of unquoted values -/

/-- `+`-to-space of a nonempty string is nonempty. -/
theorem pyPlusToSpace_ne_nil (s : PyStr) (h : ¬ s = []) : ¬ pyPlusToSpace s = [] := by
  cases s with
  | nil => exact absurd rfl h
  | cons c r => simp [pyPlusToSpace]

/-- UTF-8 decoding of a nonempty byte string is nonempty. -/
theorem utf8DecodeReplace_ne_nil (b : Nat) (bs : List Nat) :
    ¬ utf8DecodeReplace (b :: bs) = [] := by
  rw [utf8DecodeReplace.eq_def]
  dsimp only
  repeat' split
  all_goals simp

/-- Percent-decoding of a nonempty string is nonempty. -/
theorem percentDecodeBytes_ne_nil (s : PyStr) (h : ¬ s = []) :
    ¬ percentDecodeBytes s = [] := by
  cases s with
  | nil => exact absurd rfl h
  | cons c r =>
    rw [percentDecodeBytes.eq_def]
    dsimp only
    repeat' split
    all_goals simp

/-- The chunk walk of a nonempty string is nonempty. -/
theorem unquoteChunks_ne_nil (s : PyStr) (h : ¬ s = []) : ¬ unquoteChunks s = [] := by
  cases s with
  | nil => exact absurd rfl h
  | cons c rest =>
    rw [unquoteChunks]
    rw [if_neg (by simp)]
    dsimp only
    by_cases hc : isAsciiChar c = true
    · rw [List.takeWhile_cons, if_neg (by simp [hc]), List.dropWhile_cons, if_neg (by simp [hc])]
      rw [List.takeWhile_cons, if_pos (by simp [hc])]
      intro habs
      rw [List.append_eq_nil, List.append_eq_nil] at habs
      have hpd := percentDecodeBytes_ne_nil (c :: List.takeWhile isAsciiChar rest) (by simp)
      cases hpdb : percentDecodeBytes (c :: List.takeWhile isAsciiChar rest) with
      | nil => exact hpd hpdb
      | cons b bs =>
        rw [hpdb] at habs
        exact utf8DecodeReplace_ne_nil b bs habs.1.2
    · rw [List.takeWhile_cons, if_pos (by simp [hc])]
      simp

/-- `unquote` of a nonempty string is nonempty. -/
theorem pyUnquote_ne_nil (s : PyStr) (h : ¬ s = []) : ¬ pyUnquote s = [] := by
  unfold pyUnquote
  by_cases hp : s.contains '%' = true
  · rw [if_pos hp]
    exact unquoteChunks_ne_nil s h
  · rw [if_neg hp]
    exact h

/-- Every pair produced by `parse_qsl` has a nonempty value. -/
theorem pyParseQsl_snd_ne_nil (qs : PyStr) : ∀ kv ∈ pyParseQsl qs, ¬ kv.2 = [] := by
  unfold pyParseQsl
  generalize (if qs = [] then ([] : List PyStr) else pySplitAll qs '&') = args
  induction args with
  | nil => simp
  | cons a rest ih =>
    rw [List.foldr_cons]
    intro kv hkv
    by_cases ha : a = []
    · rw [if_pos ha] at hkv
      exact ih kv hkv
    · rw [if_neg ha] at hkv
      cases hsp : pySplitOnce a '=' with
      | none =>
        rw [hsp] at hkv
        exact ih kv hkv
      | some p =>
        rw [hsp] at hkv
        dsimp only at hkv
        by_cases hp2 : p.2 = []
        · rw [if_pos hp2] at hkv
          exact ih kv hkv
        · rw [if_neg hp2] at hkv
          rw [List.mem_cons] at hkv
          rcases hkv with hkv | hkv
          · rw [hkv]
            exact pyUnquote_ne_nil _ (pyPlusToSpace_ne_nil _ hp2)
          · exact ih kv hkv

/-- Keys of `qsInsert`: unchanged for a present key, appended otherwise. -/
theorem qsInsert_keys (d : List (PyStr × List PyStr)) (k : PyStr) (v : PyStr) :
    (qsInsert d k v).map Prod.fst =
      if k ∈ d.map Prod.fst then d.map Prod.fst else d.map Prod.fst ++ [k] := by
  induction d with
  | nil => simp [qsInsert]
  | cons a rest ih =>
    obtain ⟨k', vs⟩ := a
    show (qsInsert ((k', vs) :: rest) k v).map Prod.fst = _
    unfold qsInsert
    by_cases hk : k' = k
    · rw [if_pos hk]
      subst hk
      rw [if_pos (by simp)]
      rfl
    · rw [if_neg hk]
      rw [List.map_cons, ih]
      by_cases hmem : k ∈ rest.map Prod.fst
      · rw [if_pos hmem, if_pos (by simp [hmem])]
        rfl
      · rw [if_neg hmem, if_neg (by
          simp only [List.map_cons, List.mem_cons]
          push_neg
          exact ⟨fun h => hk h.symm, by simpa using hmem⟩)]
        rfl

/-- `qsInsert` preserves key distinctness. -/
theorem qsInsert_keys_nodup (d : List (PyStr × List PyStr)) (k : PyStr) (v : PyStr)
    (h : (d.map Prod.fst).Nodup) : ((qsInsert d k v).map Prod.fst).Nodup := by
  rw [qsInsert_keys]
  by_cases hmem : k ∈ d.map Prod.fst
  · rw [if_pos hmem]
    exact h
  · rw [if_neg hmem]
    rw [List.nodup_append]
    exact ⟨h, List.nodup_singleton k, by simpa using hmem⟩

/-- `qsInsert` preserves nonemptiness of values when inserting a nonempty value. -/
theorem qsInsert_values (d : List (PyStr × List PyStr)) (k : PyStr) (v : PyStr)
    (hv : ¬ v = [])
    (h : ∀ kv ∈ d, ¬ kv.2 = [] ∧ ∀ x ∈ kv.2, ¬ x = []) :
    ∀ kv ∈ qsInsert d k v, ¬ kv.2 = [] ∧ ∀ x ∈ kv.2, ¬ x = [] := by
  induction d with
  | nil =>
    intro kv hkv
    simp only [qsInsert, List.mem_singleton] at hkv
    subst hkv
    exact ⟨by simp, by simpa using hv⟩
  | cons a rest ih =>
    obtain ⟨k', vs⟩ := a
    intro kv hkv
    rw [show qsInsert ((k', vs) :: rest) k v =
        if k' = k then (k', vs ++ [v]) :: rest else (k', vs) :: qsInsert rest k v from rfl] at hkv
    by_cases hk : k' = k
    · rw [if_pos hk] at hkv
      rw [List.mem_cons] at hkv
      rcases hkv with hkv | hkv
      · subst hkv
        refine ⟨by simp, ?_⟩
        intro x hx
        rw [List.mem_append] at hx
        rcases hx with hx | hx
        · exact (h (k', vs) (List.mem_cons_self _ rest)).2 x hx
        · rw [List.mem_singleton] at hx
          subst hx
          exact hv
      · exact h kv (List.mem_cons_of_mem _ hkv)
    · rw [if_neg hk] at hkv
      rw [List.mem_cons] at hkv
      rcases hkv with hkv | hkv
      · subst hkv
        exact h (k', vs) (List.mem_cons_self _ rest)
      · exact ih (fun kw hkw => h kw (List.mem_cons_of_mem _ hkw)) kv hkv

/-- The `qsInsert` fold preserves key distinctness and value nonemptiness. -/
theorem foldl_qsInsert_invariants (ps : List (PyStr × PyStr)) :
    ∀ (acc : List (PyStr × List PyStr)),
      (∀ kv ∈ ps, ¬ kv.2 = []) →
      (acc.map Prod.fst).Nodup →
      (∀ kv ∈ acc, ¬ kv.2 = [] ∧ ∀ x ∈ kv.2, ¬ x = []) →
      ((ps.foldl (fun d kv => qsInsert d kv.1 kv.2) acc).map Prod.fst).Nodup ∧
        ∀ kv ∈ ps.foldl (fun d kv => qsInsert d kv.1 kv.2) acc,
          ¬ kv.2 = [] ∧ ∀ x ∈ kv.2, ¬ x = [] := by
  induction ps with
  | nil =>
    intro acc _ h1 h2
    exact ⟨h1, h2⟩
  | cons p rest ih =>
    intro acc hsnd h1 h2
    rw [List.foldl_cons]
    exact ih _ (fun kv hkv => hsnd kv (List.mem_cons_of_mem _ hkv))
      (qsInsert_keys_nodup acc p.1 p.2 h1)
      (qsInsert_values acc p.1 p.2 (hsnd p (List.mem_cons_self _ rest)) h2)

/-- Structural invariants of `parse_qs`: distinct keys, nonempty value lists,
nonempty value strings. -/
theorem pyParseQs_invariants (qs : PyStr) :
    ((pyParseQs qs).map Prod.fst).Nodup ∧
      ∀ kv ∈ pyParseQs qs, ¬ kv.2 = [] ∧ ∀ x ∈ kv.2, ¬ x = [] := by
  unfold pyParseQs
  exact foldl_qsInsert_invariants (pyParseQsl qs) [] (pyParseQsl_snd_ne_nil qs)
    (by simp) (by simp)

/-! ## String ordering and the sorted fixpoint -/

/-- `pyStrLt` is irreflexive. -/
theorem pyStrLt_irrefl (a : PyStr) : pyStrLt a a = false := by
  induction a with
  | nil => rfl
  | cons x s ih =>
    unfold pyStrLt
    rw [if_neg (by omega), if_neg (by omega)]
    exact ih

/-- `pyStrLt` is asymmetric. -/
theorem pyStrLt_asymm (a b : PyStr) (h : pyStrLt a b = true) : pyStrLt b a = false := by
  induction a generalizing b with
  | nil =>
    cases b with
    | nil => cases h
    | cons y t => rfl
  | cons x s ih =>
    cases b with
    | nil => cases h
    | cons y t =>
      unfold pyStrLt at h ⊢
      by_cases hxy : x.toNat < y.toNat
      · have hyx : ¬ y.toNat < x.toNat := by omega
        rw [if_neg hyx, if_pos hxy]
      · rw [if_neg hxy] at h
        by_cases hyx : y.toNat < x.toNat
        · rw [if_pos hyx] at h
          cases h
        · rw [if_neg hyx] at h
          rw [if_neg hyx, if_neg hxy]
          exact ih t h

/-- Mutually non-smaller strings are equal. -/
theorem pyStrLt_total_eq (a b : PyStr) (h1 : pyStrLt a b = false) (h2 : pyStrLt b a = false) :
    a = b := by
  induction a generalizing b with
  | nil =>
    cases b with
    | nil => rfl
    | cons y t => cases h1
  | cons x s ih =>
    cases b with
    | nil => cases h2
    | cons y t =>
      unfold pyStrLt at h1 h2
      by_cases hxy : x.toNat < y.toNat
      · rw [if_pos hxy] at h1
        cases h1
      · by_cases hyx : y.toNat < x.toNat
        · rw [if_pos hyx] at h2
          cases h2
        · rw [if_neg hxy, if_neg hyx] at h1
          rw [if_neg hyx, if_neg hxy] at h2
          have hx : x = y := char_eq_of_toNat_eq (by omega)
          rw [hx, ih t h1 h2]

/-- `pyStrLt` is transitive. -/
theorem pyStrLt_trans (a b c : PyStr) (h1 : pyStrLt a b = true) (h2 : pyStrLt b c = true) :
    pyStrLt a c = true := by
  induction a generalizing b c with
  | nil =>
    cases c with
    | nil =>
      cases b with
      | nil => cases h1
      | cons y t => cases h2
    | cons z u => rfl
  | cons x s ih =>
    cases b with
    | nil => cases h1
    | cons y t =>
      cases c with
      | nil => cases h2
      | cons z u =>
        unfold pyStrLt at h1 h2 ⊢
        by_cases hxy : x.toNat < y.toNat
        · by_cases hyz : y.toNat < z.toNat
          · have hxz : x.toNat < z.toNat := by omega
            rw [if_pos hxz]
          · rw [if_neg hyz] at h2
            by_cases hzy : z.toNat < y.toNat
            · rw [if_pos hzy] at h2
              cases h2
            · have hxz : x.toNat < z.toNat := by omega
              rw [if_pos hxz]
        · rw [if_neg hxy] at h1
          by_cases hyx : y.toNat < x.toNat
          · rw [if_pos hyx] at h1
            cases h1
          · rw [if_neg hyx] at h1
            by_cases hyz : y.toNat < z.toNat
            · have hxz : x.toNat < z.toNat := by omega
              rw [if_pos hxz]
            · rw [if_neg hyz] at h2
              by_cases hzy : z.toNat < y.toNat
              · rw [if_pos hzy] at h2
                cases h2
              · rw [if_neg hzy] at h2
                have hxz : ¬ x.toNat < z.toNat := by omega
                have hzx : ¬ z.toNat < x.toNat := by omega
                rw [if_neg hxz, if_neg hzx]
                exact ih t u h1 h2

/-- Membership in an insertion step. -/
theorem mem_sortInsertPair (x y : PyStr × List PyStr) (l : List (PyStr × List PyStr)) :
    y ∈ sortInsertPair x l ↔ y = x ∨ y ∈ l := by
  induction l with
  | nil =>
    show y ∈ [x] ↔ _
    simp
  | cons z rest ih =>
    show y ∈ (if pyStrLt z.1 x.1 = true then z :: sortInsertPair x rest else x :: z :: rest) ↔ _
    by_cases hz : pyStrLt z.1 x.1 = true
    · rw [if_pos hz]
      simp only [List.mem_cons]
      rw [ih]
      tauto
    · rw [if_neg hz]
      simp only [List.mem_cons]

/-- Membership in the insertion sort. -/
theorem mem_pySortPairs (l : List (PyStr × List PyStr)) (y : PyStr × List PyStr) :
    y ∈ pySortPairs l ↔ y ∈ l := by
  induction l with
  | nil => exact Iff.rfl
  | cons a rest ih =>
    show y ∈ sortInsertPair a (pySortPairs rest) ↔ _
    rw [mem_sortInsertPair, ih]
    exact (List.mem_cons).symm

/-- The head of an insertion step is the inserted pair or the old head. -/
theorem sortInsertPair_head (x : PyStr × List PyStr) (l : List (PyStr × List PyStr)) :
    ∀ y ∈ (sortInsertPair x l).head?, y = x ∨ l.head? = some y := by
  cases l with
  | nil =>
    intro y hy
    simp only [show sortInsertPair x [] = [x] from rfl, List.head?_cons, Option.mem_def,
      Option.some.injEq] at hy
    exact Or.inl hy.symm
  | cons z rest =>
    intro y hy
    rw [show sortInsertPair x (z :: rest) =
      if pyStrLt z.1 x.1 = true then z :: sortInsertPair x rest else x :: z :: rest from rfl] at hy
    by_cases hz : pyStrLt z.1 x.1 = true
    · rw [if_pos hz] at hy
      simp only [List.head?_cons, Option.mem_def, Option.some.injEq] at hy
      exact Or.inr (by rw [hy]; rfl)
    · rw [if_neg hz] at hy
      simp only [List.head?_cons, Option.mem_def, Option.some.injEq] at hy
      exact Or.inl hy.symm

/-- Inserting a fresh key keeps the list strictly sorted. -/
theorem sortInsertPair_chain (x : PyStr × List PyStr) (l : List (PyStr × List PyStr))
    (hl : List.Chain' (fun a b => pyStrLt a.1 b.1 = true) l)
    (hne : ∀ y ∈ l, ¬ y.1 = x.1) :
    List.Chain' (fun a b => pyStrLt a.1 b.1 = true) (sortInsertPair x l) := by
  induction l with
  | nil =>
    show List.Chain' _ [x]
    simp
  | cons z rest ih =>
    rw [show sortInsertPair x (z :: rest) =
      if pyStrLt z.1 x.1 = true then z :: sortInsertPair x rest else x :: z :: rest from rfl]
    rw [List.chain'_cons'] at hl
    by_cases hz : pyStrLt z.1 x.1 = true
    · rw [if_pos hz]
      rw [List.chain'_cons']
      constructor
      · intro y hy
        rcases sortInsertPair_head x rest y hy with hy' | hy'
        · rw [hy']
          exact hz
        · exact hl.1 y hy'
      · exact ih hl.2 (fun y hy => hne y (List.mem_cons_of_mem _ hy))
    · rw [if_neg hz]
      rw [List.chain'_cons']
      constructor
      · intro y hy
        simp only [List.head?_cons, Option.mem_def, Option.some.injEq] at hy
        subst hy
        by_contra hx
        have := pyStrLt_total_eq _ _ (by simpa using hx) (by simpa using hz)
        exact hne z (List.mem_cons_self z rest) this.symm
      · rw [List.chain'_cons']
        exact hl

/-- Insertion sort of a list with distinct keys is strictly sorted. -/
theorem pySortPairs_chain (l : List (PyStr × List PyStr))
    (hk : List.Pairwise (fun a b => ¬ a.1 = b.1) l) :
    List.Chain' (fun a b => pyStrLt a.1 b.1 = true) (pySortPairs l) := by
  induction l with
  | nil => simp [pySortPairs]
  | cons a rest ih =>
    rw [List.pairwise_cons] at hk
    show List.Chain' _ (sortInsertPair a (pySortPairs rest))
    apply sortInsertPair_chain a _ (ih hk.2)
    intro y hy
    have hmem := (mem_pySortPairs rest y).mp hy
    exact fun h => hk.1 y hmem h.symm

/-- Insertion sort fixes a strictly sorted list. -/
theorem pySortPairs_of_chain (l : List (PyStr × List PyStr))
    (h : List.Chain' (fun a b => pyStrLt a.1 b.1 = true) l) :
    pySortPairs l = l := by
  induction l with
  | nil => rfl
  | cons a rest ih =>
    rw [List.chain'_cons'] at h
    show sortInsertPair a (pySortPairs rest) = a :: rest
    rw [ih h.2]
    cases rest with
    | nil => rfl
    | cons z r =>
      show (if pyStrLt z.1 a.1 = true then z :: sortInsertPair a r else a :: z :: r) = _
      rw [if_neg (by
        rw [pyStrLt_asymm _ _ (h.1 z (by simp))]
        simp)]

/-- The cleaned, sorted parameter list is a fixpoint of parse, filter and sort. -/
theorem sorted_cleaned_params_fix (q : PyStr) :
    pyParseQs (pyUrlencode (pySortPairs ((pyParseQs q).filter
        (fun kv => !(trackingParams.contains kv.1))))) =
      pySortPairs ((pyParseQs q).filter (fun kv => !(trackingParams.contains kv.1))) ∧
    (pySortPairs ((pyParseQs q).filter (fun kv => !(trackingParams.contains kv.1)))).filter
        (fun kv => !(trackingParams.contains kv.1)) =
      pySortPairs ((pyParseQs q).filter (fun kv => !(trackingParams.contains kv.1))) ∧
    pySortPairs (pySortPairs ((pyParseQs q).filter
        (fun kv => !(trackingParams.contains kv.1)))) =
      pySortPairs ((pyParseQs q).filter (fun kv => !(trackingParams.contains kv.1))) := by
  obtain ⟨hnodup, hvals⟩ := pyParseQs_invariants q
  have hsub : ∀ kv ∈ (pyParseQs q).filter (fun kv => !(trackingParams.contains kv.1)),
      kv ∈ pyParseQs q := fun kv hkv => (List.mem_filter.mp hkv).1
  have hcl_nodup : (((pyParseQs q).filter (fun kv => !(trackingParams.contains kv.1))).map
      Prod.fst).Nodup := by
    have hsl : ((pyParseQs q).filter (fun kv => !(trackingParams.contains kv.1))).Sublist
        (pyParseQs q) := List.filter_sublist _
    exact List.Nodup.sublist (hsl.map Prod.fst) hnodup
  have hcl_pair : ((pyParseQs q).filter (fun kv => !(trackingParams.contains kv.1))).Pairwise
      (fun a b => ¬ a.1 = b.1) := List.pairwise_map.mp hcl_nodup
  have hchain := pySortPairs_chain _ hcl_pair
  have hS_mem : ∀ kv ∈ pySortPairs ((pyParseQs q).filter
      (fun kv => !(trackingParams.contains kv.1))),
      kv ∈ (pyParseQs q).filter (fun kv => !(trackingParams.contains kv.1)) :=
    fun kv hkv => (mem_pySortPairs _ kv).mp hkv
  have hS_pair : (pySortPairs ((pyParseQs q).filter
      (fun kv => !(trackingParams.contains kv.1)))).Pairwise (fun a b => ¬ a.1 = b.1) := by
    haveI : IsTrans (PyStr × List PyStr) (fun a b => pyStrLt a.1 b.1 = true) :=
      ⟨fun a b c h1 h2 => pyStrLt_trans _ _ _ h1 h2⟩
    have hp := List.chain'_iff_pairwise.mp hchain
    refine hp.imp ?_
    intro a b hlt heq
    rw [heq, pyStrLt_irrefl] at hlt
    cases hlt
  refine ⟨?_, ?_, ?_⟩
  · refine pyParseQs_urlencode _ hS_pair ?_ ?_
    · intro kv hkv
      exact (hvals kv (hsub kv (hS_mem kv hkv))).1
    · intro kv hkv v hv
      exact (hvals kv (hsub kv (hS_mem kv hkv))).2 v hv
  · apply List.filter_eq_self.mpr
    intro kv hkv
    exact (List.mem_filter.mp (hS_mem kv hkv)).2
  · exact pySortPairs_of_chain _ hchain

/-- Re-normalizing the encoded cleaned query reproduces it. -/
theorem urlencode_cleaned_fix (q : PyStr) :
    pyUrlencode (pySortPairs ((pyParseQs (pyUrlencode (pySortPairs ((pyParseQs q).filter
        (fun kv => !(trackingParams.contains kv.1)))))).filter
        (fun kv => !(trackingParams.contains kv.1)))) =
      pyUrlencode (pySortPairs ((pyParseQs q).filter
        (fun kv => !(trackingParams.contains kv.1)))) := by
  obtain ⟨h1, h2, h3⟩ := sorted_cleaned_params_fix q
  rw [h1, h2, h3]

/-! ## Structure of urlsplit -/

/-- Structure of `pySplitOnce`: a separator-free miss, or a decomposition at
the first occurrence. -/
theorem pySplitOnce_struct (s : PyStr) (c : Char) :
    (pySplitOnce s c = none ∧ ∀ x ∈ s, ¬ x = c) ∨
    (∃ a b, pySplitOnce s c = some (a, b) ∧ s = a ++ c :: b ∧ ∀ x ∈ a, ¬ x = c) := by
  induction s with
  | nil => exact Or.inl ⟨rfl, by simp⟩
  | cons y t ih =>
    by_cases hy : y = c
    · subst hy
      refine Or.inr ⟨[], t, ?_, rfl, by simp⟩
      unfold pySplitOnce
      rw [if_pos rfl]
    · rcases ih with ⟨hn, hall⟩ | ⟨a, b, hsp, heq, hall⟩
      · refine Or.inl ⟨?_, ?_⟩
        · unfold pySplitOnce
          rw [if_neg hy, hn]
          rfl
        · intro x hx
          rw [List.mem_cons] at hx
          rcases hx with hx | hx
          · subst hx
            exact hy
          · exact hall x hx
      · refine Or.inr ⟨y :: a, b, ?_, by rw [heq]; rfl, ?_⟩
        · unfold pySplitOnce
          rw [if_neg hy, hsp]
          rfl
        · intro x hx
          rw [List.mem_cons] at hx
          rcases hx with hx | hx
          · subst hx
            exact hy
          · exact hall x hx

/-- Structure of `pyFind`: a miss, or a decomposition at the first occurrence. -/
theorem pyFind_struct (s : PyStr) (c : Char) :
    (pyFind s c = none ∧ ∀ x ∈ s, ¬ x = c) ∨
    (∃ a b, pyFind s c = some a.length ∧ s = a ++ c :: b ∧ ∀ x ∈ a, ¬ x = c) := by
  induction s with
  | nil => exact Or.inl ⟨rfl, by simp⟩
  | cons y t ih =>
    by_cases hy : y = c
    · subst hy
      refine Or.inr ⟨[], t, ?_, rfl, by simp⟩
      unfold pyFind
      rw [if_pos rfl]
      rfl
    · rcases ih with ⟨hn, hall⟩ | ⟨a, b, hsp, heq, hall⟩
      · refine Or.inl ⟨?_, ?_⟩
        · unfold pyFind
          rw [if_neg hy, hn]
          rfl
        · intro x hx
          rw [List.mem_cons] at hx
          rcases hx with hx | hx
          · subst hx
            exact hy
          · exact hall x hx
      · refine Or.inr ⟨y :: a, b, ?_, by rw [heq]; rfl, ?_⟩
        · unfold pyFind
          rw [if_neg hy, hsp]
          rfl
        · intro x hx
          rw [List.mem_cons] at hx
          rcases hx with hx | hx
          · subst hx
            exact hy
          · exact hall x hx

/-- First-occurrence decompositions are unique. -/
theorem first_occ_unique (c : Char) : ∀ (a a' b b' : PyStr), a ++ c :: b = a' ++ c :: b' →
    (∀ x ∈ a, ¬ x = c) → (∀ x ∈ a', ¬ x = c) → a = a' ∧ b = b' := by
  intro a
  induction a with
  | nil =>
    intro a' b b' heq ha ha'
    cases a' with
    | nil =>
      rw [List.nil_append, List.nil_append, List.cons.injEq] at heq
      exact ⟨rfl, heq.2⟩
    | cons z t =>
      rw [List.nil_append, List.cons_append, List.cons.injEq] at heq
      exact absurd heq.1.symm (ha' z (List.mem_cons_self z t))
  | cons y s ih =>
    intro a' b b' heq ha ha'
    cases a' with
    | nil =>
      rw [List.cons_append, List.nil_append, List.cons.injEq] at heq
      exact absurd heq.1 (ha y (List.mem_cons_self y s))
    | cons z t =>
      rw [List.cons_append, List.cons_append, List.cons.injEq] at heq
      obtain ⟨hs, hb⟩ := ih t b b' heq.2 (fun x hx => ha x (List.mem_cons_of_mem y hx))
        (fun x hx => ha' x (List.mem_cons_of_mem z hx))
      exact ⟨by rw [heq.1, hs], hb⟩

/-- The kept part of an optional one-shot split is a separator-free prefix. -/
theorem splitOnce_prefix (s : PyStr) (c : Char) :
    ∃ w, s = (match pySplitOnce s c with | some p => p | none => (s, [])).1 ++ w ∧
      ∀ y ∈ (match pySplitOnce s c with | some p => p | none => (s, [])).1, ¬ y = c := by
  rcases pySplitOnce_struct s c with ⟨hn, hall⟩ | ⟨a, b, hsp, heq, hafree⟩
  · rw [hn]
    exact ⟨[], by simp, hall⟩
  · rw [hsp]
    exact ⟨c :: b, heq, hafree⟩

/-- The head surviving a `dropWhile` fails the predicate. -/
theorem dropWhile_head_false {α : Type} (p : α → Bool) (l : List α) (a : α) (t : List α)
    (h : l.dropWhile p = a :: t) : p a = false := by
  induction l with
  | nil => cases h
  | cons x xs ih =>
    rw [List.dropWhile_cons] at h
    by_cases hx : p x = true
    · rw [if_pos hx] at h
      exact ih h
    · rw [if_neg hx] at h
      rw [List.cons.injEq] at h
      rw [h.1] at hx
      exact Bool.eq_false_iff.mpr hx

/-- Staged structure of `pyUrlsplit`: the scheme stage either leaves the
sanitized URL unchanged or strips a scheme-shaped prefix; the netloc stage
either consumes `//…` or nothing; the path is a `#`/`?`-free prefix of the
remainder. -/
theorem pyUrlsplit_struct (x : PyStr) :
    ∃ url2 url3 pq,
      (((pyUrlsplit x).scheme = [] ∧
          url2 = (x.dropWhile isC0OrSpace).filter (fun c => !(isRemovedByte c))) ∨
        (∃ a b, (x.dropWhile isC0OrSpace).filter (fun c => !(isRemovedByte c)) = a ++ ':' :: b ∧
          (∀ y ∈ a, ¬ y = ':') ∧ 0 < a.length ∧
          ((((x.dropWhile isC0OrSpace).filter (fun c => !(isRemovedByte c))).take 1).all
            Char.isAlpha) = true ∧ a.all isSchemeChar = true ∧
          (pyUrlsplit x).scheme = pyLower a ∧ url2 = b)) ∧
      ((url2.take 2 = ['/', '/'] ∧
          (pyUrlsplit x).netloc = (url2.drop 2).takeWhile (fun c => !(isNetlocDelim c)) ∧
          url3 = (url2.drop 2).dropWhile (fun c => !(isNetlocDelim c))) ∨
        ((pyUrlsplit x).netloc = [] ∧ url3 = url2)) ∧
      url3 = (pyUrlsplit x).pathPart ++ pq ∧
      (∀ y ∈ (pyUrlsplit x).pathPart, ¬ y = '#' ∧ ¬ y = '?') := by
  unfold pyUrlsplit
  dsimp only
  rcases pyFind_struct ((x.dropWhile isC0OrSpace).filter (fun c => !(isRemovedByte c))) ':' with
    ⟨hf, hnone⟩ | ⟨a, b, hf, heq, hafree⟩
  · rw [hf]
    dsimp only
    by_cases ht2 : ((x.dropWhile isC0OrSpace).filter (fun c => !(isRemovedByte c))).take 2 =
        ['/', '/']
    · rw [if_pos ht2]
      dsimp only
      obtain ⟨w1, he1, hfree1⟩ := splitOnce_prefix
        ((((x.dropWhile isC0OrSpace).filter (fun c => !(isRemovedByte c))).drop 2).dropWhile
          (fun c => !(isNetlocDelim c))) '#'
      obtain ⟨w2, he2, hfree2⟩ := splitOnce_prefix
        ((match pySplitOnce ((((x.dropWhile isC0OrSpace).filter
              (fun c => !(isRemovedByte c))).drop 2).dropWhile
              (fun c => !(isNetlocDelim c))) '#' with
          | some p => p
          | none => (((((x.dropWhile isC0OrSpace).filter
              (fun c => !(isRemovedByte c))).drop 2).dropWhile
              (fun c => !(isNetlocDelim c))), [])).1) '?'
      refine ⟨_, _, w2 ++ w1, Or.inl ⟨rfl, rfl⟩, Or.inl ⟨ht2, rfl, rfl⟩, ?_, ?_⟩
      · conv_lhs => rw [he1]
        conv_lhs => rw [he2]
        rw [List.append_assoc]
      · intro y hy
        exact ⟨hfree1 y (he2 ▸ List.mem_append.mpr (Or.inl hy)), hfree2 y hy⟩
    · rw [if_neg ht2]
      dsimp only
      obtain ⟨w1, he1, hfree1⟩ := splitOnce_prefix
        ((x.dropWhile isC0OrSpace).filter (fun c => !(isRemovedByte c))) '#'
      obtain ⟨w2, he2, hfree2⟩ := splitOnce_prefix
        ((match pySplitOnce ((x.dropWhile isC0OrSpace).filter
              (fun c => !(isRemovedByte c))) '#' with
          | some p => p
          | none => ((x.dropWhile isC0OrSpace).filter (fun c => !(isRemovedByte c)), [])).1) '?'
      refine ⟨_, _, w2 ++ w1, Or.inl ⟨rfl, rfl⟩, Or.inr ⟨rfl, rfl⟩, ?_, ?_⟩
      · conv_lhs => rw [he1]
        conv_lhs => rw [he2]
        rw [List.append_assoc]
      · intro y hy
        exact ⟨hfree1 y (he2 ▸ List.mem_append.mpr (Or.inl hy)), hfree2 y hy⟩
  · rw [hf]
    dsimp only
    by_cases hcond : 0 < a.length ∧
        ((((x.dropWhile isC0OrSpace).filter (fun c => !(isRemovedByte c))).take 1).all
          Char.isAlpha) = true ∧
        ((((x.dropWhile isC0OrSpace).filter (fun c => !(isRemovedByte c))).take
          a.length).all isSchemeChar) = true
    · rw [if_pos hcond]
      dsimp only
      have htake : (((x.dropWhile isC0OrSpace).filter (fun c => !(isRemovedByte c))).take
          a.length) = a := by
        rw [heq]
        exact List.take_left a (':' :: b)
      have hdrop : (((x.dropWhile isC0OrSpace).filter (fun c => !(isRemovedByte c))).drop
          (a.length + 1)) = b := by
        rw [heq]
        have h2 : a ++ ':' :: b = (a ++ [':']) ++ b := by simp
        have h3 : a.length + 1 = (a ++ [':']).length := by simp
        rw [h2, h3]
        exact List.drop_left (a ++ [':']) b
      rw [htake, hdrop]
      by_cases ht2 : b.take 2 = ['/', '/']
      · rw [if_pos ht2]
        dsimp only
        obtain ⟨w1, he1, hfree1⟩ := splitOnce_prefix
          ((b.drop 2).dropWhile (fun c => !(isNetlocDelim c))) '#'
        obtain ⟨w2, he2, hfree2⟩ := splitOnce_prefix
          ((match pySplitOnce ((b.drop 2).dropWhile (fun c => !(isNetlocDelim c))) '#' with
            | some p => p
            | none => ((b.drop 2).dropWhile (fun c => !(isNetlocDelim c)), [])).1) '?'
        refine ⟨b, _, w2 ++ w1,
          Or.inr ⟨a, b, heq, hafree, hcond.1, hcond.2.1, htake ▸ hcond.2.2, rfl, rfl⟩,
          Or.inl ⟨ht2, rfl, rfl⟩, ?_, ?_⟩
        · conv_lhs => rw [he1]
          conv_lhs => rw [he2]
          rw [List.append_assoc]
        · intro y hy
          exact ⟨hfree1 y (he2 ▸ List.mem_append.mpr (Or.inl hy)), hfree2 y hy⟩
      · rw [if_neg ht2]
        dsimp only
        obtain ⟨w1, he1, hfree1⟩ := splitOnce_prefix b '#'
        obtain ⟨w2, he2, hfree2⟩ := splitOnce_prefix
          ((match pySplitOnce b '#' with
            | some p => p
            | none => (b, [])).1) '?'
        refine ⟨b, _, w2 ++ w1,
          Or.inr ⟨a, b, heq, hafree, hcond.1, hcond.2.1, htake ▸ hcond.2.2, rfl, rfl⟩,
          Or.inr ⟨rfl, rfl⟩, ?_, ?_⟩
        · conv_lhs => rw [he1]
          conv_lhs => rw [he2]
          rw [List.append_assoc]
        · intro y hy
          exact ⟨hfree1 y (he2 ▸ List.mem_append.mpr (Or.inl hy)), hfree2 y hy⟩
    · rw [if_neg hcond]
      dsimp only
      by_cases ht2 : ((x.dropWhile isC0OrSpace).filter (fun c => !(isRemovedByte c))).take 2 =
          ['/', '/']
      · rw [if_pos ht2]
        dsimp only
        obtain ⟨w1, he1, hfree1⟩ := splitOnce_prefix
          ((((x.dropWhile isC0OrSpace).filter (fun c => !(isRemovedByte c))).drop 2).dropWhile
            (fun c => !(isNetlocDelim c))) '#'
        obtain ⟨w2, he2, hfree2⟩ := splitOnce_prefix
          ((match pySplitOnce ((((x.dropWhile isC0OrSpace).filter
                (fun c => !(isRemovedByte c))).drop 2).dropWhile
                (fun c => !(isNetlocDelim c))) '#' with
            | some p => p
            | none => (((((x.dropWhile isC0OrSpace).filter
                (fun c => !(isRemovedByte c))).drop 2).dropWhile
                (fun c => !(isNetlocDelim c))), [])).1) '?'
        refine ⟨_, _, w2 ++ w1, Or.inl ⟨rfl, rfl⟩, Or.inl ⟨ht2, rfl, rfl⟩, ?_, ?_⟩
        · conv_lhs => rw [he1]
          conv_lhs => rw [he2]
          rw [List.append_assoc]
        · intro y hy
          exact ⟨hfree1 y (he2 ▸ List.mem_append.mpr (Or.inl hy)), hfree2 y hy⟩
      · rw [if_neg ht2]
        dsimp only
        obtain ⟨w1, he1, hfree1⟩ := splitOnce_prefix
          ((x.dropWhile isC0OrSpace).filter (fun c => !(isRemovedByte c))) '#'
        obtain ⟨w2, he2, hfree2⟩ := splitOnce_prefix
          ((match pySplitOnce ((x.dropWhile isC0OrSpace).filter
                (fun c => !(isRemovedByte c))) '#' with
            | some p => p
            | none => ((x.dropWhile isC0OrSpace).filter (fun c => !(isRemovedByte c)), [])).1) '?'
        refine ⟨_, _, w2 ++ w1, Or.inl ⟨rfl, rfl⟩, Or.inr ⟨rfl, rfl⟩, ?_, ?_⟩
        · conv_lhs => rw [he1]
          conv_lhs => rw [he2]
          rw [List.append_assoc]
        · intro y hy
          exact ⟨hfree1 y (he2 ▸ List.mem_append.mpr (Or.inl hy)), hfree2 y hy⟩

/-- If `urlsplit` extracted no scheme, then no first-colon decomposition of the
sanitized URL satisfies the scheme conditions. -/
theorem pyUrlsplit_scheme_nil_blocked (x : PyStr) (h : (pyUrlsplit x).scheme = []) :
    ∀ a b, (x.dropWhile isC0OrSpace).filter (fun c => !(isRemovedByte c)) = a ++ ':' :: b →
      (∀ y ∈ a, ¬ y = ':') →
      ¬(0 < a.length ∧
        ((((x.dropWhile isC0OrSpace).filter (fun c => !(isRemovedByte c))).take 1).all
          Char.isAlpha) = true ∧ a.all isSchemeChar = true) := by
  intro a b heq hafree hcond
  have hmem : (':') ∈ (x.dropWhile isC0OrSpace).filter (fun c => !(isRemovedByte c)) := by
    rw [heq]
    exact List.mem_append.mpr (Or.inr (List.mem_cons_self _ _))
  have hfind : pyFind ((x.dropWhile isC0OrSpace).filter (fun c => !(isRemovedByte c))) ':' =
      some a.length := by
    rcases pyFind_struct ((x.dropWhile isC0OrSpace).filter (fun c => !(isRemovedByte c))) ':' with
      ⟨hn, hnone⟩ | ⟨a', b', hf, heq', hafree'⟩
    · exact absurd rfl (hnone ':' hmem)
    · obtain ⟨ha, hb⟩ := first_occ_unique ':' a' a b' b (by rw [← heq', heq]) hafree' hafree
      rw [hf, ha]
  have htake : (((x.dropWhile isC0OrSpace).filter (fun c => !(isRemovedByte c))).take
      a.length) = a := by
    rw [heq]
    exact List.take_left a (':' :: b)
  have hsch : (pyUrlsplit x).scheme = pyLower a := by
    unfold pyUrlsplit
    dsimp only
    rw [hfind]
    dsimp only
    rw [if_pos ⟨hcond.1, hcond.2.1, by rw [htake]; exact hcond.2.2⟩]
    dsimp only
    rw [htake]
  rw [h] at hsch
  have : a = [] := by
    cases ha : a with
    | nil => rfl
    | cons c t =>
      rw [ha] at hsch
      cases hsch
  rw [this] at hcond
  exact absurd hcond.1 (by simp)

/-! ## Character classes of URL components -/

/-- `Char.isUpper` numerically. -/
theorem char_isUpper_iff (c : Char) : c.isUpper = true ↔ 65 ≤ c.toNat ∧ c.toNat ≤ 90 := by
  simp only [Char.isUpper, Bool.and_eq_true, decide_eq_true_eq]
  exact ⟨fun ⟨a, b⟩ => ⟨a, b⟩, fun ⟨a, b⟩ => ⟨a, b⟩⟩

/-- `Char.isLower` numerically. -/
theorem char_isLower_iff (c : Char) : c.isLower = true ↔ 97 ≤ c.toNat ∧ c.toNat ≤ 122 := by
  simp only [Char.isLower, Bool.and_eq_true, decide_eq_true_eq]
  exact ⟨fun ⟨a, b⟩ => ⟨a, b⟩, fun ⟨a, b⟩ => ⟨a, b⟩⟩

/-- `Char.isDigit` numerically. -/
theorem char_isDigit_iff (c : Char) : c.isDigit = true ↔ 48 ≤ c.toNat ∧ c.toNat ≤ 57 := by
  simp only [Char.isDigit, Bool.and_eq_true, decide_eq_true_eq]
  exact ⟨fun ⟨a, b⟩ => ⟨a, b⟩, fun ⟨a, b⟩ => ⟨a, b⟩⟩

/-- Character comparison numerically. -/
theorem char_beq_iff (c d : Char) : (c == d) = true ↔ c.toNat = d.toNat := by
  rw [beq_iff_eq, char_eq_iff_toNat]

/-- `isSchemeChar` numerically. -/
theorem isSchemeChar_iff_toNat (c : Char) :
    isSchemeChar c = true ↔
      ((48 ≤ c.toNat ∧ c.toNat ≤ 57) ∨ (65 ≤ c.toNat ∧ c.toNat ≤ 90) ∨
        (97 ≤ c.toNat ∧ c.toNat ≤ 122) ∨ c.toNat = 43 ∨ c.toNat = 45 ∨ c.toNat = 46) := by
  have h43 : ('+').toNat = 43 := rfl
  have h45 : ('-').toNat = 45 := rfl
  have h46 : ('.').toNat = 46 := rfl
  simp only [isSchemeChar, Char.isAlpha, Bool.or_eq_true, char_isUpper_iff, char_isLower_iff,
    char_isDigit_iff, char_beq_iff, h43, h45, h46]
  omega

/-- Scalar values of scheme characters. -/
theorem isSchemeChar_toNat (c : Char) (h : isSchemeChar c = true) :
    (48 ≤ c.toNat ∧ c.toNat ≤ 57) ∨ (65 ≤ c.toNat ∧ c.toNat ≤ 90) ∨
      (97 ≤ c.toNat ∧ c.toNat ≤ 122) ∨ c.toNat = 43 ∨ c.toNat = 45 ∨ c.toNat = 46 :=
  (isSchemeChar_iff_toNat c).mp h

/-- Scalar-value criterion for scheme characters. -/
theorem isSchemeChar_of_toNat (c : Char)
    (h : (48 ≤ c.toNat ∧ c.toNat ≤ 57) ∨ (65 ≤ c.toNat ∧ c.toNat ≤ 90) ∨
      (97 ≤ c.toNat ∧ c.toNat ≤ 122) ∨ c.toNat = 43 ∨ c.toNat = 45 ∨ c.toNat = 46) :
    isSchemeChar c = true :=
  (isSchemeChar_iff_toNat c).mpr h

/-- `Char.toLower` fixes a character or produces a lower-case letter. -/
theorem toLower_preserves (c : Char) :
    Char.toLower c = c ∨ (97 ≤ (Char.toLower c).toNat ∧ (Char.toLower c).toNat ≤ 122) := by
  have ht := char_toLower_toNat c
  by_cases h : 65 ≤ c.toNat ∧ c.toNat ≤ 90
  · right
    rw [ht, if_pos h]
    omega
  · left
    apply char_eq_of_toNat_eq
    rw [ht, if_neg h]

/-- Lower-casing preserves scheme characters and keeps them printable. -/
theorem isSchemeChar_toLower (c : Char) (h : isSchemeChar c = true) :
    isSchemeChar (Char.toLower c) = true ∧ 43 ≤ (Char.toLower c).toNat ∧
      (Char.toLower c).toNat ≤ 122 := by
  have hn := isSchemeChar_toNat c h
  have ht := char_toLower_toNat c
  by_cases hu : 65 ≤ c.toNat ∧ c.toNat ≤ 90
  · rw [if_pos hu] at ht
    exact ⟨isSchemeChar_of_toNat _ (by omega), by omega, by omega⟩
  · rw [if_neg hu] at ht
    exact ⟨isSchemeChar_of_toNat _ (by omega), by omega, by omega⟩

/-- `isNetlocDelim` numerically. -/
theorem isNetlocDelim_iff (c : Char) :
    isNetlocDelim c = true ↔ c.toNat = 47 ∨ c.toNat = 63 ∨ c.toNat = 35 := by
  have h1 : ('/').toNat = 47 := rfl
  have h2 : ('?').toNat = 63 := rfl
  have h3 : ('#').toNat = 35 := rfl
  simp only [isNetlocDelim, Bool.or_eq_true, char_beq_iff, h1, h2, h3]
  tauto

/-- `isRemovedByte` numerically. -/
theorem isRemovedByte_iff (c : Char) :
    isRemovedByte c = true ↔ c.toNat = 9 ∨ c.toNat = 13 ∨ c.toNat = 10 := by
  have h1 : ('\t').toNat = 9 := rfl
  have h2 : ('\r').toNat = 13 := rfl
  have h3 : ('\n').toNat = 10 := rfl
  simp only [isRemovedByte, Bool.or_eq_true, decide_eq_true_eq, char_eq_iff_toNat, h1, h2, h3]
  tauto

/-- Scalar-value criterion for not being a netloc delimiter. -/
theorem isNetlocDelim_eq_false_of_toNat (c : Char) (h47 : ¬ c.toNat = 47)
    (h63 : ¬ c.toNat = 63) (h35 : ¬ c.toNat = 35) : isNetlocDelim c = false := by
  rw [Bool.eq_false_iff]
  intro ht
  rw [isNetlocDelim_iff] at ht
  omega

/-- Scalar values excluded by `isNetlocDelim … = false`. -/
theorem isNetlocDelim_false_toNat (c : Char) (h : isNetlocDelim c = false) :
    ¬ c.toNat = 47 ∧ ¬ c.toNat = 63 ∧ ¬ c.toNat = 35 := by
  refine ⟨?_, ?_, ?_⟩ <;> intro he
  · have := (isNetlocDelim_iff c).mpr (Or.inl he)
    rw [h] at this
    cases this
  · have := (isNetlocDelim_iff c).mpr (Or.inr (Or.inl he))
    rw [h] at this
    cases this
  · have := (isNetlocDelim_iff c).mpr (Or.inr (Or.inr he))
    rw [h] at this
    cases this

/-- Scalar-value criterion for not being a removed byte. -/
theorem isRemovedByte_eq_false_of_toNat (c : Char) (h9 : ¬ c.toNat = 9)
    (h13 : ¬ c.toNat = 13) (h10 : ¬ c.toNat = 10) : isRemovedByte c = false := by
  rw [Bool.eq_false_iff]
  intro ht
  rw [isRemovedByte_iff] at ht
  omega

/-- Scalar values excluded by `isRemovedByte … = false`. -/
theorem isRemovedByte_false_toNat (c : Char) (h : isRemovedByte c = false) :
    ¬ c.toNat = 9 ∧ ¬ c.toNat = 13 ∧ ¬ c.toNat = 10 := by
  refine ⟨?_, ?_, ?_⟩ <;> intro he
  · have := (isRemovedByte_iff c).mpr (Or.inl he)
    rw [h] at this
    cases this
  · have := (isRemovedByte_iff c).mpr (Or.inr (Or.inl he))
    rw [h] at this
    cases this
  · have := (isRemovedByte_iff c).mpr (Or.inr (Or.inr he))
    rw [h] at this
    cases this

/-- `isC0OrSpace` numerically. -/
theorem isC0OrSpace_iff (c : Char) : isC0OrSpace c = true ↔ c.toNat ≤ 32 := by
  simp [isC0OrSpace]

/-- The sanitized URL contains no removed bytes. -/
theorem url1_no_removed (x : PyStr) :
    ∀ c ∈ (x.dropWhile isC0OrSpace).filter (fun c => !(isRemovedByte c)),
      isRemovedByte c = false := by
  intro c hc
  have := List.of_mem_filter hc
  simpa using this

/-- The sanitized URL starts with a printable character. -/
theorem url1_head_not_c0 (x : PyStr) (c : Char) (l' : PyStr)
    (h : (x.dropWhile isC0OrSpace).filter (fun c => !(isRemovedByte c)) = c :: l') :
    isC0OrSpace c = false := by
  cases hd : x.dropWhile isC0OrSpace with
  | nil =>
    rw [hd] at h
    cases h
  | cons d0 rest =>
    have hd0 : isC0OrSpace d0 = false := dropWhile_head_false _ _ _ _ hd
    have hgt : ¬ d0.toNat ≤ 32 := by
      intro hle
      rw [(isC0OrSpace_iff d0).mpr hle] at hd0
      cases hd0
    have hd0r : (fun c => !(isRemovedByte c)) d0 = true := by
      simp only [Bool.not_eq_true']
      exact isRemovedByte_eq_false_of_toNat d0 (by omega) (by omega) (by omega)
    rw [hd, List.filter_cons, if_pos hd0r] at h
    rw [List.cons.injEq] at h
    rw [← h.1]
    exact hd0

/-- Character classes of the `urlsplit` components. -/
theorem pyUrlsplit_component_chars (x : PyStr) :
    (∀ c ∈ (pyUrlsplit x).scheme, isSchemeChar c = true ∧ 43 ≤ c.toNat ∧ c.toNat ≤ 122) ∧
    (∀ c ∈ (pyUrlsplit x).netloc, isNetlocDelim c = false ∧ isRemovedByte c = false) ∧
    (∀ c ∈ (pyUrlsplit x).pathPart, ¬ c = '#' ∧ ¬ c = '?' ∧ isRemovedByte c = false) := by
  obtain ⟨url2, url3, pq, hs, hn, hup, hfree⟩ := pyUrlsplit_struct x
  have hu1 := url1_no_removed x
  have hurl2 : ∀ c ∈ url2, isRemovedByte c = false := by
    rcases hs with ⟨_, h2⟩ | ⟨a, b, heq, _, _, _, _, _, h2⟩
    · intro c hc
      exact hu1 c (h2 ▸ hc)
    · intro c hc
      apply hu1 c
      rw [heq, h2] at *
      exact List.mem_append.mpr (Or.inr (List.mem_cons_of_mem _ hc))
  have hurl3 : ∀ c ∈ url3, isRemovedByte c = false := by
    rcases hn with ⟨_, _, h3⟩ | ⟨_, h3⟩
    · intro c hc
      rw [h3] at hc
      exact hurl2 c (List.drop_subset 2 url2 ((List.dropWhile_sublist _).subset hc))
    · intro c hc
      exact hurl2 c (h3 ▸ hc)
  refine ⟨?_, ?_, ?_⟩
  · rcases hs with ⟨h1, _⟩ | ⟨a, b, heq, _, _, _, hall, hsch, _⟩
    · rw [h1]
      intro c hc
      cases hc
    · rw [hsch]
      intro c hc
      unfold pyLower at hc
      rw [List.mem_map] at hc
      obtain ⟨c0, hc0, rfl⟩ := hc
      have hc0s : isSchemeChar c0 = true := by
        rw [List.all_eq_true] at hall
        exact hall c0 hc0
      exact isSchemeChar_toLower c0 hc0s
  · rcases hn with ⟨_, h2, _⟩ | ⟨h2, _⟩
    · rw [h2]
      intro c hc
      have hdel := List.mem_takeWhile_imp hc
      refine ⟨by simpa using hdel, ?_⟩
      exact hurl2 c (List.drop_subset 2 url2 ((List.takeWhile_sublist _).subset hc))
    · rw [h2]
      intro c hc
      cases hc
  · intro c hc
    refine ⟨(hfree c hc).1, (hfree c hc).2, ?_⟩
    apply hurl3 c
    rw [hup]
    exact List.mem_append.mpr (Or.inl hc)

/-- Shape of `_splitparams`: a take/drop split or the identity. -/
theorem pySplitParams_shape (p : PyStr) :
    (∃ i, pySplitParams p = (p.take i, p.drop (i + 1))) ∨ pySplitParams p = (p, []) := by
  unfold pySplitParams
  by_cases hc : p.contains '/' = true
  · rw [if_pos hc]
    cases hf : pyFindFrom p ';' ((pyRFind p '/').getD 0) with
    | none => exact Or.inr rfl
    | some i => exact Or.inl ⟨i, rfl⟩
  · rw [if_neg hc]
    cases hf : pyFind p ';' with
    | none => exact Or.inr rfl
    | some i => exact Or.inl ⟨i, rfl⟩

/-- `urlparse` components relative to `urlsplit`: only the path/params pair is
re-split, and the path is a prefix of the split path. -/
theorem pyUrlparse_parts (x : PyStr) :
    (pyUrlparse x).scheme = (pyUrlsplit x).scheme ∧
    (pyUrlparse x).netloc = (pyUrlsplit x).netloc ∧
    (pyUrlparse x).query = (pyUrlsplit x).query ∧
    (pyUrlparse x).fragment = (pyUrlsplit x).fragment ∧
    (∃ w, (pyUrlsplit x).pathPart = (pyUrlparse x).path ++ w) ∧
    (∀ y ∈ (pyUrlparse x).params, y ∈ (pyUrlsplit x).pathPart) := by
  unfold pyUrlparse
  dsimp only
  by_cases hc : (pyUrlsplit x).scheme ∈ usesParams ∧ (pyUrlsplit x).pathPart.contains ';' = true
  · rw [if_pos hc]
    rcases pySplitParams_shape ((pyUrlsplit x).pathPart) with ⟨i, hsp⟩ | hsp
    · rw [hsp]
      refine ⟨rfl, rfl, rfl, rfl, ⟨(pyUrlsplit x).pathPart.drop i, ?_⟩, ?_⟩
      · exact (List.take_append_drop i _).symm
      · intro y hy
        exact List.drop_subset _ _ hy
    · rw [hsp]
      exact ⟨rfl, rfl, rfl, rfl, ⟨[], by simp⟩, by simp⟩
  · rw [if_neg hc]
    exact ⟨rfl, rfl, rfl, rfl, ⟨[], by simp⟩, by simp⟩

/-- With no scheme, a nonempty split path starts with a printable character. -/
theorem pyUrlsplit_path_head_gt32 (x : PyStr) (h : (pyUrlsplit x).scheme = [])
    (c : Char) (t : PyStr) (hp : (pyUrlsplit x).pathPart = c :: t) : 32 < c.toNat := by
  obtain ⟨url2, url3, pq, hs, hn, hup, hfree⟩ := pyUrlsplit_struct x
  have hu2 : url2 = (x.dropWhile isC0OrSpace).filter (fun c => !(isRemovedByte c)) := by
    rcases hs with ⟨_, h2⟩ | ⟨a, b, heq, _, hlen, _, _, hsch, _⟩
    · exact h2
    · rw [h] at hsch
      exfalso
      cases ha : a with
      | nil =>
        rw [ha] at hlen
        cases hlen
      | cons z zs =>
        rw [ha] at hsch
        cases hsch
  rw [hp] at hup
  rcases hn with ⟨_, _, h3⟩ | ⟨_, h3⟩
  · rw [hup] at h3
    have hd := dropWhile_head_false _ _ _ _ h3.symm
    have hdel : isNetlocDelim c = true := by
      simpa using hd
    rw [isNetlocDelim_iff] at hdel
    omega
  · rw [h3, hu2] at hup
    have := url1_head_not_c0 x c (t ++ pq) hup
    have hle := isC0OrSpace_iff c
    by_contra hcon
    rw [(isC0OrSpace_iff c).mpr (by omega)] at this
    cases this

/-- With a netloc, a nonempty split path starts with a slash. -/
theorem pyUrlsplit_path_head_slash (x : PyStr) (h : ¬ (pyUrlsplit x).netloc = [])
    (c : Char) (t : PyStr) (hp : (pyUrlsplit x).pathPart = c :: t) : c = '/' := by
  obtain ⟨url2, url3, pq, hs, hn, hup, hfree⟩ := pyUrlsplit_struct x
  rw [hp] at hup
  rcases hn with ⟨_, _, h3⟩ | ⟨h2, _⟩
  · rw [hup] at h3
    have hd := dropWhile_head_false _ _ _ _ h3.symm
    have hdel : isNetlocDelim c = true := by
      simpa using hd
    rw [isNetlocDelim_iff] at hdel
    have hq := hfree c (hp ▸ List.mem_cons_self c t)
    apply char_eq_of_toNat_eq
    have h35 : ¬ c.toNat = 35 := fun he => hq.1 (char_eq_of_toNat_eq (by rw [he]; rfl))
    have h63 : ¬ c.toNat = 63 := fun he => hq.2 (char_eq_of_toNat_eq (by rw [he]; rfl))
    have : c.toNat = 47 := by omega
    rw [this]
    rfl
  · exact absurd h2 h

/-- `dropWhile` over an append stops no later than the boundary when the second
part starts with a failing element. -/
theorem dropWhile_append_stop {α : Type} (p : α → Bool) (l1 l2 : List α)
    (h : ∀ c t, l2 = c :: t → p c = false) :
    (l1 ++ l2).dropWhile p = l1.dropWhile p ++ l2 := by
  induction l1 with
  | nil =>
    cases hl2 : l2 with
    | nil => simp
    | cons c t =>
      rw [List.nil_append, List.dropWhile_cons, if_neg (by rw [h c t hl2]; simp)]
      rfl
  | cons x xs ih =>
    rw [List.cons_append, List.dropWhile_cons, List.dropWhile_cons]
    by_cases hx : p x = true
    · rw [if_pos hx, if_pos hx]
      exact ih
    · rw [if_neg hx, if_neg hx]
      rfl

/-- The fragment and query splits of `A3 ++ '?'Q` with clean `A3` recover `Q`
and an empty fragment. -/
theorem frag_query_endgame (A3 Q : PyStr)
    (hA3q : ∀ c ∈ A3, ¬ c = '?')
    (hA3h : ∀ c ∈ A3, ¬ c = '#')
    (hQh : ∀ c ∈ Q, ¬ c = '#') :
    (match pySplitOnce
        (match pySplitOnce (A3 ++ if Q = [] then [] else '?' :: Q) '#' with
          | some p => p
          | none => (A3 ++ (if Q = [] then [] else '?' :: Q), [])).1 '?' with
      | some p => p
      | none => ((match pySplitOnce (A3 ++ if Q = [] then [] else '?' :: Q) '#' with
          | some p => p
          | none => (A3 ++ (if Q = [] then [] else '?' :: Q), [])).1, [])).2 = Q ∧
    (match pySplitOnce (A3 ++ if Q = [] then [] else '?' :: Q) '#' with
      | some p => p
      | none => (A3 ++ (if Q = [] then [] else '?' :: Q), [])).2 = [] := by
  have hnof : ∀ c ∈ A3 ++ (if Q = [] then [] else '?' :: Q), ¬ c = '#' := by
    intro c hc
    rw [List.mem_append] at hc
    rcases hc with hc | hc
    · exact hA3h c hc
    · by_cases hQe : Q = []
      · rw [if_pos hQe] at hc
        cases hc
      · rw [if_neg hQe] at hc
        rw [List.mem_cons] at hc
        rcases hc with hc | hc
        · subst hc
          decide
        · exact hQh c hc
  rw [pySplitOnce_eq_none _ '#' hnof]
  dsimp only
  by_cases hQe : Q = []
  · subst hQe
    rw [if_pos rfl, List.append_nil]
    rw [pySplitOnce_eq_none A3 '?' hA3q]
    exact ⟨rfl, rfl⟩
  · rw [if_neg hQe]
    rw [pySplitOnce_append A3 Q '?' hA3q]
    exact ⟨rfl, rfl⟩

/-- The netloc, fragment and query stages of `urlsplit` on `A2?Q` with a
clean `A2` recover the query `Q` and an empty fragment. -/
theorem tail_stages (A2 Q : PyStr)
    (hA2 : ∀ c ∈ A2, ¬ c = '?' ∧ ¬ c = '#' ∧ isRemovedByte c = false)
    (hQ : ∀ c ∈ Q, ¬ c = '#' ∧ ¬ c = ':' ∧ ¬ c = '?' ∧ isRemovedByte c = false ∧
      33 ≤ c.toNat) :
    ((match pySplitOnce
        ((match pySplitOnce
          ((if (A2 ++ (if Q = [] then ([] : PyStr) else '?' :: Q)).take 2 = ['/', '/'] then
            (((A2 ++ (if Q = [] then ([] : PyStr) else '?' :: Q)).drop 2).takeWhile (fun c => !(isNetlocDelim c)),
              ((A2 ++ (if Q = [] then ([] : PyStr) else '?' :: Q)).drop 2).dropWhile (fun c => !(isNetlocDelim c)))
          else ([], A2 ++ (if Q = [] then ([] : PyStr) else '?' :: Q))).2) '#' with
        | some p => p
        | none => (((if (A2 ++ (if Q = [] then ([] : PyStr) else '?' :: Q)).take 2 = ['/', '/'] then
            (((A2 ++ (if Q = [] then ([] : PyStr) else '?' :: Q)).drop 2).takeWhile (fun c => !(isNetlocDelim c)),
              ((A2 ++ (if Q = [] then ([] : PyStr) else '?' :: Q)).drop 2).dropWhile (fun c => !(isNetlocDelim c)))
          else ([], A2 ++ (if Q = [] then ([] : PyStr) else '?' :: Q))).2), []))).1 '?' with
      | some p => p
      | none => (((match pySplitOnce
          ((if (A2 ++ (if Q = [] then ([] : PyStr) else '?' :: Q)).take 2 = ['/', '/'] then
            (((A2 ++ (if Q = [] then ([] : PyStr) else '?' :: Q)).drop 2).takeWhile (fun c => !(isNetlocDelim c)),
              ((A2 ++ (if Q = [] then ([] : PyStr) else '?' :: Q)).drop 2).dropWhile (fun c => !(isNetlocDelim c)))
          else ([], A2 ++ (if Q = [] then ([] : PyStr) else '?' :: Q))).2) '#' with
        | some p => p
        | none => (((if (A2 ++ (if Q = [] then ([] : PyStr) else '?' :: Q)).take 2 = ['/', '/'] then
            (((A2 ++ (if Q = [] then ([] : PyStr) else '?' :: Q)).drop 2).takeWhile (fun c => !(isNetlocDelim c)),
              ((A2 ++ (if Q = [] then ([] : PyStr) else '?' :: Q)).drop 2).dropWhile (fun c => !(isNetlocDelim c)))
          else ([], A2 ++ (if Q = [] then ([] : PyStr) else '?' :: Q))).2), []))).1, []))).2 = Q ∧
    ((match pySplitOnce
          ((if (A2 ++ (if Q = [] then ([] : PyStr) else '?' :: Q)).take 2 = ['/', '/'] then
            (((A2 ++ (if Q = [] then ([] : PyStr) else '?' :: Q)).drop 2).takeWhile (fun c => !(isNetlocDelim c)),
              ((A2 ++ (if Q = [] then ([] : PyStr) else '?' :: Q)).drop 2).dropWhile (fun c => !(isNetlocDelim c)))
          else ([], A2 ++ (if Q = [] then ([] : PyStr) else '?' :: Q))).2) '#' with
        | some p => p
        | none => (((if (A2 ++ (if Q = [] then ([] : PyStr) else '?' :: Q)).take 2 = ['/', '/'] then
            (((A2 ++ (if Q = [] then ([] : PyStr) else '?' :: Q)).drop 2).takeWhile (fun c => !(isNetlocDelim c)),
              ((A2 ++ (if Q = [] then ([] : PyStr) else '?' :: Q)).drop 2).dropWhile (fun c => !(isNetlocDelim c)))
          else ([], A2 ++ (if Q = [] then ([] : PyStr) else '?' :: Q))).2), []))).2 = [] := by
  have hstop : ∀ c t, (if Q = [] then ([] : PyStr) else '?' :: Q) = c :: t → (fun c => !(isNetlocDelim c)) c = false := by
    intro c t h
    by_cases hQe : Q = []
    · rw [if_pos hQe] at h
      cases h
    · rw [if_neg hQe, List.cons.injEq] at h
      rw [← h.1]
      decide
  by_cases ht2 : (A2 ++ (if Q = [] then ([] : PyStr) else '?' :: Q)).take 2 = ['/', '/']
  · rw [if_pos ht2]
    dsimp only
    have hlen2 : 2 ≤ A2.length := by
      by_cases hQe : Q = []
      · rw [if_pos hQe, List.append_nil] at ht2
        cases hA0 : A2 with
        | nil =>
          rw [hA0] at ht2
          cases ht2
        | cons a1 t1 =>
          cases ht1 : t1 with
          | nil =>
            rw [hA0, ht1] at ht2
            cases ht2
          | cons a2 t2 =>
            simp [hA0, ht1]
      · rw [if_neg hQe] at ht2
        cases hA0 : A2 with
        | nil =>
          rw [hA0, List.nil_append] at ht2
          have hexp : List.take 2 ('?' :: Q) = '?' :: List.take 1 Q := rfl
          rw [hexp, List.cons.injEq] at ht2
          cases ht2.1
        | cons a1 t1 =>
          cases ht1 : t1 with
          | nil =>
            rw [hA0, ht1] at ht2
            have : (([a1] ++ '?' :: Q).take 2) = [a1, '?'] := by
              cases Q <;> rfl
            rw [this, List.cons.injEq, List.cons.injEq] at ht2
            cases ht2.2.1
          | cons a2 t2 =>
            simp [hA0, ht1]
    obtain ⟨a1, t1, hA0⟩ : ∃ a1 t1, A2 = a1 :: t1 := by
      cases A2 with
      | nil => cases hlen2
      | cons a1 t1 => exact ⟨a1, t1, rfl⟩
    obtain ⟨a2, t2, ht1⟩ : ∃ a2 t2, t1 = a2 :: t2 := by
      cases t1 with
      | nil =>
        rw [hA0] at hlen2
        simp at hlen2
      | cons a2 t2 => exact ⟨a2, t2, rfl⟩
    have hdrop2 : (A2 ++ (if Q = [] then ([] : PyStr) else '?' :: Q)).drop 2 = t2 ++ (if Q = [] then ([] : PyStr) else '?' :: Q) := by
      rw [hA0, ht1]
      rfl
    rw [hdrop2]
    rw [dropWhile_append_stop (fun c => !(isNetlocDelim c)) t2 (if Q = [] then ([] : PyStr) else '?' :: Q) hstop]
    have ht2chars : ∀ c ∈ (t2.dropWhile (fun c => !(isNetlocDelim c))),
        ¬ c = '?' ∧ ¬ c = '#' ∧ isRemovedByte c = false := by
      intro c hc
      apply hA2 c
      rw [hA0, ht1]
      exact List.mem_cons_of_mem _ (List.mem_cons_of_mem _ ((List.dropWhile_sublist _).subset hc))
    exact frag_query_endgame (t2.dropWhile (fun c => !(isNetlocDelim c))) Q
      (fun c hc => (ht2chars c hc).1) (fun c hc => (ht2chars c hc).2.1)
      (fun c hc => (hQ c hc).1)
  · rw [if_neg ht2]
    dsimp only
    exact frag_query_endgame A2 Q (fun c hc => (hA2 c hc).1) (fun c hc => (hA2 c hc).2.1)
      (fun c hc => (hQ c hc).1)

/-- Reparsing a URL of the shape `A?Q` with a clean `A` and an
urlencode-shaped `Q` recovers exactly the query `Q` and no fragment. -/
theorem urlsplit_query_recovery (A Q : PyStr)
    (hA : ∀ c ∈ A, ¬ c = '?' ∧ ¬ c = '#' ∧ isRemovedByte c = false)
    (hQ : ∀ c ∈ Q, ¬ c = '#' ∧ ¬ c = ':' ∧ ¬ c = '?' ∧ isRemovedByte c = false ∧
      33 ≤ c.toNat)
    (hhead : ∀ c l', A = c :: l' → isC0OrSpace c = false) :
    (pyUrlsplit (A ++ if Q = [] then [] else '?' :: Q)).query = Q ∧
    (pyUrlsplit (A ++ if Q = [] then [] else '?' :: Q)).fragment = [] := by
  have hBchars : ∀ c ∈ (if Q = [] then [] else '?' :: Q), isRemovedByte c = false := by
    intro c hc
    by_cases hQe : Q = []
    · rw [if_pos hQe] at hc
      cases hc
    · rw [if_neg hQe] at hc
      rw [List.mem_cons] at hc
      rcases hc with hc | hc
      · subst hc
        decide
      · exact (hQ c hc).2.2.2.1
  have hdw : (A ++ if Q = [] then [] else '?' :: Q).dropWhile isC0OrSpace =
      A ++ (if Q = [] then [] else '?' :: Q) := by
    cases hn : A ++ (if Q = [] then [] else '?' :: Q) with
    | nil => simp
    | cons c rest =>
      rw [List.dropWhile_cons]
      rw [if_neg ?hc]
      case hc =>
        cases hA0 : A with
        | nil =>
          rw [hA0, List.nil_append] at hn
          by_cases hQe : Q = []
          · rw [if_pos hQe] at hn
            cases hn
          · rw [if_neg hQe] at hn
            rw [List.cons.injEq] at hn
            rw [← hn.1]
            decide
        | cons a0 t0 =>
          rw [hA0, List.cons_append, List.cons.injEq] at hn
          rw [← hn.1]
          rw [hhead a0 t0 hA0]
          simp
  have hfl : (A ++ if Q = [] then [] else '?' :: Q).filter (fun c => !(isRemovedByte c)) =
      A ++ (if Q = [] then [] else '?' :: Q) := by
    apply List.filter_eq_self.mpr
    intro c hc
    rw [List.mem_append] at hc
    rcases hc with hc | hc
    · rw [(hA c hc).2.2]
      rfl
    · rw [hBchars c hc]
      rfl
  have hBcolon : ∀ c ∈ (if Q = [] then [] else '?' :: Q), ¬ c = ':' := by
    intro c hc
    by_cases hQe : Q = []
    · rw [if_pos hQe] at hc
      cases hc
    · rw [if_neg hQe] at hc
      rw [List.mem_cons] at hc
      rcases hc with hc | hc
      · subst hc
        decide
      · exact (hQ c hc).2.1
  unfold pyUrlsplit
  dsimp only
  rw [hdw, hfl]
  rcases pyFind_struct (A ++ if Q = [] then [] else '?' :: Q) ':' with
    ⟨hf, hnone⟩ | ⟨a, b, hf, heq, hafree⟩
  · rw [hf]
    dsimp only
    exact tail_stages A Q hA hQ
  · -- the first colon lies in A
    rcases pyFind_struct A ':' with ⟨hfA, hnoneA⟩ | ⟨a', b', hfA, heqA, hafreeA⟩
    · exfalso
      have : (':') ∈ A ++ (if Q = [] then [] else '?' :: Q) := by
        rw [heq]
        exact List.mem_append.mpr (Or.inr (List.mem_cons_self _ _))
      rw [List.mem_append] at this
      rcases this with hm1 | hm
      · exact hnoneA ':' hm1 rfl
      · exact hBcolon ':' hm rfl
    · have heq2 : A ++ (if Q = [] then [] else '?' :: Q) =
          a' ++ ':' :: (b' ++ (if Q = [] then [] else '?' :: Q)) := by
        rw [heqA]
        simp
      obtain ⟨haa, hbb⟩ := first_occ_unique ':' a a'
        b (b' ++ (if Q = [] then [] else '?' :: Q)) (by rw [← heq, heq2]) hafree hafreeA
      rw [hf]
      dsimp only
      by_cases hcond : 0 < a.length ∧
          (((A ++ if Q = [] then [] else '?' :: Q).take 1).all Char.isAlpha) = true ∧
          (((A ++ if Q = [] then [] else '?' :: Q).take a.length).all isSchemeChar) = true
      · rw [if_pos hcond]
        dsimp only
        have hdrop : (A ++ if Q = [] then [] else '?' :: Q).drop (a.length + 1) =
            b' ++ (if Q = [] then [] else '?' :: Q) := by
          rw [heq, hbb]
          have h2 : a ++ ':' :: (b' ++ (if Q = [] then [] else '?' :: Q)) =
              (a ++ [':']) ++ (b' ++ (if Q = [] then [] else '?' :: Q)) := by simp
          have h3 : a.length + 1 = (a ++ [':']).length := by simp
          rw [h2, h3]
          exact List.drop_left _ _
        rw [hdrop]
        have hb'A : ∀ c ∈ b', ¬ c = '?' ∧ ¬ c = '#' ∧ isRemovedByte c = false := by
          intro c hc
          apply hA c
          rw [heqA]
          exact List.mem_append.mpr (Or.inr (List.mem_cons_of_mem _ hc))
        exact tail_stages b' Q hb'A hQ
      · rw [if_neg hcond]
        dsimp only
        exact tail_stages A Q hA hQ

/-! ## Fixpoints and subsets of the normalizer components -/

/-- `Char.toLower` is idempotent. -/
theorem toLower_idem (c : Char) : Char.toLower (Char.toLower c) = Char.toLower c := by
  apply char_eq_of_toNat_eq
  have h1 := char_toLower_toNat c
  have h2 := char_toLower_toNat (Char.toLower c)
  by_cases h : 65 ≤ c.toNat ∧ c.toNat ≤ 90
  · rw [if_pos h] at h1
    rw [h2, h1, if_neg (by omega)]
  · rw [if_neg h] at h1
    rw [h2, h1, if_neg h]

/-- `str.lower()` is idempotent. -/
theorem pyLower_pyLower (x : PyStr) : pyLower (pyLower x) = pyLower x := by
  unfold pyLower
  rw [List.map_map]
  apply List.map_congr_left
  intro c _
  exact toLower_idem c

/-- The port strip keeps a prefix. -/
theorem pyStripPort_subset (nl : PyStr) : ∀ c ∈ pyStripPort nl, c ∈ nl := by
  unfold pyStripPort
  split_ifs
  · exact fun c hc => List.take_subset _ _ hc
  · exact fun c hc => List.take_subset _ _ hc
  · exact fun c hc => hc

/-- Lower-casing then port-stripping a netloc is `lower`-stable. -/
theorem pyStripPort_pyLower_fix (nl : PyStr) :
    pyLower (pyStripPort (pyLower nl)) = pyStripPort (pyLower nl) := by
  unfold pyStripPort
  split_ifs
  · unfold pyLower
    rw [← List.map_take, List.map_map]
    apply List.map_congr_left
    intro c _
    exact toLower_idem c
  · unfold pyLower
    rw [← List.map_take, List.map_map]
    apply List.map_congr_left
    intro c _
    exact toLower_idem c
  · exact pyLower_pyLower nl

/-- A netloc that does not end in a default port is `pyStripPort`-stable. -/
theorem pyStripPort_fix (nl : PyStr) (h80 : pyEndsWith nl ((":80").data) = false)
    (h443 : pyEndsWith nl ((":443").data) = false) : pyStripPort nl = nl := by
  unfold pyStripPort
  rw [h80, h443]
  rfl

/-- The trailing-slash strip keeps a prefix. -/
theorem pyStripTrailingSlash_prefix (p : PyStr) :
    ∃ w, p = pyStripTrailingSlash p ++ w := by
  unfold pyStripTrailingSlash
  split_ifs
  · exact ⟨p.drop (p.length - 1), (List.take_append_drop _ p).symm⟩
  · exact ⟨[], by simp⟩

/-- Character preservation of netloc lowering and port stripping. -/
theorem netloc_chars_preserved (nl : PyStr)
    (h : ∀ c ∈ nl, isNetlocDelim c = false ∧ isRemovedByte c = false) :
    ∀ c ∈ pyStripPort (pyLower nl), isNetlocDelim c = false ∧ isRemovedByte c = false := by
  intro c hc
  have hc2 : c ∈ pyLower nl := pyStripPort_subset _ c hc
  unfold pyLower at hc2
  rw [List.mem_map] at hc2
  obtain ⟨c0, hc0, rfl⟩ := hc2
  rcases toLower_preserves c0 with he | ⟨h1, h2⟩
  · rw [he]
    exact h c0 hc0
  · exact ⟨isNetlocDelim_eq_false_of_toNat _ (by omega) (by omega) (by omega),
      isRemovedByte_eq_false_of_toNat _ (by omega) (by omega) (by omega)⟩

/-- `takeWhile`/`dropWhile` over an append with an all-passing first part and a
failing head of the second part. -/
theorem takeWhile_append_stop {α : Type} (p : α → Bool) (l1 l2 : List α)
    (h1 : ∀ c ∈ l1, p c = true)
    (h2 : ∀ c t, l2 = c :: t → p c = false) :
    (l1 ++ l2).takeWhile p = l1 ∧ (l1 ++ l2).dropWhile p = l2 := by
  induction l1 with
  | nil =>
    rw [List.nil_append]
    cases hl2 : l2 with
    | nil => exact ⟨rfl, rfl⟩
    | cons c t =>
      rw [List.takeWhile_cons, List.dropWhile_cons, if_neg (by rw [h2 c t hl2]; simp),
        if_neg (by rw [h2 c t hl2]; simp)]
      exact ⟨rfl, rfl⟩
  | cons x xs ih =>
    rw [List.cons_append, List.takeWhile_cons, List.dropWhile_cons]
    have hx : p x = true := h1 x (List.mem_cons_self x xs)
    rw [if_pos hx, if_pos hx]
    obtain ⟨ht, hd⟩ := ih (fun c hc => h1 c (List.mem_cons_of_mem x hc))
    exact ⟨by rw [ht], hd⟩

/-- Membership in a single-character join. -/
theorem mem_pyIntercalate (ch : Char) (pieces : List PyStr) (c : Char)
    (h : c ∈ pyIntercalate ch pieces) : c = ch ∨ ∃ p ∈ pieces, c ∈ p := by
  induction pieces with
  | nil => cases h
  | cons x rest ih =>
    cases rest with
    | nil =>
      exact Or.inr ⟨x, List.mem_cons_self x [], h⟩
    | cons y rest2 =>
      have he : pyIntercalate ch (x :: y :: rest2) = x ++ ch :: pyIntercalate ch (y :: rest2) :=
        rfl
      rw [he, List.mem_append] at h
      rcases h with h | h
      · exact Or.inr ⟨x, List.mem_cons_self x _, h⟩
      · rw [List.mem_cons] at h
        rcases h with h | h
        · exact Or.inl h
        · rcases ih h with h | ⟨p, hp, hcp⟩
          · exact Or.inl h
          · exact Or.inr ⟨p, List.mem_cons_of_mem x hp, hcp⟩

/-- Scalar-value facts for every character of a `urlencode` output. -/
theorem mem_pyUrlencode_toNat (l : List (PyStr × List PyStr)) (c : Char)
    (h : c ∈ pyUrlencode l) :
    33 ≤ c.toNat ∧ c.toNat ≤ 126 ∧ ¬ c.toNat = 35 ∧ ¬ c.toNat = 47 ∧ ¬ c.toNat = 58 ∧
      ¬ c.toNat = 59 ∧ ¬ c.toNat = 63 := by
  unfold pyUrlencode at h
  rcases mem_pyIntercalate '&' _ c h with h | ⟨p, hp, hcp⟩
  · subst h
    refine ⟨by decide, by decide, by decide, by decide, by decide, by decide, by decide⟩
  · rw [List.mem_flatten] at hp
    obtain ⟨piece, hpc, hppc⟩ := hp
    rw [List.mem_map] at hpc
    obtain ⟨kv, _, rfl⟩ := hpc
    rw [List.mem_map] at hppc
    obtain ⟨v, _, rfl⟩ := hppc
    rw [List.mem_append] at hcp
    rcases hcp with hcp | hcp
    · have := mem_pyQuotePlus_toNat kv.1 hcp
      omega
    · rw [List.mem_cons] at hcp
      rcases hcp with hcp | hcp
      · subst hcp
        refine ⟨by decide, by decide, by decide, by decide, by decide, by decide, by decide⟩
      · have := mem_pyQuotePlus_toNat v hcp
        omega

/-- `Char.isAlpha` numerically. -/
theorem char_isAlpha_iff (c : Char) : c.isAlpha = true ↔
    (65 ≤ c.toNat ∧ c.toNat ≤ 90) ∨ (97 ≤ c.toNat ∧ c.toNat ≤ 122) := by
  simp only [Char.isAlpha, Bool.or_eq_true, char_isUpper_iff, char_isLower_iff]

/-- The scheme produced by `urlsplit` is lower-case-stable and starts with a
letter. -/
theorem pyUrlsplit_scheme_facts (x : PyStr) :
    pyLower (pyUrlsplit x).scheme = (pyUrlsplit x).scheme ∧
    ∀ c t, (pyUrlsplit x).scheme = c :: t → Char.isAlpha c = true := by
  obtain ⟨url2, url3, pq, hs, hn, hup, hfree⟩ := pyUrlsplit_struct x
  rcases hs with ⟨h1, _⟩ | ⟨a, b, heq, hafree, hlen, halpha, hall, hsch, _⟩
  · rw [h1]
    exact ⟨rfl, fun c t h => by cases h⟩
  · constructor
    · rw [hsch]
      exact pyLower_pyLower a
    · intro c t hct
      rw [hsch] at hct
      cases ha : a with
      | nil =>
        rw [ha] at hct
        cases hct
      | cons a0 t0 =>
        rw [ha] at hct
        unfold pyLower at hct
        rw [List.map_cons, List.cons.injEq] at hct
        have htake : ((x.dropWhile isC0OrSpace).filter (fun c => !(isRemovedByte c))).take 1
            = [a0] := by
          rw [heq, ha]
          rfl
        rw [htake] at halpha
        simp only [List.all_cons, List.all_nil, Bool.and_true] at halpha
        rw [← hct.1]
        rw [char_isAlpha_iff] at halpha ⊢
        have ht := char_toLower_toNat a0
        by_cases hu : 65 ≤ a0.toNat ∧ a0.toNat ≤ 90
        · rw [if_pos hu] at ht
          rw [ht]
          omega
        · rw [if_neg hu] at ht
          rw [ht]
          omega

/-- Full reparse of a reconstructed `scheme://netloc/path?query` URL with
clean components. -/
theorem urlsplit_full_reparse (s m pa Q : PyStr)
    (hs_ne : ¬ s = [])
    (hs_chars : ∀ c ∈ s, isSchemeChar c = true ∧ 43 ≤ c.toNat ∧ c.toNat ≤ 122)
    (hs_head : ∀ c t, s = c :: t → Char.isAlpha c = true)
    (hs_low : pyLower s = s)
    (hm : ∀ c ∈ m, isNetlocDelim c = false ∧ isRemovedByte c = false)
    (hpa : ∀ c ∈ pa, ¬ c = '#' ∧ ¬ c = '?' ∧ isRemovedByte c = false)
    (hpa_head : ∀ c t, pa = c :: t → c = '/')
    (hQ : ∀ c ∈ Q, 33 ≤ c.toNat ∧ ¬ c.toNat = 35 ∧ ¬ c.toNat = 58 ∧ ¬ c.toNat = 63) :
    pyUrlsplit (s ++ ':' :: '/' :: '/' :: (m ++ pa) ++
        (if Q = [] then [] else '?' :: Q)) = ⟨s, m, pa, Q, []⟩ := by
  have hBrm : ∀ c ∈ (if Q = [] then ([] : PyStr) else '?' :: Q), isRemovedByte c = false := by
    intro c hc
    by_cases hQe : Q = []
    · rw [if_pos hQe] at hc
      cases hc
    · rw [if_neg hQe] at hc
      rw [List.mem_cons] at hc
      rcases hc with hc | hc
      · subst hc
        decide
      · have := hQ c hc
        exact isRemovedByte_eq_false_of_toNat c (by omega) (by omega) (by omega)
  obtain ⟨c0, t0, hs0⟩ : ∃ c0 t0, s = c0 :: t0 := by
    cases s with
    | nil => exact absurd rfl hs_ne
    | cons c0 t0 => exact ⟨c0, t0, rfl⟩
  have hc0 : 33 ≤ c0.toNat := by
    have := hs_chars c0 (by rw [hs0]; exact List.mem_cons_self _ _)
    omega
  have hn0 : s ++ ':' :: '/' :: '/' :: (m ++ pa) ++ (if Q = [] then [] else '?' :: Q) =
      c0 :: (t0 ++ ':' :: '/' :: '/' :: (m ++ pa) ++ (if Q = [] then [] else '?' :: Q)) := by
    rw [hs0]
    rfl
  have hdw : (s ++ ':' :: '/' :: '/' :: (m ++ pa) ++
      (if Q = [] then [] else '?' :: Q)).dropWhile isC0OrSpace =
      s ++ ':' :: '/' :: '/' :: (m ++ pa) ++ (if Q = [] then [] else '?' :: Q) := by
    have hcc : ¬ isC0OrSpace c0 = true := by
      intro ht
      rw [isC0OrSpace_iff] at ht
      omega
    rw [hn0, List.dropWhile_cons, if_neg hcc]
  have hfl : (s ++ ':' :: '/' :: '/' :: (m ++ pa) ++
      (if Q = [] then [] else '?' :: Q)).filter (fun c => !(isRemovedByte c)) =
      s ++ ':' :: '/' :: '/' :: (m ++ pa) ++ (if Q = [] then [] else '?' :: Q) := by
    apply List.filter_eq_self.mpr
    intro c hc
    rw [List.mem_append] at hc
    rcases hc with hc | hc
    · rw [List.mem_append] at hc
      rcases hc with hc | hc
      · have := hs_chars c hc
        rw [isRemovedByte_eq_false_of_toNat c (by omega) (by omega) (by omega)]
        rfl
      · rw [List.mem_cons] at hc
        rcases hc with hc | hc
        · subst hc
          decide
        · rw [List.mem_cons] at hc
          rcases hc with hc | hc
          · subst hc
            decide
          · rw [List.mem_cons] at hc
            rcases hc with hc | hc
            · subst hc
              decide
            · rw [List.mem_append] at hc
              rcases hc with hc | hc
              · rw [(hm c hc).2]
                rfl
              · rw [(hpa c hc).2.2]
                rfl
    · rw [hBrm c hc]
      rfl
  unfold pyUrlsplit
  dsimp only
  rw [hdw, hfl]
  -- the first colon sits at the end of the scheme
  have hsfree : ∀ y ∈ s, ¬ y = ':' := by
    intro y hy heq
    have := (hs_chars y hy).1
    rw [heq] at this
    cases this
  have hshape : s ++ ':' :: '/' :: '/' :: (m ++ pa) ++ (if Q = [] then [] else '?' :: Q) =
      s ++ ':' :: ('/' :: '/' :: (m ++ pa) ++ (if Q = [] then [] else '?' :: Q)) := by
    simp
  rcases pyFind_struct
    (s ++ ':' :: '/' :: '/' :: (m ++ pa) ++ (if Q = [] then [] else '?' :: Q)) ':' with
    ⟨hf, hnone⟩ | ⟨a, b, hf, heq, hafree⟩
  · exfalso
    exact hnone ':' (by rw [hshape]; exact List.mem_append.mpr (Or.inr (List.mem_cons_self _ _)))
      rfl
  · obtain ⟨haa, hbb⟩ := first_occ_unique ':' a s b
      ('/' :: '/' :: (m ++ pa) ++ (if Q = [] then [] else '?' :: Q))
      (by rw [← heq, hshape]) hafree hsfree
    rw [hf]
    dsimp only
    have htake1 : ((s ++ ':' :: '/' :: '/' :: (m ++ pa) ++
        (if Q = [] then [] else '?' :: Q)).take 1) = [c0] := by
      rw [hn0]
      rfl
    have htakea : ((s ++ ':' :: '/' :: '/' :: (m ++ pa) ++
        (if Q = [] then [] else '?' :: Q)).take a.length) = s := by
      rw [hshape, haa]
      exact List.take_left s _
    have hcond : 0 < a.length ∧
        (((s ++ ':' :: '/' :: '/' :: (m ++ pa) ++
          (if Q = [] then [] else '?' :: Q)).take 1).all Char.isAlpha) = true ∧
        (((s ++ ':' :: '/' :: '/' :: (m ++ pa) ++
          (if Q = [] then [] else '?' :: Q)).take a.length).all isSchemeChar) = true := by
      refine ⟨?_, ?_, ?_⟩
      · rw [haa, hs0]
        simp
      · rw [htake1]
        have hc0s : Char.isAlpha c0 = true := hs_head c0 t0 hs0
        rw [List.all_cons, hc0s, List.all_nil]
        rfl
      · rw [htakea]
        rw [List.all_eq_true]
        exact fun c hc => (hs_chars c hc).1
    rw [if_pos hcond]
    dsimp only
    rw [htakea, hs_low]
    have hdropa : ((s ++ ':' :: '/' :: '/' :: (m ++ pa) ++
        (if Q = [] then [] else '?' :: Q)).drop (a.length + 1)) =
        '/' :: '/' :: (m ++ pa) ++ (if Q = [] then [] else '?' :: Q) := by
      rw [hshape, haa]
      have h2 : s ++ ':' :: ('/' :: '/' :: (m ++ pa) ++ (if Q = [] then [] else '?' :: Q)) =
          (s ++ [':']) ++ ('/' :: '/' :: (m ++ pa) ++ (if Q = [] then [] else '?' :: Q)) := by
        simp
      have h3 : s.length + 1 = (s ++ [':']).length := by simp
      rw [h2, h3]
      exact List.drop_left _ _
    rw [hdropa]
    have htk2 : (('/' :: '/' :: (m ++ pa) ++ (if Q = [] then [] else '?' :: Q)).take 2) =
        ['/', '/'] := rfl
    rw [if_pos htk2]
    dsimp only
    have hdp2 : (('/' :: '/' :: (m ++ pa) ++ (if Q = [] then [] else '?' :: Q)).drop 2) =
        m ++ (pa ++ (if Q = [] then [] else '?' :: Q)) := by
      simp
    rw [hdp2]
    have hstop : ∀ c t, pa ++ (if Q = [] then [] else '?' :: Q) = c :: t →
        (fun c => !(isNetlocDelim c)) c = false := by
      intro c t hct
      cases hpa0 : pa with
      | nil =>
        rw [hpa0, List.nil_append] at hct
        by_cases hQe : Q = []
        · rw [if_pos hQe] at hct
          cases hct
        · rw [if_neg hQe, List.cons.injEq] at hct
          rw [← hct.1]
          decide
      | cons p0 pt =>
        rw [hpa0, List.cons_append, List.cons.injEq] at hct
        have := hpa_head p0 pt hpa0
        rw [← hct.1, this]
        decide
    obtain ⟨htw, hdwn⟩ := takeWhile_append_stop (fun c => !(isNetlocDelim c)) m
      (pa ++ (if Q = [] then [] else '?' :: Q))
      (fun c hc => by simp [(hm c hc).1]) hstop
    rw [htw, hdwn]
    have hQ' : ∀ c ∈ Q, ¬ c = '#' ∧ ¬ c = ':' ∧ ¬ c = '?' ∧ isRemovedByte c = false ∧
        33 ≤ c.toNat := by
      intro c hc
      have := hQ c hc
      refine ⟨fun he => ?_, fun he => ?_, fun he => ?_,
        isRemovedByte_eq_false_of_toNat c (by omega) (by omega) (by omega), by omega⟩
      · rw [he] at this
        revert this
        decide
      · rw [he] at this
        revert this
        decide
      · rw [he] at this
        revert this
        decide
    obtain ⟨hq1, hq2⟩ := frag_query_endgame pa Q (fun c hc => (hpa c hc).2.1)
      (fun c hc => (hpa c hc).1) (fun c hc => (hQ' c hc).1)
    -- identify the path component directly
    have hnof : ∀ c ∈ pa ++ (if Q = [] then [] else '?' :: Q), ¬ c = '#' := by
      intro c hc
      rw [List.mem_append] at hc
      rcases hc with hc | hc
      · exact (hpa c hc).1
      · by_cases hQe : Q = []
        · rw [if_pos hQe] at hc
          cases hc
        · rw [if_neg hQe] at hc
          rw [List.mem_cons] at hc
          rcases hc with hc | hc
          · subst hc
            decide
          · exact (hQ' c hc).1
    rw [pySplitOnce_eq_none _ '#' hnof]
    dsimp only
    by_cases hQe : Q = []
    · rw [if_pos hQe, List.append_nil] at *
      rw [pySplitOnce_eq_none pa '?' (fun c hc => (hpa c hc).2.1)]
      rw [hQe]
    · rw [if_neg hQe] at *
      rw [pySplitOnce_append pa Q '?' (fun c hc => (hpa c hc).2.1)]

/-- The WHATWG sanitization is the identity on clean URLs. -/
theorem urlsplit_sanitize (n : PyStr)
    (hrm : ∀ c ∈ n, isRemovedByte c = false)
    (hhd : ∀ c t, n = c :: t → isC0OrSpace c = false) :
    ((n.dropWhile isC0OrSpace).filter (fun c => !(isRemovedByte c))) = n := by
  have hdw : n.dropWhile isC0OrSpace = n := by
    cases hn : n with
    | nil => rfl
    | cons c t =>
      rw [List.dropWhile_cons, if_neg (by simp [hhd c t hn])]
  rw [hdw]
  exact List.filter_eq_self.mpr (fun c hc => by simp [hrm c hc])

/-- The `if … then … else` of the query re-attachment, rearranged. -/
theorem if_query_append (u q : PyStr) :
    (if q ≠ [] then u ++ '?' :: q else u) = u ++ (if q = [] then [] else '?' :: q) := by
  by_cases hq : q = []
  · rw [if_neg (fun h => h hq), if_pos hq, List.append_nil]
  · rw [if_pos hq, if_neg hq]

/-- A path whose colon decompositions are all blocked stays blocked after
appending a tail that starts with a non-scheme character. -/
theorem block_no_scheme_tail (path sp : PyStr)
    (hsp_head : ∀ c t, sp = c :: t → isSchemeChar c = false ∧ ¬ c = ':')
    (hblk : ∀ a b2, path = a ++ ':' :: b2 → (∀ y ∈ a, ¬ y = ':') →
      ¬(0 < a.length ∧ ((path.take 1).all Char.isAlpha) = true ∧
        (a.all isSchemeChar) = true)) :
    ∀ a b, path ++ sp = a ++ ':' :: b → (∀ y ∈ a, ¬ y = ':') →
      ¬(0 < a.length ∧ (((path ++ sp).take 1).all Char.isAlpha) = true ∧
        (a.all isSchemeChar) = true) := by
  intro a b heq hafree hcond
  rcases List.append_eq_append_iff.mp heq with ⟨w, hw1, hw2⟩ | ⟨w, hw1, hw2⟩
  · cases hw0 : w with
    | nil =>
      rw [hw0, List.nil_append] at hw2
      exact (hsp_head ':' b hw2).2 rfl
    | cons w0 w' =>
      rw [hw0, List.cons_append] at hw2
      have hsc := (hsp_head w0 _ hw2).1
      have hw0a : w0 ∈ a := by
        rw [hw1, hw0]
        exact List.mem_append.mpr (Or.inr (List.mem_cons_self _ _))
      have hall := hcond.2.2
      rw [List.all_eq_true] at hall
      have := hall w0 hw0a
      rw [hsc] at this
      cases this
  · cases hw0 : w with
    | nil =>
      rw [hw0, List.nil_append] at hw2
      exact (hsp_head ':' b hw2.symm).2 rfl
    | cons w0 w' =>
      rw [hw0, List.cons_append, List.cons.injEq] at hw2
      rw [hw0, ← hw2.1] at hw1
      have hbl := hblk a w' hw1 hafree
      apply hbl
      refine ⟨hcond.1, ?_, hcond.2.2⟩
      cases ha0 : a with
      | nil =>
        rw [ha0] at hcond
        exact absurd hcond.1 (by simp)
      | cons a0 a' =>
        rw [ha0, List.cons_append] at hw1
        rw [hw1]
        have hpt2 : ((a0 :: (a' ++ ':' :: w')).take 1) = [a0] := rfl
        rw [hpt2]
        have h21 := hcond.2.1
        have hps : path ++ sp = a0 :: ((a' ++ ':' :: w') ++ sp) := by
          rw [hw1]
          rfl
        rw [hps] at h21
        have hpt3 : (List.take 1 (a0 :: ((a' ++ ':' :: w') ++ sp))) = [a0] := rfl
        rw [hpt3] at h21
        exact h21

/-- Splitting a URL reconstructed with an explicit scheme recovers the
scheme. -/
theorem urlsplit_scheme_of_prefix (s rest : PyStr)
    (hs_ne : ¬ s = [])
    (hs_chars : ∀ c ∈ s, isSchemeChar c = true ∧ 43 ≤ c.toNat ∧ c.toNat ≤ 122)
    (hs_head : ∀ c t, s = c :: t → Char.isAlpha c = true)
    (hs_low : pyLower s = s)
    (hrest : ∀ c ∈ rest, isRemovedByte c = false) :
    (pyUrlsplit (s ++ ':' :: rest)).scheme = s := by
  obtain ⟨c0, t0, hs0⟩ : ∃ c0 t0, s = c0 :: t0 := by
    cases s with
    | nil => exact absurd rfl hs_ne
    | cons c0 t0 => exact ⟨c0, t0, rfl⟩
  have hrm : ∀ c ∈ s ++ ':' :: rest, isRemovedByte c = false := by
    intro c hc
    rw [List.mem_append] at hc
    rcases hc with hc | hc
    · have := hs_chars c hc
      exact isRemovedByte_eq_false_of_toNat c (by omega) (by omega) (by omega)
    · rw [List.mem_cons] at hc
      rcases hc with hc | hc
      · subst hc
        decide
      · exact hrest c hc
  have hhd : ∀ c t, s ++ ':' :: rest = c :: t → isC0OrSpace c = false := by
    intro c t hct
    rw [hs0, List.cons_append, List.cons.injEq] at hct
    have := hs_chars c0 (by rw [hs0]; exact List.mem_cons_self _ _)
    rw [← hct.1]
    rw [Bool.eq_false_iff]
    intro hC0
    rw [isC0OrSpace_iff] at hC0
    omega
  have hsfree : ∀ y ∈ s, ¬ y = ':' := by
    intro y hy heq
    have := (hs_chars y hy).1
    rw [heq] at this
    cases this
  unfold pyUrlsplit
  dsimp only
  rw [urlsplit_sanitize _ hrm hhd]
  rcases pyFind_struct (s ++ ':' :: rest) ':' with ⟨hf, hnone⟩ | ⟨a, b, hf, heq, hafree⟩
  · exact absurd rfl
      (hnone ':' (List.mem_append.mpr (Or.inr (List.mem_cons_self _ _))))
  · obtain ⟨haa, hbb⟩ := first_occ_unique ':' a s b rest heq.symm hafree hsfree
    rw [hf]
    dsimp only
    have htakea : ((s ++ ':' :: rest).take a.length) = s := by
      rw [haa]
      exact List.take_left s _
    have hcond : 0 < a.length ∧ (((s ++ ':' :: rest).take 1).all Char.isAlpha) = true ∧
        (((s ++ ':' :: rest).take a.length).all isSchemeChar) = true := by
      refine ⟨by rw [haa, hs0]; simp, ?_, ?_⟩
      · have h1 : ((s ++ ':' :: rest).take 1) = [c0] := by
          rw [hs0]
          rfl
        rw [h1, List.all_cons, hs_head c0 t0 hs0, List.all_nil]
        rfl
      · rw [htakea, List.all_eq_true]
        exact fun c hc => (hs_chars c hc).1
    rw [if_pos hcond]
    dsimp only
    rw [htakea, hs_low]

/-- Splitting a URL whose colon decompositions are all blocked yields no
scheme. -/
theorem urlsplit_scheme_nil_general (n : PyStr)
    (hrm : ∀ c ∈ n, isRemovedByte c = false)
    (hhd : ∀ c t, n = c :: t → isC0OrSpace c = false)
    (hblkn : ∀ a b, n = a ++ ':' :: b → (∀ y ∈ a, ¬ y = ':') →
      ¬(0 < a.length ∧ ((n.take 1).all Char.isAlpha) = true ∧
        (a.all isSchemeChar) = true)) :
    (pyUrlsplit n).scheme = [] := by
  unfold pyUrlsplit
  dsimp only
  rw [urlsplit_sanitize _ hrm hhd]
  rcases pyFind_struct n ':' with ⟨hf, hnone⟩ | ⟨a, b, hf, heq, hafree⟩
  · rw [hf]
  · rw [hf]
    dsimp only
    rw [if_neg ?hc]
    case hc =>
      intro hcond
      apply hblkn a b heq hafree
      refine ⟨hcond.1, hcond.2.1, ?_⟩
      have htakea : (n.take a.length) = a := by
        rw [heq]
        exact List.take_left a _
      rw [htakea] at hcond
      exact hcond.2.2

/-- The trailing-slash strip is idempotent when the path does not end in a
double slash. -/
theorem pyStripTrailingSlash_fix (p : PyStr)
    (h : pyEndsWith p (("//").data) = false) :
    pyStripTrailingSlash (pyStripTrailingSlash p) = pyStripTrailingSlash p := by
  by_cases h1 : p ≠ ['/'] ∧ pyEndsWith p (("/").data) = true
  · have hsuf : (("/").data) <:+ p := by
      rw [← List.isSuffixOf_iff_suffix]
      exact h1.2
    obtain ⟨r, hr⟩ := hsuf
    have hq : pyStripTrailingSlash p = r := by
      unfold pyStripTrailingSlash
      rw [if_pos h1, ← hr]
      have hlen : (r ++ ("/").data).length - 1 = r.length := by
        rw [List.length_append]
        rfl
      rw [hlen]
      exact List.take_left r _
    rw [hq]
    unfold pyStripTrailingSlash
    rw [if_neg ?hc]
    case hc =>
      intro hcr
      have hsuf2 : (("/").data) <:+ r := by
        rw [← List.isSuffixOf_iff_suffix]
        exact hcr.2
      obtain ⟨r2, hr2⟩ := hsuf2
      have hpp : p = r2 ++ (("//").data) := by
        rw [← hr, ← hr2, List.append_assoc]
        rfl
      have : pyEndsWith p (("//").data) = true := by
        unfold pyEndsWith
        rw [List.isSuffixOf_iff_suffix]
        exact ⟨r2, hpp.symm⟩
      rw [h] at this
      cases this
  · have hq : pyStripTrailingSlash p = p := by
      unfold pyStripTrailingSlash
      rw [if_neg ?hc2]
      case hc2 =>
        intro hc
        exact h1 ⟨hc.1, hc.2⟩
    rw [hq, hq]

/-- Characters of an `if` branch satisfy a predicate holding on both arms. -/
theorem ite_chars {P : Char → Prop} (C : Prop) [Decidable C] (x y : PyStr)
    (hx : ∀ c ∈ x, P c) (hy : ∀ c ∈ y, P c) : ∀ c ∈ (if C then x else y), P c := by
  by_cases hC : C
  · rw [if_pos hC]
    exact hx
  · rw [if_neg hC]
    exact hy

/-- Unfolding `normalize_url` when the scheme is present, the stripped netloc
is nonempty and the path part carries no parameters. -/
theorem normalize_unfold (u : PyStr)
    (hnoparams : ¬ ((pyUrlsplit u).scheme ∈ usesParams ∧
      ((pyUrlsplit u).pathPart.contains ';') = true))
    (hs_ne : ¬ (pyUrlsplit u).scheme = [])
    (hm_ne : ¬ pyStripPort (pyLower (pyUrlsplit u).netloc) = []) :
    normalize_url u =
      (pyUrlsplit u).scheme ++ ':' :: '/' :: '/' ::
        (pyStripPort (pyLower (pyUrlsplit u).netloc) ++
          pyStripTrailingSlash (pyUrlsplit u).pathPart) ++
        (if pyUrlencode (pySortPairs ((pyParseQs (pyUrlsplit u).query).filter
            (fun kv => !(trackingParams.contains kv.1)))) = [] then []
          else '?' :: pyUrlencode (pySortPairs ((pyParseQs (pyUrlsplit u).query).filter
            (fun kv => !(trackingParams.contains kv.1))))) := by
  have hP : pyUrlparse u = ⟨(pyUrlsplit u).scheme, (pyUrlsplit u).netloc,
      (pyUrlsplit u).pathPart, [], (pyUrlsplit u).query, (pyUrlsplit u).fragment⟩ := by
    unfold pyUrlparse
    dsimp only
    rw [if_neg hnoparams]
  have hnl_ne : ¬ (pyUrlsplit u).netloc = [] := by
    intro hnil
    apply hm_ne
    rw [hnil]
    decide
  have hslash : ¬ (pyStripTrailingSlash (pyUrlsplit u).pathPart ≠ [] ∧
      (pyStripTrailingSlash (pyUrlsplit u).pathPart).take 1 ≠ ['/']) := by
    by_cases hpe : pyStripTrailingSlash (pyUrlsplit u).pathPart = []
    · intro hc
      exact hc.1 hpe
    · obtain ⟨c0, t0, hc0⟩ : ∃ c0 t0,
          pyStripTrailingSlash (pyUrlsplit u).pathPart = c0 :: t0 := by
        cases hx : pyStripTrailingSlash (pyUrlsplit u).pathPart with
        | nil => exact absurd hx hpe
        | cons c0 t0 => exact ⟨c0, t0, rfl⟩
      obtain ⟨w, hw⟩ := pyStripTrailingSlash_prefix (pyUrlsplit u).pathPart
      have hpp : (pyUrlsplit u).pathPart = c0 :: (t0 ++ w) := by
        rw [hw, hc0]
        rfl
      have hc0s : c0 = '/' := pyUrlsplit_path_head_slash u hnl_ne c0 (t0 ++ w) hpp
      intro hc
      apply hc.2
      rw [hc0, hc0s]
      rfl
  unfold normalize_url
  dsimp only
  rw [hP]
  dsimp only
  unfold pyUrlunparse pyUrlunsplit
  dsimp only
  rw [if_neg (show ¬ ([] : PyStr) ≠ [] from fun h => h rfl)]
  rw [show (if ([] : PyStr) ≠ [] then
        pyStripTrailingSlash (pyUrlsplit u).pathPart ++ ';' :: []
      else pyStripTrailingSlash (pyUrlsplit u).pathPart) =
      pyStripTrailingSlash (pyUrlsplit u).pathPart from if_neg (fun h => h rfl)]
  rw [if_pos (Or.inl hm_ne)]
  rw [if_neg hslash]
  rw [if_pos hs_ne]
  rw [if_query_append]

/-- A character of a scheme is not `?`, `#` or a removed byte. -/
theorem scheme_char_clean (c : Char)
    (h : isSchemeChar c = true ∧ 43 ≤ c.toNat ∧ c.toNat ≤ 122) :
    ¬ c = '?' ∧ ¬ c = '#' ∧ isRemovedByte c = false := by
  have h2 := isSchemeChar_toNat c h.1
  refine ⟨?_, ?_, isRemovedByte_eq_false_of_toNat c (by omega) (by omega) (by omega)⟩
  · intro he
    rw [he] at h2
    revert h2
    decide
  · intro he
    rw [he] at h2
    revert h2
    decide

/-- A netloc character is not `?`, `#` or a removed byte. -/
theorem netloc_char_clean (c : Char)
    (h : isNetlocDelim c = false ∧ isRemovedByte c = false) :
    ¬ c = '?' ∧ ¬ c = '#' ∧ isRemovedByte c = false := by
  refine ⟨?_, ?_, h.2⟩
  · intro he
    rw [he] at h
    exact absurd h.1 (by decide)
  · intro he
    rw [he] at h
    exact absurd h.1 (by decide)

/-- Splitting a reconstructed URL recovers the query. -/
theorem unparse_split_query (s nl path params query : PyStr)
    (hs : ∀ c ∈ s, isSchemeChar c = true ∧ 43 ≤ c.toNat ∧ c.toNat ≤ 122)
    (hnl : ∀ c ∈ nl, isNetlocDelim c = false ∧ isRemovedByte c = false)
    (hpath : ∀ c ∈ path, ¬ c = '#' ∧ ¬ c = '?' ∧ isRemovedByte c = false)
    (hparams : ∀ c ∈ params, ¬ c = '#' ∧ ¬ c = '?' ∧ isRemovedByte c = false)
    (hq : ∀ c ∈ query, ¬ c = '#' ∧ ¬ c = ':' ∧ ¬ c = '?' ∧ isRemovedByte c = false ∧
      33 ≤ c.toNat)
    (hhead : s = [] → ∀ c t, path = c :: t → isC0OrSpace c = false) :
    (pyUrlsplit (pyUrlunparse s nl path params query [])).query = query := by
  unfold pyUrlunparse pyUrlunsplit
  dsimp only
  rw [if_neg (show ¬ ([] : PyStr) ≠ [] from fun h => h rfl)]
  rw [if_query_append]
  set u0 : PyStr := if params ≠ [] then path ++ ';' :: params else path with hu0
  set u1 : PyStr := if u0 ≠ [] ∧ u0.take 1 ≠ ['/'] then '/' :: u0 else u0 with hu1
  set u2 : PyStr := if nl ≠ [] ∨ (s ≠ [] ∧ s ∈ usesNetloc ∧ u0.take 2 ≠ ['/', '/']) then
      '/' :: '/' :: (nl ++ u1) else u0 with hu2
  set u3 : PyStr := if s ≠ [] then s ++ ':' :: u2 else u2 with hu3
  have hpath' : ∀ c ∈ path, ¬ c = '?' ∧ ¬ c = '#' ∧ isRemovedByte c = false :=
    fun c hc => ⟨(hpath c hc).2.1, (hpath c hc).1, (hpath c hc).2.2⟩
  have hu0c : ∀ c ∈ u0, ¬ c = '?' ∧ ¬ c = '#' ∧ isRemovedByte c = false := by
    rw [hu0]
    refine ite_chars _ _ _ ?_ hpath'
    intro c hc
    rw [List.mem_append, List.mem_cons] at hc
    rcases hc with hc | hc | hc
    · exact hpath' c hc
    · subst hc
      exact ⟨by decide, by decide, by decide⟩
    · exact ⟨(hparams c hc).2.1, (hparams c hc).1, (hparams c hc).2.2⟩
  have hu1c : ∀ c ∈ u1, ¬ c = '?' ∧ ¬ c = '#' ∧ isRemovedByte c = false := by
    rw [hu1]
    refine ite_chars _ _ _ ?_ hu0c
    intro c hc
    rw [List.mem_cons] at hc
    rcases hc with hc | hc
    · subst hc
      exact ⟨by decide, by decide, by decide⟩
    · exact hu0c c hc
  have hu2c : ∀ c ∈ u2, ¬ c = '?' ∧ ¬ c = '#' ∧ isRemovedByte c = false := by
    rw [hu2]
    refine ite_chars _ _ _ ?_ hu0c
    intro c hc
    rw [List.mem_cons, List.mem_cons, List.mem_append] at hc
    rcases hc with hc | hc | hc | hc
    · subst hc
      exact ⟨by decide, by decide, by decide⟩
    · subst hc
      exact ⟨by decide, by decide, by decide⟩
    · exact netloc_char_clean c (hnl c hc)
    · exact hu1c c hc
  have hu3c : ∀ c ∈ u3, ¬ c = '?' ∧ ¬ c = '#' ∧ isRemovedByte c = false := by
    rw [hu3]
    refine ite_chars _ _ _ ?_ hu2c
    intro c hc
    rw [List.mem_append, List.mem_cons] at hc
    rcases hc with hc | hc | hc
    · exact scheme_char_clean c (hs c hc)
    · subst hc
      exact ⟨by decide, by decide, by decide⟩
    · exact hu2c c hc
  have hu0head : s = [] → ∀ c l', u0 = c :: l' → isC0OrSpace c = false := by
    intro hs0 c l' hcl
    rw [hu0] at hcl
    by_cases hpar : params ≠ []
    · rw [if_pos hpar] at hcl
      cases hp0 : path with
      | nil =>
        rw [hp0, List.nil_append, List.cons.injEq] at hcl
        rw [← hcl.1]
        decide
      | cons p0 pt =>
        rw [hp0, List.cons_append, List.cons.injEq] at hcl
        rw [← hcl.1]
        exact hhead hs0 p0 pt hp0
    · rw [if_neg hpar] at hcl
      exact hhead hs0 c l' hcl
  have hu3head : ∀ c l', u3 = c :: l' → isC0OrSpace c = false := by
    intro c l' hcl
    by_cases hs0 : s = []
    · rw [hu3, if_neg (by rw [hs0]; exact fun h => h rfl)] at hcl
      rw [hu2] at hcl
      by_cases hbig : nl ≠ [] ∨ (s ≠ [] ∧ s ∈ usesNetloc ∧ u0.take 2 ≠ ['/', '/'])
      · rw [if_pos hbig, List.cons.injEq] at hcl
        rw [← hcl.1]
        decide
      · rw [if_neg hbig] at hcl
        exact hu0head hs0 c l' hcl
    · rw [hu3, if_pos hs0] at hcl
      obtain ⟨c0, t0, hs0'⟩ : ∃ c0 t0, s = c0 :: t0 := by
        cases hx : s with
        | nil => exact absurd hx hs0
        | cons c0 t0 => exact ⟨c0, t0, rfl⟩
      rw [hs0', List.cons_append, List.cons.injEq] at hcl
      have := (hs c0 (by rw [hs0']; exact List.mem_cons_self _ _)).2.1
      rw [← hcl.1, Bool.eq_false_iff]
      intro hC0
      rw [isC0OrSpace_iff] at hC0
      omega
  exact (urlsplit_query_recovery u3 query hu3c hq hu3head).1

/-- Splitting a reconstructed URL recovers the scheme. -/
theorem unparse_split_scheme (s nl path params query : PyStr)
    (hs : ∀ c ∈ s, isSchemeChar c = true ∧ 43 ≤ c.toNat ∧ c.toNat ≤ 122)
    (hs_head : ∀ c t, s = c :: t → Char.isAlpha c = true)
    (hs_low : pyLower s = s)
    (hnl : ∀ c ∈ nl, isNetlocDelim c = false ∧ isRemovedByte c = false)
    (hpath : ∀ c ∈ path, ¬ c = '#' ∧ ¬ c = '?' ∧ isRemovedByte c = false)
    (hparams : ∀ c ∈ params, ¬ c = '#' ∧ ¬ c = '?' ∧ isRemovedByte c = false)
    (hq : ∀ c ∈ query, ¬ c = '#' ∧ ¬ c = ':' ∧ ¬ c = '?' ∧ isRemovedByte c = false ∧
      33 ≤ c.toNat)
    (hhead : s = [] → ∀ c t, path = c :: t → isC0OrSpace c = false)
    (hblk : s = [] → ∀ a b2, path = a ++ ':' :: b2 → (∀ y ∈ a, ¬ y = ':') →
      ¬(0 < a.length ∧ ((path.take 1).all Char.isAlpha) = true ∧
        (a.all isSchemeChar) = true)) :
    (pyUrlsplit (pyUrlunparse s nl path params query [])).scheme = s := by
  unfold pyUrlunparse pyUrlunsplit
  dsimp only
  rw [if_neg (show ¬ ([] : PyStr) ≠ [] from fun h => h rfl)]
  rw [if_query_append]
  set u0 : PyStr := if params ≠ [] then path ++ ';' :: params else path with hu0
  set u1 : PyStr := if u0 ≠ [] ∧ u0.take 1 ≠ ['/'] then '/' :: u0 else u0 with hu1
  set u2 : PyStr := if nl ≠ [] ∨ (s ≠ [] ∧ s ∈ usesNetloc ∧ u0.take 2 ≠ ['/', '/']) then
      '/' :: '/' :: (nl ++ u1) else u0 with hu2
  set u3 : PyStr := if s ≠ [] then s ++ ':' :: u2 else u2 with hu3
  set qb : PyStr := if query = [] then [] else '?' :: query with hqb
  have hu0rm : ∀ c ∈ u0, isRemovedByte c = false := by
    rw [hu0]
    refine ite_chars _ _ _ ?_ (fun c hc => (hpath c hc).2.2)
    intro c hc
    rw [List.mem_append, List.mem_cons] at hc
    rcases hc with hc | hc | hc
    · exact (hpath c hc).2.2
    · subst hc
      decide
    · exact (hparams c hc).2.2
  have hu1rm : ∀ c ∈ u1, isRemovedByte c = false := by
    rw [hu1]
    refine ite_chars _ _ _ ?_ hu0rm
    intro c hc
    rw [List.mem_cons] at hc
    rcases hc with hc | hc
    · subst hc
      decide
    · exact hu0rm c hc
  have hu2rm : ∀ c ∈ u2, isRemovedByte c = false := by
    rw [hu2]
    refine ite_chars _ _ _ ?_ hu0rm
    intro c hc
    rw [List.mem_cons, List.mem_cons, List.mem_append] at hc
    rcases hc with hc | hc | hc | hc
    · subst hc
      decide
    · subst hc
      decide
    · exact (hnl c hc).2
    · exact hu1rm c hc
  have hqbrm : ∀ c ∈ qb, isRemovedByte c = false := by
    rw [hqb]
    refine ite_chars _ _ _ (fun c hc => absurd hc (List.not_mem_nil c)) ?_
    intro c hc
    rw [List.mem_cons] at hc
    rcases hc with hc | hc
    · subst hc
      decide
    · exact (hq c hc).2.2.2.1
  have hqb_head : ∀ c t, qb = c :: t → isSchemeChar c = false ∧ ¬ c = ':' := by
    intro c t hct
    rw [hqb] at hct
    by_cases hqe : query = []
    · rw [if_pos hqe] at hct
      cases hct
    · rw [if_neg hqe, List.cons.injEq] at hct
      rw [← hct.1]
      exact ⟨by decide, by decide⟩
  by_cases hs0 : s = []
  · have hu3e : u3 = u2 := by
      rw [hu3, if_neg (by rw [hs0]; exact fun h => h rfl)]
    rw [hu3e, hs0]
    have hu0head : ∀ c l', u0 = c :: l' → isC0OrSpace c = false := by
      intro c l' hcl
      rw [hu0] at hcl
      by_cases hpar : params ≠ []
      · rw [if_pos hpar] at hcl
        cases hp0 : path with
        | nil =>
          rw [hp0, List.nil_append, List.cons.injEq] at hcl
          rw [← hcl.1]
          decide
        | cons p0 pt =>
          rw [hp0, List.cons_append, List.cons.injEq] at hcl
          rw [← hcl.1]
          exact hhead hs0 p0 pt hp0
      · rw [if_neg hpar] at hcl
        exact hhead hs0 c l' hcl
    refine urlsplit_scheme_nil_general _ ?_ ?_ ?_
    · intro c hc
      rw [List.mem_append] at hc
      rcases hc with hc | hc
      · exact hu2rm c hc
      · exact hqbrm c hc
    · intro c t hct
      cases hu2nil : u2 with
      | nil =>
        rw [hu2nil, List.nil_append] at hct
        rw [hqb] at hct
        by_cases hqe : query = []
        · rw [if_pos hqe] at hct
          cases hct
        · rw [if_neg hqe, List.cons.injEq] at hct
          rw [← hct.1]
          decide
      | cons c2 t2 =>
        rw [hu2nil, List.cons_append, List.cons.injEq] at hct
        rw [← hct.1]
        rw [hu2] at hu2nil
        by_cases hbig : nl ≠ [] ∨ (s ≠ [] ∧ s ∈ usesNetloc ∧ u0.take 2 ≠ ['/', '/'])
        · rw [if_pos hbig, List.cons.injEq] at hu2nil
          rw [← hu2nil.1]
          decide
        · rw [if_neg hbig] at hu2nil
          exact hu0head c2 t2 hu2nil
    · by_cases hbig : nl ≠ [] ∨ (s ≠ [] ∧ s ∈ usesNetloc ∧ u0.take 2 ≠ ['/', '/'])
      · have hu2e : u2 = '/' :: '/' :: (nl ++ u1) := by
          rw [hu2, if_pos hbig]
        intro a b heq hafree hcond
        have ht : ((u2 ++ qb).take 1) = ['/'] := by
          rw [hu2e]
          rfl
        rw [ht] at hcond
        exact absurd hcond.2.1 (by decide)
      · have hu2e : u2 = u0 := by
          rw [hu2, if_neg hbig]
        by_cases hpar : params ≠ []
        · have hu0e : u0 = path ++ ';' :: params := by
            rw [hu0, if_pos hpar]
          have hne : u2 ++ qb = path ++ (';' :: (params ++ qb)) := by
            rw [hu2e, hu0e, List.append_assoc]
            rfl
          intro a b heq hafree
          rw [hne] at heq ⊢
          refine block_no_scheme_tail path (';' :: (params ++ qb)) ?_ (hblk hs0) a b heq hafree
          intro c t hct
          rw [List.cons.injEq] at hct
          rw [← hct.1]
          exact ⟨by decide, by decide⟩
        · have hu0e : u0 = path := by
            rw [hu0, if_neg hpar]
          have hne : u2 ++ qb = path ++ qb := by
            rw [hu2e, hu0e]
          intro a b heq hafree
          rw [hne] at heq ⊢
          exact block_no_scheme_tail path qb hqb_head (hblk hs0) a b heq hafree
  · have hu3e : u3 = s ++ ':' :: u2 := by
      rw [hu3, if_pos hs0]
    rw [hu3e, List.append_assoc, List.cons_append]
    refine urlsplit_scheme_of_prefix s (u2 ++ qb) hs0 hs hs_head hs_low ?_
    intro c hc
    rw [List.mem_append] at hc
    rcases hc with hc | hc
    · exact hu2rm c hc
    · exact hqbrm c hc



/-! ## Ledger lemmas (claims C1 and C4) -/

/-- A fresh failure record as inserted by `_record_failed_urls`. -/
theorem applyFailure_no_match (l : List FailureRecord) (s u r now : PyStr)
    (h : ∀ rec ∈ l, ¬(rec.source = s ∧ rec.url = u)) :
    applyFailure l s u r now =
      l ++ [{ source := s, url := u, failCount := some 1, lastFailure := some now,
              reason := if r ≠ [] then some r else none }] := by
  induction l with
  | nil => rfl
  | cons x xs ih =>
    have hx : ¬(x.source = s ∧ x.url = u) := h x (List.mem_cons_self x xs)
    simp only [applyFailure, if_neg hx, List.cons_append, List.cons.injEq, true_and]
    exact ih (fun rec hrec => h rec (List.mem_cons_of_mem x hrec))

/-- Updating the first matching record when the prefix has no match. -/
theorem applyFailure_append_match (l : List FailureRecord) (m : FailureRecord)
    (tail : List FailureRecord) (s u r now : PyStr)
    (h : ∀ rec ∈ l, ¬(rec.source = s ∧ rec.url = u))
    (hm : m.source = s ∧ m.url = u) :
    applyFailure (l ++ m :: tail) s u r now =
      l ++ { m with lastFailure := some now,
                    failCount := some ((m.failCount.getD 1) + 1),
                    reason := if r ≠ [] then some r else m.reason } :: tail := by
  induction l with
  | nil => simp only [List.nil_append, applyFailure, if_pos hm]
  | cons x xs ih =>
    have hx : ¬(x.source = s ∧ x.url = u) := h x (List.mem_cons_self x xs)
    simp only [List.cons_append, applyFailure, if_neg hx, List.cons.injEq, true_and]
    exact ih (fun rec hrec => h rec (List.mem_cons_of_mem x hrec))

/-- Filtering a no-match list plus one trailing element. -/
theorem filter_append_single (l : List FailureRecord) (x : FailureRecord)
    (p : FailureRecord → Bool) (h : ∀ rec ∈ l, p rec = false) :
    (l ++ [x]).filter p = if p x then [x] else [] := by
  induction l with
  | nil => cases hp : p x <;> simp [List.filter, hp]
  | cons a as ih =>
    have ha : p a = false := h a (List.mem_cons_self a as)
    simp only [List.cons_append, List.filter, ha]
    exact ih (fun rec hrec => h rec (List.mem_cons_of_mem a hrec))

/-- After the recovered-removal pass, no record for a recovered URL remains. -/
theorem removeRecovered_no_match (records : List FailureRecord) (s u : PyStr)
    (recovered : List PyStr) (hmem : u ∈ recovered) :
    ∀ rec ∈ removeRecovered records s recovered, ¬(rec.source = s ∧ rec.url = u) := by
  intro rec hrec hcontra
  have hne : recovered ≠ [] := by
    intro hnil
    rw [hnil] at hmem
    exact absurd hmem (List.not_mem_nil u)
  rw [removeRecovered, if_pos hne] at hrec
  have := List.of_mem_filter hrec
  simp only [Bool.not_eq_true', Bool.and_eq_false_iff] at this
  rcases this with h1 | h2
  · simp [hcontra.1] at h1
  · rw [hcontra.2] at h2
    have hc : recovered.contains u = true := by
      simpa [List.contains] using List.elem_eq_true_of_mem hmem
    rw [h2] at hc
    cases hc

/-- Prop/Bool bridge for the ledger key predicate. -/
theorem key_beq_false_iff (s u : PyStr) (rec : FailureRecord) :
    ((rec.source == s) && (rec.url == u)) = false ↔ ¬(rec.source = s ∧ rec.url = u) := by
  rw [Bool.and_eq_false_iff]
  simp only [beq_eq_false_iff_ne, ne_eq]
  tauto

/-- `recordOutcome` with a single failure reduces to one `applyFailure` on the
removal-pass output. -/
theorem recordFailedUrls_single (records : List FailureRecord)
    (s u r now : PyStr) (recovered : List PyStr) (hu : u ≠ []) :
    recordFailedUrls records s [(u, r)] recovered now =
      applyFailure (removeRecovered records s recovered) s u r now := by
  unfold recordFailedUrls
  rw [if_pos (by simp : ([(u, r)] : List (PyStr × PyStr)) ≠ [])]
  simp only [List.foldl]
  rw [if_neg hu]

/-- C1 counterexample input: a ledger with one failed record. -/
def c1Ledger : List FailureRecord :=
  [{ source := ("s").data, url := ("u").data, failCount := some 3,
     lastFailure := some (("t0").data), reason := some (("old").data) }]

/-- Claim C1 (as stated) is false: when a URL appears in both `recovered` and
the same call's `failures`, the `(source, url)` record is NOT absent from the
persisted ledger — the removal pass deletes the old record but the failure
pass re-inserts a fresh one (`failCount` restarts at 1). -/
theorem c1_counterexample :
    recordFailedUrls c1Ledger (("s").data) [((("u").data), (("boom").data))]
        [("u").data] (("t1").data) =
      [{ source := ("s").data, url := ("u").data, failCount := some 1,
         lastFailure := some (("t1").data), reason := some (("boom").data) }] ∧
    (recordFailedUrls c1Ledger (("s").data) [((("u").data), (("boom").data))]
        [("u").data] (("t1").data)).any
      (fun rec => rec.source == ("s").data && rec.url == ("u").data) = true := by
  constructor
  · rfl
  · rfl

/-- Claim C1, amended: within one `recordOutcome` call, failure wins for a URL
present in both lists.  The recovered-removal pass first deletes every
existing `(source, url)` record, and the failure pass then re-inserts exactly
one fresh record with `failCount = 1`, `lastFailure = now` and the call's
reason, so the pair is present (not absent) in the persisted ledger. -/
theorem c1_recovery_then_failure_reinserts (records : List FailureRecord)
    (s u r now : PyStr) (recovered : List PyStr)
    (hu : u ≠ []) (hr : r ≠ []) (hmem : u ∈ recovered) :
    (recordFailedUrls records s [(u, r)] recovered now).filter
        (fun rec => rec.source == s && rec.url == u) =
      [{ source := s, url := u, failCount := some 1, lastFailure := some now,
         reason := some r }] := by
  have hbase := removeRecovered_no_match records s u recovered hmem
  rw [recordFailedUrls_single records s u r now recovered hu]
  rw [applyFailure_no_match _ s u r now hbase]
  have hpred : ∀ rec ∈ removeRecovered records s recovered,
      ((rec.source == s) && (rec.url == u)) = false := by
    intro rec hrec
    exact (key_beq_false_iff s u rec).mpr (hbase rec hrec)
  rw [filter_append_single _ _ _ hpred]
  rw [if_pos (by simp)]
  rw [if_pos hr]

/-- Witness for the amended C1 at a concrete ledger. -/
theorem c1_witness :
    (("u").data : PyStr) ≠ [] ∧ (("boom").data : PyStr) ≠ [] ∧
      (("u").data : PyStr) ∈ [("u").data] ∧
      (recordFailedUrls c1Ledger (("s").data) [((("u").data), (("boom").data))]
          [("u").data] (("t1").data)).filter
        (fun rec => rec.source == ("s").data && rec.url == ("u").data) =
      [{ source := ("s").data, url := ("u").data, failCount := some 1,
         lastFailure := some (("t1").data), reason := some (("boom").data) }] :=
  ⟨by decide, by decide, by decide,
    c1_recovery_then_failure_reinserts c1Ledger (("s").data) (("u").data)
      (("boom").data) (("t1").data) [("u").data] (by decide) (by decide) (by decide)⟩

/-! ## C4: ledger dedup and key uniqueness -/

/-- Every record produced by `applyFailure` either carries the key of an input
record or the applied `(s, u)` key. -/
theorem mem_applyFailure (l : List FailureRecord) (s u r now : PyStr) :
    ∀ b ∈ applyFailure l s u r now,
      (∃ a ∈ l, b.source = a.source ∧ b.url = a.url) ∨ (b.source = s ∧ b.url = u) := by
  induction l with
  | nil =>
    intro b hb
    simp only [applyFailure, List.mem_singleton] at hb
    subst hb
    exact Or.inr ⟨rfl, rfl⟩
  | cons x xs ih =>
    intro b hb
    by_cases hx : x.source = s ∧ x.url = u
    · rw [applyFailure, if_pos hx] at hb
      rcases List.mem_cons.mp hb with hbx | hbxs
      · subst hbx
        exact Or.inl ⟨x, List.mem_cons_self x xs, rfl, rfl⟩
      · exact Or.inl ⟨b, List.mem_cons_of_mem x hbxs, rfl, rfl⟩
    · rw [applyFailure, if_neg hx] at hb
      rcases List.mem_cons.mp hb with hbx | hbxs
      · subst hbx
        exact Or.inl ⟨b, List.mem_cons_self b xs, rfl, rfl⟩
      · rcases ih b hbxs with ⟨a, ha, hk⟩ | hk
        · exact Or.inl ⟨a, List.mem_cons_of_mem x ha, hk⟩
        · exact Or.inr hk

/-- The key-distinctness relation used for ledger uniqueness. -/
def ledgerKeyNe (a b : FailureRecord) : Prop := ¬(b.source = a.source ∧ b.url = a.url)

/-- `ledgerKeyUnique` is the pairwise key-distinctness predicate. -/
theorem ledgerKeyUnique_iff (l : List FailureRecord) :
    ledgerKeyUnique l = true ↔ List.Pairwise ledgerKeyNe l := by
  induction l with
  | nil => simp [ledgerKeyUnique]
  | cons x xs ih =>
    simp only [ledgerKeyUnique, Bool.and_eq_true, List.pairwise_cons, ih, List.all_eq_true]
    constructor
    · rintro ⟨h1, h2⟩
      refine ⟨fun b hb => ?_, h2⟩
      have := h1 b hb
      simp only [Bool.not_eq_true'] at this
      exact (key_beq_false_iff x.source x.url b).mp this
    · rintro ⟨h1, h2⟩
      refine ⟨fun b hb => ?_, h2⟩
      simp only [Bool.not_eq_true']
      exact (key_beq_false_iff x.source x.url b).mpr (h1 b hb)

/-- `applyFailure` preserves pairwise key distinctness. -/
theorem applyFailure_pairwise (l : List FailureRecord) (s u r now : PyStr)
    (h : List.Pairwise ledgerKeyNe l) :
    List.Pairwise ledgerKeyNe (applyFailure l s u r now) := by
  induction l with
  | nil =>
    simp [applyFailure, List.pairwise_cons]
  | cons x xs ih =>
    rcases List.pairwise_cons.mp h with ⟨hx, hxs⟩
    by_cases hm : x.source = s ∧ x.url = u
    · rw [applyFailure, if_pos hm]
      refine List.pairwise_cons.mpr ⟨fun b hb => ?_, hxs⟩
      exact hx b hb
    · rw [applyFailure, if_neg hm]
      refine List.pairwise_cons.mpr ⟨fun b hb => ?_, ih hxs⟩
      rcases mem_applyFailure xs s u r now b hb with ⟨a, ha, hk1, hk2⟩ | ⟨hk1, hk2⟩
      · intro hcon
        exact hx a ha ⟨hk1 ▸ hcon.1, hk2 ▸ hcon.2⟩
      · intro hcon
        exact hm ⟨(hk1 ▸ hcon.1 : s = x.source).symm, (hk2 ▸ hcon.2 : u = x.url).symm⟩

/-- The failure fold of `_record_failed_urls` preserves key distinctness. -/
theorem foldl_applyFailure_pairwise (failures : List (PyStr × PyStr)) (s now : PyStr) :
    ∀ base : List FailureRecord, List.Pairwise ledgerKeyNe base →
      List.Pairwise ledgerKeyNe
        (failures.foldl
          (fun recs f => if f.1 = [] then recs else applyFailure recs s f.1 f.2 now) base) := by
  induction failures with
  | nil => intro base h; exact h
  | cons f fs ih =>
    intro base h
    simp only [List.foldl]
    by_cases hf1 : f.1 = []
    · rw [if_pos hf1]
      exact ih base h
    · rw [if_neg hf1]
      exact ih _ (applyFailure_pairwise base s f.1 f.2 now h)

/-- `_record_failed_urls` preserves pairwise key distinctness. -/
theorem recordFailedUrls_pairwise (records : List FailureRecord) (s : PyStr)
    (failures : List (PyStr × PyStr)) (recovered : List PyStr) (now : PyStr)
    (h : List.Pairwise ledgerKeyNe records) :
    List.Pairwise ledgerKeyNe (recordFailedUrls records s failures recovered now) := by
  have hrem : List.Pairwise ledgerKeyNe (removeRecovered records s recovered) := by
    unfold removeRecovered
    by_cases hne : recovered ≠ []
    · rw [if_pos hne]
      exact List.Pairwise.sublist (List.filter_sublist records) h
    · rw [if_neg hne]
      exact h
  unfold recordFailedUrls
  by_cases hf : failures ≠ []
  · rw [if_pos hf]
    exact foldl_applyFailure_pairwise failures s now _ hrem
  · rw [if_neg hf]
    exact hrem

/-- Claim C4: recording two consecutive failures for the same `(source, url)`
(two `recordOutcome` calls) yields exactly one record for that pair, with
`failCount = 2`, `lastFailure` the second call's timestamp and `reason` the
second call's reason; and `recordOutcome` preserves the at-most-once invariant
of `(source, url)` keys whenever the loaded ledger satisfies it. -/
theorem c4_ledger_dedup :
    (∀ (records : List FailureRecord) (s u r1 r2 t1 t2 : PyStr),
      u ≠ [] → r2 ≠ [] →
      (∀ rec ∈ records, ¬(rec.source = s ∧ rec.url = u)) →
      (recordFailedUrls (recordFailedUrls records s [(u, r1)] [] t1) s
          [(u, r2)] [] t2).filter (fun rec => rec.source == s && rec.url == u) =
        [{ source := s, url := u, failCount := some 2, lastFailure := some t2,
           reason := some r2 }]) ∧
    (∀ (records : List FailureRecord) (s : PyStr) (failures : List (PyStr × PyStr))
        (recovered : List PyStr) (now : PyStr),
      ledgerKeyUnique records = true →
      ledgerKeyUnique (recordFailedUrls records s failures recovered now) = true) := by
  constructor
  · intro records s u r1 r2 t1 t2 hu hr2 hno
    have hrem : ∀ l : List FailureRecord, removeRecovered l s [] = l := by
      intro l
      unfold removeRecovered
      simp
    have hpred : ∀ rec ∈ records, ((rec.source == s) && (rec.url == u)) = false := by
      intro rec hrec
      exact (key_beq_false_iff s u rec).mpr (hno rec hrec)
    rw [recordFailedUrls_single records s u r1 t1 [] hu, hrem,
      applyFailure_no_match records s u r1 t1 hno,
      recordFailedUrls_single _ s u r2 t2 [] hu, hrem,
      applyFailure_append_match records _ [] s u r2 t2 hno ⟨rfl, rfl⟩,
      filter_append_single records _ _ hpred, if_pos (by simp)]
    simp [hr2]
  · intro records s failures recovered now h
    exact (ledgerKeyUnique_iff _).mpr
      (recordFailedUrls_pairwise records s failures recovered now
        ((ledgerKeyUnique_iff _).mp h))

/-- Witness for C4 at a concrete ledger. -/
theorem c4_witness :
    ((("u").data : PyStr) ≠ [] ∧ (("r2").data : PyStr) ≠ [] ∧
      (∀ rec ∈ ([] : List FailureRecord),
        ¬(rec.source = ("s").data ∧ rec.url = ("u").data)) ∧
      (recordFailedUrls (recordFailedUrls [] (("s").data)
            [((("u").data), (("r1").data))] [] (("t1").data)) (("s").data)
          [((("u").data), (("r2").data))] [] (("t2").data)).filter
        (fun rec => rec.source == ("s").data && rec.url == ("u").data) =
        [{ source := ("s").data, url := ("u").data, failCount := some 2,
           lastFailure := some (("t2").data), reason := some (("r2").data) }]) ∧
    (ledgerKeyUnique c1Ledger = true ∧
      ledgerKeyUnique (recordFailedUrls c1Ledger (("x").data)
        [((("v").data), (("r").data))] [] (("t3").data)) = true) :=
  ⟨⟨by decide, by decide, (by intro rec hrec; cases hrec),
    c4_ledger_dedup.1 [] (("s").data) (("u").data) (("r1").data) (("r2").data)
      (("t1").data) (("t2").data) (by decide) (by decide)
      (by intro rec hrec; cases hrec)⟩,
    ⟨by decide,
      c4_ledger_dedup.2 c1Ledger (("x").data) [((("v").data), (("r").data))] []
        (("t3").data) (by decide)⟩⟩

/-! ## C7: per-group failure isolation in `crawl` -/

/-- Claim C7: `crawl` never propagates a failing group's error — it is total
and returns exactly the concatenation of the entries of the groups whose
processing succeeds, skipping every group whose processing raises. -/
theorem c7_crawl_skips_failing_groups {α β ε : Type}
    (process : α → Except ε (List β)) (seedGroups : List α) :
    crawl process seedGroups =
      (seedGroups.map (fun g =>
        match process g with
        | Except.ok entries => entries
        | Except.error _ => [])).flatten := by
  unfold crawl
  suffices h : ∀ acc : List β,
      seedGroups.foldl
        (fun acc g =>
          match process g with
          | Except.ok entries => acc ++ entries
          | Except.error _ => acc) acc =
      acc ++ (seedGroups.map (fun g =>
        match process g with
        | Except.ok entries => entries
        | Except.error _ => [])).flatten by
    simpa using h []
  induction seedGroups with
  | nil => intro acc; simp
  | cons g gs ih =>
    intro acc
    simp only [List.foldl, List.map, List.flatten]
    cases hp : process g with
    | ok entries => rw [ih (acc ++ entries)]; simp
    | error e => rw [ih acc]; simp

/-! ## C5: cap invariants of target derivation -/

/-- The inner allowed-path loop keeps the list within the cap, and reports a
length still below the cap whenever it did not stop early. -/
theorem deriveAllowedInner_le (paths : List PyStr) :
    ∀ allowed seen : List PyStr, allowed.length < MAX_ALLOWED_PATHS →
      (deriveAllowedInner paths allowed seen).1.length ≤ MAX_ALLOWED_PATHS ∧
        ((deriveAllowedInner paths allowed seen).2.2 = false →
          (deriveAllowedInner paths allowed seen).1.length < MAX_ALLOWED_PATHS) := by
  induction paths with
  | nil =>
    intro allowed seen h
    simp only [deriveAllowedInner]
    exact ⟨Nat.le_of_lt h, fun _ => h⟩
  | cons u rest ih =>
    intro allowed seen h
    simp only [deriveAllowedInner]
    split
    · exact ih allowed seen h
    · split
      · exact ih allowed seen h
      · split
        · rename_i hcap
          simp only []
          constructor
          · simpa using h
          · intro hfalse
            cases hfalse
        · rename_i hcap
          apply ih
          omega

/-- The outer allowed-path loop keeps the list within the cap. -/
theorem deriveAllowedOuter_le (env : CrawlEnv) (startUrls : List PyStr) :
    ∀ allowed seen : List PyStr, allowed.length < MAX_ALLOWED_PATHS →
      (deriveAllowedOuter env startUrls allowed seen).length ≤ MAX_ALLOWED_PATHS := by
  induction startUrls with
  | nil =>
    intro allowed seen h
    simp only [deriveAllowedOuter]
    exact Nat.le_of_lt h
  | cons u rest ih =>
    intro allowed seen h
    simp only [deriveAllowedOuter]
    split
    · obtain ⟨h1, h2⟩ := deriveAllowedInner_le _ allowed seen h
      split
      · exact h1
      · rename_i hstop
        exact ih _ _ (h2 (by simpa using hstop))
    · exact ih allowed seen h

/-- The candidate loop of `_derive_sitemap_urls` keeps the list within the cap,
staying strictly below it when it did not hit the cap. -/
theorem deriveSitemapInner_le (allowedDomains : List PyStr) (collected : List PyStr) :
    ∀ urls seen : List PyStr, urls.length < MAX_SITEMAP_URLS →
      (deriveSitemapInner allowedDomains collected urls seen).1.length ≤ MAX_SITEMAP_URLS := by
  induction collected with
  | nil =>
    intro urls seen h
    simp only [deriveSitemapInner]
    exact Nat.le_of_lt h
  | cons c rest ih =>
    intro urls seen h
    simp only [deriveSitemapInner]
    split
    · exact ih urls seen h
    · split
      · exact ih urls seen h
      · split
        · exact ih urls seen h
        · split
          · rename_i hcap
            simpa using h
          · rename_i hcap
            apply ih
            omega

/-- The per-sitemap loop of `_derive_sitemap_urls` keeps the list within the cap. -/
theorem deriveSitemapPerSitemaps_le (env : CrawlEnv) (allowedDomains : List PyStr)
    (sitemaps : List PyStr) :
    ∀ urls seen visited : List PyStr, urls.length ≤ MAX_SITEMAP_URLS →
      (deriveSitemapPerSitemaps env allowedDomains sitemaps urls seen visited).1.length ≤
        MAX_SITEMAP_URLS := by
  induction sitemaps with
  | nil =>
    intro urls seen visited h
    simpa only [deriveSitemapPerSitemaps] using h
  | cons sm rest ih =>
    intro urls seen visited h
    simp only [deriveSitemapPerSitemaps]
    split
    · exact h
    · rename_i hcap
      apply ih
      apply deriveSitemapInner_le
      omega

/-- The outer loop of `_derive_sitemap_urls` keeps the list within the cap. -/
theorem deriveSitemapOuter_le (env : CrawlEnv) (allowedDomains : List PyStr)
    (startUrls : List PyStr) :
    ∀ urls seen visited : List PyStr, urls.length ≤ MAX_SITEMAP_URLS →
      (deriveSitemapOuter env allowedDomains startUrls urls seen visited).length ≤
        MAX_SITEMAP_URLS := by
  induction startUrls with
  | nil =>
    intro urls seen visited h
    simpa only [deriveSitemapOuter] using h
  | cons su rest ih =>
    intro urls seen visited h
    simp only [deriveSitemapOuter]
    split
    · have hp := deriveSitemapPerSitemaps_le env allowedDomains
        (env.robotsOf (originOf (pyUrlparse su).scheme (pyUrlparse su).netloc)).sitemaps
        urls seen visited h
      split
      · exact hp
      · exact ih _ _ _ hp
    · exact ih urls seen visited h

/-- Claim C5: for every seed group and every robots/sitemap input, the derived
allowed-path list has at most 25 URLs, the derived sitemap-URL list has at most
500 URLs, and the sitemap recursion never descends past depth 2 — a call with
`depth = 3 + k` returns immediately without fetching anything. -/
theorem c5_derivation_caps :
    (∀ (env : CrawlEnv) (sg : SeedGroup),
      (deriveAllowedUrls env sg).length ≤ MAX_ALLOWED_PATHS) ∧
    (∀ (env : CrawlEnv) (sg : SeedGroup),
      (deriveSitemapUrls env sg).length ≤ MAX_SITEMAP_URLS) ∧
    (∀ (env : CrawlEnv) (allowedDomains : List PyStr) (u : PyStr)
        (visited log : List PyStr) (k : Nat),
      fetchSitemapUrls env allowedDomains u visited log (MAX_SITEMAP_DEPTH + 1 + k) =
        ([], visited, log)) := by
  refine ⟨fun env sg => ?_, fun env sg => ?_, fun env ad u visited log k => ?_⟩
  · exact deriveAllowedOuter_le env sg.startUrls [] [] (by simp [MAX_ALLOWED_PATHS])
  · exact deriveSitemapOuter_le env _ sg.startUrls [] [] [] (by simp)
  · unfold fetchSitemapUrls fetchSitemapAux
    rw [if_pos (by omega)]

/-! ## C6: termination and at-most-once fetching of sitemap expansion -/

/-- `List.contains` agrees with membership for strings. -/
theorem contains_iff_mem (l : List PyStr) (x : PyStr) : l.contains x = true ↔ x ∈ l := by
  induction l with
  | nil => simp
  | cons a as ih => simp [List.contains] at ih ⊢

/-- `pyNodup` agrees with `List.Nodup`. -/
theorem pyNodup_iff (l : List PyStr) : pyNodup l = true ↔ l.Nodup := by
  induction l with
  | nil => simp [pyNodup]
  | cons a as ih =>
    simp only [pyNodup, Bool.and_eq_true, List.nodup_cons, ih, Bool.not_eq_true']
    constructor
    · rintro ⟨h1, h2⟩
      refine ⟨fun hmem => ?_, h2⟩
      rw [(contains_iff_mem as a).mpr hmem] at h1
      cases h1
    · rintro ⟨h1, h2⟩
      refine ⟨?_, h2⟩
      cases hc : as.contains a
      · rfl
      · exact absurd ((contains_iff_mem as a).mp hc) h1

/-- The invariant a child fetch must satisfy: the visited set and the fetch
log grow by one common, fresh, duplicate-free extension. -/
def FetchInv
    (f : PyStr → List PyStr → List PyStr → List PyStr × List PyStr × List PyStr) : Prop :=
  ∀ (u : PyStr) (vis log : List PyStr),
    ∃ Δ : List PyStr,
      (f u vis log).2.1 = vis ++ Δ ∧ (f u vis log).2.2 = log ++ Δ ∧
        Δ.Nodup ∧ ∀ x ∈ Δ, x ∉ vis

/-- The `sitemapindex` loop preserves the visited/log extension invariant. -/
theorem sitemapIndexLoop_inv
    (f : PyStr → List PyStr → List PyStr → List PyStr × List PyStr × List PyStr)
    (hf : FetchInv f) (allowedDomains : List PyStr) (children : List XmlElem) :
    ∀ (urls vis log : List PyStr),
      ∃ Δ : List PyStr,
        (sitemapIndexLoop f allowedDomains children urls vis log).2.1 = vis ++ Δ ∧
        (sitemapIndexLoop f allowedDomains children urls vis log).2.2 = log ++ Δ ∧
        Δ.Nodup ∧ ∀ x ∈ Δ, x ∉ vis := by
  induction children with
  | nil =>
    intro urls vis log
    exact ⟨[], by simp [sitemapIndexLoop], by simp [sitemapIndexLoop], List.nodup_nil, by simp⟩
  | cons sm rest ih =>
    intro urls vis log
    simp only [sitemapIndexLoop]
    split
    · exact ⟨[], by simp, by simp, List.nodup_nil, by simp⟩
    · split
      · exact ih urls vis log
      · split
        · exact ih urls vis log
        · split
          · exact ih urls vis log
          · obtain ⟨d1, hv1, hl1, hn1, hd1⟩ := hf ((findLoc sm.children).getD []) vis log
            rw [hv1, hl1]
            obtain ⟨d2, hv2, hl2, hn2, hd2⟩ := ih _ (vis ++ d1) (log ++ d1)
            refine ⟨d1 ++ d2, by rw [hv2, List.append_assoc], by rw [hl2, List.append_assoc],
              ?_, ?_⟩
            · rw [List.nodup_append]
              refine ⟨hn1, hn2, fun x hx1 hx2 => ?_⟩
              exact hd2 x hx2 (List.mem_append.mpr (Or.inr hx1))
            · intro x hx
              rcases List.mem_append.mp hx with hx1 | hx2
              · exact hd1 x hx1
              · intro hmem
                exact hd2 x hx2 (List.mem_append.mpr (Or.inl hmem))

/-- `fetchSitemapAux` satisfies the visited/log extension invariant at every
fuel value. -/
theorem fetchSitemapAux_inv (env : CrawlEnv) (allowedDomains : List PyStr) :
    ∀ fuel : Nat, FetchInv (fun u vis log =>
      fetchSitemapAux env allowedDomains fuel u vis log 0) ∧
      ∀ depth : Nat, FetchInv (fun u vis log =>
        fetchSitemapAux env allowedDomains fuel u vis log depth) := by
  intro fuel
  suffices h : ∀ fuel depth : Nat, FetchInv (fun u vis log =>
      fetchSitemapAux env allowedDomains fuel u vis log depth) by
    exact ⟨h fuel 0, h fuel⟩
  clear fuel
  intro fuel
  induction fuel with
  | zero =>
    intro depth u vis log
    refine ⟨[], ?_, ?_, List.nodup_nil, by simp⟩ <;>
      · simp only [fetchSitemapAux]
        split <;> simp
  | succ fuel' ih =>
    intro depth u vis log
    simp only [fetchSitemapAux]
    split
    · exact ⟨[], by simp, by simp, List.nodup_nil, by simp⟩
    · split
      · exact ⟨[], by simp, by simp, List.nodup_nil, by simp⟩
      · rename_i hfresh
        have hnotmem : normalize_url u ∉ vis := by
          intro hmem
          rw [(contains_iff_mem vis (normalize_url u)).mpr hmem] at hfresh
          exact hfresh rfl
        split
        · exact ⟨[normalize_url u], by simp, by simp, List.nodup_singleton _,
            by simpa using hnotmem⟩
        · rename_i root hroot
          split
          · obtain ⟨d2, hv2, hl2, hn2, hd2⟩ :=
              sitemapIndexLoop_inv _ (ih (depth + 1)) allowedDomains root.children []
                (vis ++ [normalize_url u]) (log ++ [normalize_url u])
            refine ⟨normalize_url u :: d2, ?_, ?_, ?_, ?_⟩
            · rw [hv2]
              simp
            · rw [hl2]
              simp
            · rw [List.nodup_cons]
              refine ⟨fun hmem => ?_, hn2⟩
              exact hd2 _ hmem (List.mem_append.mpr (Or.inr (List.mem_singleton.mpr rfl)))
            · intro x hx
              rcases List.mem_cons.mp hx with hx1 | hx2
              · rw [hx1]
                exact hnotmem
              · intro hmem
                exact hd2 x hx2 (List.mem_append.mpr (Or.inl hmem))
          · split
            · exact ⟨[normalize_url u], by simp, by simp, List.nodup_singleton _,
                by simpa using hnotmem⟩
            · exact ⟨[normalize_url u], by simp, by simp, List.nodup_singleton _,
                by simpa using hnotmem⟩

/-- Claim C6: `_fetch_sitemap_urls` is total (it is a Lean function), and on
every sitemap graph — self-referential ones included — the shared visited set
makes it fetch each normalized sitemap URL at most once per expansion: the
fetch log is duplicate-free, disjoint from the incoming visited set, and is
exactly the extension of the visited set. -/
theorem c6_sitemap_fetch_once (env : CrawlEnv) (allowedDomains : List PyStr)
    (u : PyStr) (visited : List PyStr) (depth : Nat) :
    (fetchSitemapUrls env allowedDomains u visited [] depth).2.1 =
        visited ++ (fetchSitemapUrls env allowedDomains u visited [] depth).2.2 ∧
      pyNodup (fetchSitemapUrls env allowedDomains u visited [] depth).2.2 = true ∧
      (fetchSitemapUrls env allowedDomains u visited [] depth).2.2.all
        (fun x => !(visited.contains x)) = true := by
  obtain ⟨d, hv, hl, hn, hd⟩ :=
    ((fetchSitemapAux_inv env allowedDomains (MAX_SITEMAP_DEPTH + 1 - depth)).2 depth)
      u visited []
  simp only [List.nil_append] at hl
  unfold fetchSitemapUrls
  rw [hl, hv]
  refine ⟨rfl, (pyNodup_iff d).mpr hn, ?_⟩
  rw [List.all_eq_true]
  intro x hx
  cases hc : visited.contains x
  · rfl
  · exact absurd ((contains_iff_mem visited x).mp hc) (hd x hx)

/-! ## C8: DNS failure short-circuits the HEAD probe -/

/-- Claim C8: in `_crawl_url`, a target whose host's DNS resolution fails (a
fresh `gaierror` verdict) never reaches the HEAD-probe step — no network event
is emitted at all — and the reported reason is the DNS-tagged variant
`dns_error[:code]` (which also satisfies the claim's `host_unreachable`-or-DNS
disjunction). -/
theorem c8_dns_short_circuit (env : NetEnv) (scorer : ScoreEnv) (caches : Caches)
    (url : PyStr) (sg : SeedGroup) (now prov ep : PyStr) (c : Option Int)
    (hscheme : (pyUrlparse url).scheme = ("http").data ∨
      (pyUrlparse url).scheme = ("https").data)
    (hnetloc : (pyUrlparse url).netloc ≠ [])
    (hhost : pyHostname (pyUrlparse url).netloc ≠ [])
    (hcache : caches.host.lookup (pyHostname (pyUrlparse url).netloc) = none)
    (hdns : env.dns (pyHostname (pyUrlparse url).netloc) = DnsOutcome.gaiError c) :
    (crawlUrl env scorer caches url sg now prov ep).1.1 = none ∧
    (crawlUrl env scorer caches url sg now prov ep).1.2 =
      some (match c with
        | some code => ("dns_error:").data ++ intRepr code
        | none => ("dns_error").data) ∧
    (crawlUrl env scorer caches url sg now prov ep).2.2 = [] := by
  have hR : isHostReachable env caches.host (pyHostname (pyUrlparse url).netloc) =
      ((false, some (match c with
        | some code => ("dns_error:").data ++ intRepr code
        | none => ("dns_error").data)),
       caches.host ++ [(pyHostname (pyUrlparse url).netloc,
        (false, some (match c with
          | some code => ("dns_error:").data ++ intRepr code
          | none => ("dns_error").data)))]) := by
    unfold isHostReachable
    rw [if_neg hhost, hcache]
    simp only [hdns]
    cases c <;> rfl
  have h0 : ¬(¬((pyUrlparse url).scheme = ("http").data ∨
      (pyUrlparse url).scheme = ("https").data) ∨ (pyUrlparse url).netloc = []) := by
    intro h
    rcases h with h | h
    · exact h hscheme
    · exact hnetloc h
  unfold crawlUrl
  rw [if_neg h0, hR]
  exact ⟨rfl, rfl, rfl⟩

/-- Witness for C8: a concrete URL against an environment whose DNS always
fails with `errno 2`. -/
theorem c8_witness :
    ((pyUrlparse (("http://h/x").data)).scheme = ("http").data ∨
      (pyUrlparse (("http://h/x").data)).scheme = ("https").data) ∧
    (pyUrlparse (("http://h/x").data)).netloc ≠ [] ∧
    pyHostname (pyUrlparse (("http://h/x").data)).netloc ≠ [] ∧
    (Caches.mk [] []).host.lookup (pyHostname (pyUrlparse (("http://h/x").data)).netloc) =
      none ∧
    netEnvDnsFail.dns (pyHostname (pyUrlparse (("http://h/x").data)).netloc) =
      DnsOutcome.gaiError (some 2) ∧
    (crawlUrl netEnvDnsFail scoreEnvZero (Caches.mk [] []) (("http://h/x").data) sgTest
        (("t").data) (("t").data) (("0").data)).1.1 = none ∧
    (crawlUrl netEnvDnsFail scoreEnvZero (Caches.mk [] []) (("http://h/x").data) sgTest
        (("t").data) (("t").data) (("0").data)).1.2 = some (("dns_error:2").data) ∧
    (crawlUrl netEnvDnsFail scoreEnvZero (Caches.mk [] []) (("http://h/x").data) sgTest
        (("t").data) (("t").data) (("0").data)).2.2 = [] := by
  have h := c8_dns_short_circuit netEnvDnsFail scoreEnvZero (Caches.mk [] [])
    (("http://h/x").data) sgTest (("t").data) (("t").data) (("0").data) (some 2)
    (Or.inl (by decide)) (by decide) (by decide) (by decide) (by decide)
  exact ⟨Or.inl (by decide), by decide, by decide, by decide, by decide,
    h.1, h.2.1, h.2.2⟩

/-! ## C10: invariants of emitted entries -/

/-- Claim C10: every entry emitted by a successful `_crawl_url` call has
`firstSeen = lastSeen` (both the call's single creation timestamp), status
`"active"`, `sourceUnavailable = False`, and an id equal to the UUIDv5 of the
normalized URL — so the id is a function of the normalized URL alone, and two
entries for the same normalized URL always carry the same id. -/
theorem c10_entry_invariants (env : NetEnv) (scorer : ScoreEnv) (caches : Caches)
    (url : PyStr) (sg : SeedGroup) (now prov ep : PyStr) :
    match (crawlUrl env scorer caches url sg now prov ep).1.1 with
    | some e =>
      e.firstSeen = now ∧ e.lastSeen = now ∧ e.firstSeen = e.lastSeen ∧
        e.status = ("active").data ∧ e.sourceUnavailable = false ∧
        e.id = uuid5Url (normalize_url url)
    | none => True := by
  unfold crawlUrl
  split
  · rename_i e heq
    by_cases h1 : ¬((pyUrlparse url).scheme = ("http").data ∨
        (pyUrlparse url).scheme = ("https").data) ∨ (pyUrlparse url).netloc = []
    · rw [if_pos h1] at heq
      simp at heq
    · rw [if_neg h1] at heq
      by_cases h2 :
          (!(isHostReachable env caches.host (pyHostname (pyUrlparse url).netloc)).1.1) = true
      · rw [if_pos h2] at heq
        simp at heq
      · rw [if_neg h2] at heq
        by_cases h3 : (!(probeUrlHead env caches.head url).1.1) = true
        · rw [if_pos h3] at heq
          simp at heq
        · rw [if_neg h3] at heq
          cases hfp : env.fetchPage url with
          | none =>
            rw [hfp] at heq
            simp at heq
          | some html =>
            rw [hfp] at heq
            dsimp only at heq
            by_cases h4 : html = []
            · rw [if_pos h4] at heq
              simp at heq
            · rw [if_neg h4] at heq
              by_cases h5 : env.extractContent html = []
              · rw [if_pos h5] at heq
                simp at heq
              · rw [if_neg h5] at heq
                by_cases h6 : env.extractHeadTitle html ≠ [] ∨ env.extractMetaDesc html ≠ []
                · rw [if_pos h6] at heq
                  rw [Option.some.injEq] at heq
                  subst heq
                  exact ⟨rfl, rfl, rfl, rfl, rfl, rfl⟩
                · rw [if_neg h6] at heq
                  rw [Option.some.injEq] at heq
                  subst heq
                  exact ⟨rfl, rfl, rfl, rfl, rfl, rfl⟩
  · trivial

/-! ## C9: the bare-origin specificity filter of `_collect_crawl_targets` -/

/-- Membership in the specific-origin accumulator. -/
theorem mem_specificAllowedOrigins_aux (urls : List PyStr) (u : PyStr)
    (hu : u ∈ urls) (hs : (pyUrlparse u).scheme ≠ []) (hn : (pyUrlparse u).netloc ≠ [])
    (hp1 : (pyUrlparse u).path ≠ []) (hp2 : (pyUrlparse u).path ≠ ['/']) :
    ∀ acc : List PyStr,
      originOf (pyUrlparse u).scheme (pyUrlparse u).netloc ∈
        urls.foldl (fun acc v =>
          let parsed := pyUrlparse v
          if parsed.scheme ≠ [] ∧ parsed.netloc ≠ [] ∧ parsed.path ≠ [] ∧ parsed.path ≠ ['/']
          then acc ++ [originOf parsed.scheme parsed.netloc] else acc) acc := by
  have hmono : ∀ (l : List PyStr) (acc : List PyStr) (x : PyStr), x ∈ acc →
      x ∈ l.foldl (fun acc v =>
        let parsed := pyUrlparse v
        if parsed.scheme ≠ [] ∧ parsed.netloc ≠ [] ∧ parsed.path ≠ [] ∧ parsed.path ≠ ['/']
        then acc ++ [originOf parsed.scheme parsed.netloc] else acc) acc := by
    intro l
    induction l with
    | nil => intro acc x hx; exact hx
    | cons v rest ih =>
      intro acc x hx
      simp only [List.foldl]
      split
      · exact ih _ x (List.mem_append.mpr (Or.inl hx))
      · exact ih _ x hx
  induction urls with
  | nil => cases hu
  | cons v rest ih =>
    intro acc
    simp only [List.foldl]
    rcases List.mem_cons.mp hu with hv | hrest
    · subst hv
      rw [if_pos ⟨hs, hn, hp1, hp2⟩]
      exact hmono rest _ _ (List.mem_append.mpr (Or.inr (List.mem_singleton.mpr rfl)))
    · split
      · exact ih hrest _
      · exact ih hrest _

/-- The step equation of `collectLoop` with the bare-origin skip condition
flattened: the `origin` value is empty exactly when scheme or netloc is, and
is otherwise the nonempty `originOf` string. -/
theorem collectLoop_cons (specificOrigins : List PyStr) (u : PyStr)
    (rest seen targets : List PyStr) :
    collectLoop specificOrigins (u :: rest) seen targets =
      (if seen.contains (normalize_url u) then collectLoop specificOrigins rest seen targets
       else if (pyUrlparse (normalize_url u)).scheme ≠ [] ∧
           (pyUrlparse (normalize_url u)).netloc ≠ [] ∧
           ((pyUrlparse (normalize_url u)).path = [] ∨
             (pyUrlparse (normalize_url u)).path = ['/']) ∧
           specificOrigins.contains
             (originOf (pyUrlparse (normalize_url u)).scheme
               (pyUrlparse (normalize_url u)).netloc) = true then
         collectLoop specificOrigins rest (seen ++ [normalize_url u]) targets
       else if shouldSkipLink [] (normalize_url u) then
         collectLoop specificOrigins rest (seen ++ [normalize_url u]) targets
       else collectLoop specificOrigins rest (seen ++ [normalize_url u])
         (targets ++ [normalize_url u])) := by
  simp only [collectLoop]
  generalize normalize_url u = nu
  by_cases hc : (pyUrlparse nu).scheme ≠ [] ∧ (pyUrlparse nu).netloc ≠ []
  · rw [if_pos hc]
    have hne : originOf (pyUrlparse nu).scheme (pyUrlparse nu).netloc ≠ [] := by
      unfold originOf
      intro h
      have := List.append_eq_nil.mp h
      cases this.2
    by_cases hrest : ((pyUrlparse nu).path = [] ∨ (pyUrlparse nu).path = ['/']) ∧
        specificOrigins.contains
          (originOf (pyUrlparse nu).scheme (pyUrlparse nu).netloc) = true
    · have hA : originOf (pyUrlparse nu).scheme (pyUrlparse nu).netloc ≠ [] ∧
          ((pyUrlparse nu).path = [] ∨ (pyUrlparse nu).path = ['/']) ∧
          specificOrigins.contains
            (originOf (pyUrlparse nu).scheme (pyUrlparse nu).netloc) = true :=
        ⟨hne, hrest.1, hrest.2⟩
      have hB : (pyUrlparse nu).scheme ≠ [] ∧ (pyUrlparse nu).netloc ≠ [] ∧
          ((pyUrlparse nu).path = [] ∨ (pyUrlparse nu).path = ['/']) ∧
          specificOrigins.contains
            (originOf (pyUrlparse nu).scheme (pyUrlparse nu).netloc) = true :=
        ⟨hc.1, hc.2, hrest.1, hrest.2⟩
      rw [if_pos hA, if_pos hB]
    · have h1 : ¬(originOf (pyUrlparse nu).scheme (pyUrlparse nu).netloc ≠ [] ∧
          ((pyUrlparse nu).path = [] ∨ (pyUrlparse nu).path = ['/']) ∧
          specificOrigins.contains
            (originOf (pyUrlparse nu).scheme (pyUrlparse nu).netloc) = true) := by
        intro h
        exact hrest ⟨h.2.1, h.2.2⟩
      have h2 : ¬((pyUrlparse nu).scheme ≠ [] ∧ (pyUrlparse nu).netloc ≠ [] ∧
          ((pyUrlparse nu).path = [] ∨ (pyUrlparse nu).path = ['/']) ∧
          specificOrigins.contains
            (originOf (pyUrlparse nu).scheme (pyUrlparse nu).netloc) = true) := by
        intro h
        exact hrest ⟨h.2.2.1, h.2.2.2⟩
      rw [if_neg h1, if_neg h2]
  · rw [if_neg hc]
    have h1 : ¬(([] : PyStr) ≠ [] ∧
        ((pyUrlparse nu).path = [] ∨ (pyUrlparse nu).path = ['/']) ∧
        specificOrigins.contains ([] : PyStr) = true) := by
      intro h
      exact h.1 rfl
    have h2 : ¬((pyUrlparse nu).scheme ≠ [] ∧ (pyUrlparse nu).netloc ≠ [] ∧
        ((pyUrlparse nu).path = [] ∨ (pyUrlparse nu).path = ['/']) ∧
        specificOrigins.contains
          (originOf (pyUrlparse nu).scheme (pyUrlparse nu).netloc) = true) := by
      intro h
      exact hc ⟨h.1, h.2.1⟩
    rw [if_neg h1, if_neg h2]

/-- Every element appended by `collectLoop` beyond the incoming `targets`
survived the bare-origin specificity filter. -/
theorem collectLoop_output_passes (specificOrigins : List PyStr) (l : List PyStr) :
    ∀ (seen targets : List PyStr),
      (∀ v ∈ targets,
        ¬((pyUrlparse v).scheme ≠ [] ∧ (pyUrlparse v).netloc ≠ [] ∧
          ((pyUrlparse v).path = [] ∨ (pyUrlparse v).path = ['/']) ∧
          specificOrigins.contains
            (originOf (pyUrlparse v).scheme (pyUrlparse v).netloc) = true)) →
      ∀ v ∈ collectLoop specificOrigins l seen targets,
        ¬((pyUrlparse v).scheme ≠ [] ∧ (pyUrlparse v).netloc ≠ [] ∧
          ((pyUrlparse v).path = [] ∨ (pyUrlparse v).path = ['/']) ∧
          specificOrigins.contains
            (originOf (pyUrlparse v).scheme (pyUrlparse v).netloc) = true) := by
  induction l with
  | nil =>
    intro seen targets h v hv
    simp only [collectLoop] at hv
    exact h v hv
  | cons u rest ih =>
    intro seen targets h v hv
    rw [collectLoop_cons] at hv
    generalize hN : normalize_url u = nu at hv
    split at hv
    · exact ih seen targets h v hv
    · split at hv
      · exact ih _ targets h v hv
      · split at hv
        · exact ih _ targets h v hv
        · rename_i hskip1 hskip2
          refine ih _ _ (fun w hw => ?_) v hv
          rcases List.mem_append.mp hw with hw1 | hw2
          · exact h w hw1
          · rw [List.mem_singleton.mp hw2]
            exact hskip1

/-- `collectLoop` only extends its `targets` accumulator. -/
theorem collectLoop_mono (specificOrigins : List PyStr) (l : List PyStr) :
    ∀ (seen targets : List PyStr) (x : PyStr), x ∈ targets →
      x ∈ collectLoop specificOrigins l seen targets := by
  induction l with
  | nil =>
    intro seen targets x hx
    simpa only [collectLoop] using hx
  | cons u rest ih =>
    intro seen targets x hx
    rw [collectLoop_cons]
    generalize normalize_url u = nu
    split
    · exact ih seen targets x hx
    · split
      · exact ih _ targets x hx
      · split
        · exact ih _ targets x hx
        · exact ih _ _ x (List.mem_append.mpr (Or.inl hx))

/-- A candidate whose normalization passes both filters ends up in the
collected list (possibly represented by an earlier candidate with the same
normalization). -/
theorem collectLoop_keeps (specificOrigins : List PyStr) (l : List PyStr) :
    ∀ (seen targets : List PyStr) (w : PyStr), w ∈ l →
      (∀ x ∈ seen,
        ¬((pyUrlparse x).scheme ≠ [] ∧ (pyUrlparse x).netloc ≠ [] ∧
          ((pyUrlparse x).path = [] ∨ (pyUrlparse x).path = ['/']) ∧
          specificOrigins.contains
            (originOf (pyUrlparse x).scheme (pyUrlparse x).netloc) = true) →
        shouldSkipLink [] x = false → x ∈ targets) →
      ¬((pyUrlparse (normalize_url w)).scheme ≠ [] ∧
        (pyUrlparse (normalize_url w)).netloc ≠ [] ∧
        ((pyUrlparse (normalize_url w)).path = [] ∨
          (pyUrlparse (normalize_url w)).path = ['/']) ∧
        specificOrigins.contains
          (originOf (pyUrlparse (normalize_url w)).scheme
            (pyUrlparse (normalize_url w)).netloc) = true) →
      shouldSkipLink [] (normalize_url w) = false →
      normalize_url w ∈ collectLoop specificOrigins l seen targets := by
  induction l with
  | nil => intro seen targets w hw; cases hw
  | cons u rest ih =>
    intro seen targets w hw hseenInv hpass1 hpass2
    rw [collectLoop_cons]
    rcases List.mem_cons.mp hw with hwu | hwrest
    · subst hwu
      generalize hN : normalize_url w = nu at hpass1 hpass2 ⊢
      by_cases hseen : seen.contains nu = true
      · rw [if_pos hseen]
        exact collectLoop_mono specificOrigins rest _ _ _
          (hseenInv _ ((contains_iff_mem _ _).mp hseen) hpass1 hpass2)
      · have h3 : ¬shouldSkipLink [] nu = true := by
          rw [hpass2]
          simp
        rw [if_neg hseen, if_neg hpass1, if_neg h3]
        exact collectLoop_mono specificOrigins rest _ _ _
          (List.mem_append.mpr (Or.inr (List.mem_singleton.mpr rfl)))
    · generalize hN : normalize_url u = nu
      by_cases hseen : seen.contains nu = true
      · rw [if_pos hseen]
        exact ih seen targets w hwrest hseenInv hpass1 hpass2
      · rw [if_neg hseen]
        by_cases hskip : (pyUrlparse nu).scheme ≠ [] ∧ (pyUrlparse nu).netloc ≠ [] ∧
            ((pyUrlparse nu).path = [] ∨ (pyUrlparse nu).path = ['/']) ∧
            specificOrigins.contains
              (originOf (pyUrlparse nu).scheme (pyUrlparse nu).netloc) = true
        · rw [if_pos hskip]
          refine ih _ targets w hwrest (fun x hx hx1 hx2 => ?_) hpass1 hpass2
          rcases List.mem_append.mp hx with hx2m | hx2m
          · exact hseenInv x hx2m hx1 hx2
          · rw [List.mem_singleton.mp hx2m] at hx1 ⊢
            exact absurd hskip hx1
        · rw [if_neg hskip]
          by_cases hskip2 : shouldSkipLink [] nu = true
          · rw [if_pos hskip2]
            refine ih _ targets w hwrest (fun x hx hx1 hx2 => ?_) hpass1 hpass2
            rcases List.mem_append.mp hx with hx2m | hx2m
            · exact hseenInv x hx2m hx1 hx2
            · rw [List.mem_singleton.mp hx2m] at hx2
              rw [hx2] at hskip2
              cases hskip2
          · rw [if_neg hskip2]
            refine ih _ _ w hwrest (fun x hx hx1 hx2 => ?_) hpass1 hpass2
            rcases List.mem_append.mp hx with hx2m | hx2m
            · exact List.mem_append.mpr (Or.inl (hseenInv x hx2m hx1 hx2))
            · exact List.mem_append.mpr (Or.inr hx2m)

/-- Membership is unchanged by order-preserving dedup. -/
theorem mem_dedupKeepOrder (l : List PyStr) (x : PyStr) :
    x ∈ dedupKeepOrder l ↔ x ∈ l := by
  have key : ∀ (l acc : List PyStr),
      (x ∈ l.foldl (fun acc u => if acc.contains u then acc else acc ++ [u]) acc ↔
        x ∈ acc ∨ x ∈ l) := by
    intro l
    induction l with
    | nil => intro acc; simp
    | cons u rest ih =>
      intro acc
      simp only [List.foldl]
      by_cases hc : acc.contains u = true
      · rw [if_pos hc, ih]
        have hm : u ∈ acc := (contains_iff_mem _ _).mp hc
        constructor
        · rintro (h | h)
          · exact Or.inl h
          · exact Or.inr (List.mem_cons_of_mem u h)
        · rintro (h | h)
          · exact Or.inl h
          · rcases List.mem_cons.mp h with h | h
            · exact Or.inl (h ▸ hm)
            · exact Or.inr h
      · rw [if_neg hc, ih]
        constructor
        · rintro (h | h)
          · rcases List.mem_append.mp h with h | h
            · exact Or.inl h
            · exact Or.inr (List.mem_cons.mpr (Or.inl (List.mem_singleton.mp h)))
          · exact Or.inr (List.mem_cons_of_mem u h)
        · rintro (h | h)
          · exact Or.inl (List.mem_append.mpr (Or.inl h))
          · rcases List.mem_cons.mp h with h | h
            · exact Or.inl (List.mem_append.mpr (Or.inr (List.mem_singleton.mpr h)))
            · exact Or.inr h
  unfold dedupKeepOrder
  rw [key l []]
  simp

/-- Claim C9 (as stated) is false: with derived targets
`["https://a.de/", "https://a.de//"]` the double-slash URL is a "more specific
path" (its path `//` is neither empty nor `/`), so the bare origin is dropped —
but the specific URL itself normalizes to the bare origin and is dropped too,
so the collected target list is empty and nothing is kept. -/
theorem c9_counterexample :
    ("https://a.de//").data ∈ deriveAllowedUrls envSlash sgTest ∧
    (pyUrlparse (("https://a.de//").data)).scheme ≠ [] ∧
    (pyUrlparse (("https://a.de//").data)).netloc ≠ [] ∧
    (pyUrlparse (("https://a.de//").data)).path ≠ [] ∧
    (pyUrlparse (("https://a.de//").data)).path ≠ ['/'] ∧
    collectCrawlTargets envSlash [] sgTest = [] := by
  exact ⟨by decide, by decide, by decide, by decide, by decide, by decide⟩

/-- Claim C9, amended: the exclusion half holds unconditionally — whenever a
URL with a specific path (neither empty nor `/`) under some origin appears in
the derived robots/sitemap lists, no bare-origin URL of that origin survives
into the collected target list.  The keep half holds provided the specific
candidate still passes the filters after normalization: its normalized form
must itself have a non-bare path (with scheme and netloc, unless it escapes
the specificity filter entirely) and must not contain an excluded keyword;
then its normalized form is in the collected list. -/
theorem c9_specificity_filter :
    (∀ (env : CrawlEnv) (records : List FailureRecord) (sg : SeedGroup) (u : PyStr),
      u ∈ deriveAllowedUrls env sg ++ deriveSitemapUrls env sg →
      (pyUrlparse u).scheme ≠ [] → (pyUrlparse u).netloc ≠ [] →
      (pyUrlparse u).path ≠ [] → (pyUrlparse u).path ≠ ['/'] →
      ∀ v ∈ collectCrawlTargets env records sg,
        ¬(((pyUrlparse v).path = [] ∨ (pyUrlparse v).path = ['/']) ∧
          (pyUrlparse v).scheme ≠ [] ∧ (pyUrlparse v).netloc ≠ [] ∧
          originOf (pyUrlparse v).scheme (pyUrlparse v).netloc =
            originOf (pyUrlparse u).scheme (pyUrlparse u).netloc)) ∧
    (∀ (env : CrawlEnv) (records : List FailureRecord) (sg : SeedGroup) (w : PyStr),
      w ∈ sg.startUrls ++ deriveAllowedUrls env sg ++ deriveSitemapUrls env sg ++
        loadFailedUrls records sg.name →
      ¬((pyUrlparse (normalize_url w)).scheme ≠ [] ∧
        (pyUrlparse (normalize_url w)).netloc ≠ [] ∧
        ((pyUrlparse (normalize_url w)).path = [] ∨
          (pyUrlparse (normalize_url w)).path = ['/']) ∧
        (specificAllowedOrigins
            (deriveAllowedUrls env sg ++ deriveSitemapUrls env sg)).contains
          (originOf (pyUrlparse (normalize_url w)).scheme
            (pyUrlparse (normalize_url w)).netloc) = true) →
      shouldSkipLink [] (normalize_url w) = false →
      normalize_url w ∈ collectCrawlTargets env records sg) := by
  constructor
  · intro env records sg u hu hs hn hp1 hp2 v hv hcon
    simp only [collectCrawlTargets] at hv
    have hpass := collectLoop_output_passes
      (specificAllowedOrigins (deriveAllowedUrls env sg ++ deriveSitemapUrls env sg)) _ _ _
      (fun x hx => absurd hx (List.not_mem_nil x)) v hv
    apply hpass
    refine ⟨hcon.2.1, hcon.2.2.1, hcon.1, ?_⟩
    rw [hcon.2.2.2]
    apply (contains_iff_mem _ _).mpr
    have := mem_specificAllowedOrigins_aux
      (deriveAllowedUrls env sg ++ deriveSitemapUrls env sg) u hu hs hn hp1 hp2 []
    simpa only [specificAllowedOrigins] using this
  · intro env records sg w hw hpass1 hpass2
    simp only [collectCrawlTargets]
    apply collectLoop_keeps _ _ [] [] w
    · exact (mem_dedupKeepOrder _ w).mpr (by simpa using hw)
    · intro x hx
      cases hx
    · exact hpass1
    · exact hpass2

/-- Witness for the amended C9: with derived targets
`["https://a.de/", "https://a.de/leistungen"]` the collector keeps the
specific path. -/
theorem c9_witness :
    (("https://a.de/leistungen").data ∈ sgTest.startUrls ++ deriveAllowedUrls envKeep sgTest ++
      deriveSitemapUrls envKeep sgTest ++ loadFailedUrls [] sgTest.name) ∧
    normalize_url (("https://a.de/leistungen").data) ∈ collectCrawlTargets envKeep [] sgTest :=
  ⟨by decide,
    c9_specificity_filter.2 envKeep [] sgTest (("https://a.de/leistungen").data)
      (by decide) (by decide) (by decide)⟩


/-! ## Claim C2: idempotence of normalize_url -/

/-- C2 counterexample: `normalize_url` is not idempotent; a path ending in a
double slash loses one slash per pass. -/
theorem c2_counterexample :
    ¬ normalize_url (normalize_url (("http://h/x//").data)) =
      normalize_url (("http://h/x//").data) := by
  decide

/-- C2 (corrected): `normalize_url` is idempotent for URLs that parse with an
`http` or `https` scheme, a nonempty lowercased/port-stripped netloc that does
not itself end in `:80` or `:443`, a path part without `;` and not ending in a
double slash. -/
theorem c2_idempotent_restricted (u : PyStr)
    (h1 : (pyUrlparse u).scheme = ("http").data ∨ (pyUrlparse u).scheme = ("https").data)
    (h2 : ¬ pyStripPort (pyLower (pyUrlparse u).netloc) = [])
    (h3 : ((pyUrlsplit u).pathPart.contains ';') = false)
    (h4 : pyEndsWith (pyUrlparse u).path (("//").data) = false)
    (h5 : pyEndsWith (pyStripPort (pyLower (pyUrlparse u).netloc)) ((":80").data) = false)
    (h6 : pyEndsWith (pyStripPort (pyLower (pyUrlparse u).netloc)) ((":443").data) = false) :
    normalize_url (normalize_url u) = normalize_url u := by
  have hnoparams : ¬ ((pyUrlsplit u).scheme ∈ usesParams ∧
      ((pyUrlsplit u).pathPart.contains ';') = true) := by
    intro hc
    rw [h3] at hc
    exact Bool.false_ne_true hc.2
  have hP : pyUrlparse u = ⟨(pyUrlsplit u).scheme, (pyUrlsplit u).netloc,
      (pyUrlsplit u).pathPart, [], (pyUrlsplit u).query, (pyUrlsplit u).fragment⟩ := by
    unfold pyUrlparse
    dsimp only
    rw [if_neg hnoparams]
  rw [hP] at h1 h2 h4 h5 h6
  dsimp only at h1 h2 h4 h5 h6
  have hs_ne : ¬ (pyUrlsplit u).scheme = [] := by
    rcases h1 with h | h <;> rw [h] <;> decide
  have hA := normalize_unfold u hnoparams hs_ne h2
  have hcc := pyUrlsplit_component_chars u
  have hsf := pyUrlsplit_scheme_facts u
  obtain ⟨wps, hwps⟩ := pyStripTrailingSlash_prefix (pyUrlsplit u).pathPart
  have hnl_ne : ¬ (pyUrlsplit u).netloc = [] := by
    intro hnil
    apply h2
    rw [hnil]
    decide
  have hpa : ∀ c ∈ pyStripTrailingSlash (pyUrlsplit u).pathPart,
      ¬ c = '#' ∧ ¬ c = '?' ∧ isRemovedByte c = false := by
    intro c hc
    apply hcc.2.2 c
    rw [hwps]
    exact List.mem_append.mpr (Or.inl hc)
  have hpa_head : ∀ c t, pyStripTrailingSlash (pyUrlsplit u).pathPart = c :: t →
      c = '/' := by
    intro c t hct
    apply pyUrlsplit_path_head_slash u hnl_ne c (t ++ wps)
    rw [hwps, hct]
    rfl
  have hQchars : ∀ c ∈ pyUrlencode (pySortPairs ((pyParseQs (pyUrlsplit u).query).filter
      (fun kv => !(trackingParams.contains kv.1)))),
      33 ≤ c.toNat ∧ ¬ c.toNat = 35 ∧ ¬ c.toNat = 58 ∧ ¬ c.toNat = 63 := by
    intro c hc
    have := mem_pyUrlencode_toNat _ c hc
    exact ⟨this.1, this.2.2.1, this.2.2.2.2.1, this.2.2.2.2.2.2⟩
  have hsplitN := urlsplit_full_reparse (pyUrlsplit u).scheme
    (pyStripPort (pyLower (pyUrlsplit u).netloc))
    (pyStripTrailingSlash (pyUrlsplit u).pathPart)
    (pyUrlencode (pySortPairs ((pyParseQs (pyUrlsplit u).query).filter
      (fun kv => !(trackingParams.contains kv.1)))))
    hs_ne hcc.1 hsf.2 hsf.1
    (netloc_chars_preserved _ hcc.2.1) hpa hpa_head hQchars
  rw [← hA] at hsplitN
  have hpacontains : ((pyStripTrailingSlash (pyUrlsplit u).pathPart).contains ';') =
      false := by
    rw [Bool.eq_false_iff]
    intro hcon
    have hcon2 : List.elem ';' (pyStripTrailingSlash (pyUrlsplit u).pathPart) = true := hcon
    have hmem : (';') ∈ pyStripTrailingSlash (pyUrlsplit u).pathPart :=
      List.mem_of_elem_eq_true hcon2
    have hmem2 : (';') ∈ (pyUrlsplit u).pathPart := by
      rw [hwps]
      exact List.mem_append.mpr (Or.inl hmem)
    have hct : List.contains (pyUrlsplit u).pathPart ';' = true :=
      List.elem_eq_true_of_mem hmem2
    rw [h3] at hct
    exact Bool.false_ne_true hct
  have hnoparamsN : ¬ ((pyUrlsplit (normalize_url u)).scheme ∈ usesParams ∧
      (((pyUrlsplit (normalize_url u)).pathPart).contains ';') = true) := by
    rw [hsplitN]
    dsimp only
    intro hc
    rw [hpacontains] at hc
    exact Bool.false_ne_true hc.2
  have hm_fix : pyStripPort (pyLower (pyStripPort (pyLower (pyUrlsplit u).netloc))) =
      pyStripPort (pyLower (pyUrlsplit u).netloc) := by
    rw [pyStripPort_pyLower_fix]
    exact pyStripPort_fix _ h5 h6
  have hs_neN : ¬ (pyUrlsplit (normalize_url u)).scheme = [] := by
    rw [hsplitN]
    exact hs_ne
  have hm_neN : ¬ pyStripPort (pyLower (pyUrlsplit (normalize_url u)).netloc) = [] := by
    rw [hsplitN]
    dsimp only
    rw [hm_fix]
    exact h2
  have hB := normalize_unfold (normalize_url u) hnoparamsN hs_neN hm_neN
  rw [hsplitN] at hB
  dsimp only at hB
  rw [hm_fix, pyStripTrailingSlash_fix _ h4, urlencode_cleaned_fix] at hB
  rw [hB, ← hA]

/-- Witness for C2: a concrete URL satisfying all hypotheses of the restricted
idempotence theorem. -/
theorem c2_witness :
    ((pyUrlparse (("HTTP://Ex.com:80/A/b/?utm_source=x&q=1#f").data)).scheme =
        ("http").data ∨
      (pyUrlparse (("HTTP://Ex.com:80/A/b/?utm_source=x&q=1#f").data)).scheme =
        ("https").data) ∧
    normalize_url (normalize_url (("HTTP://Ex.com:80/A/b/?utm_source=x&q=1#f").data)) =
      normalize_url (("HTTP://Ex.com:80/A/b/?utm_source=x&q=1#f").data) :=
  ⟨by decide, c2_idempotent_restricted (("HTTP://Ex.com:80/A/b/?utm_source=x&q=1#f").data)
    (by decide) (by decide) (by decide) (by decide) (by decide) (by decide)⟩

/-! ## Claim C3: tracking-parameter stripping -/

/-- C3 counterexample: `utm_id` matches the spec's `utm_*` pattern but is not in
the denylist and is kept, and the blank-valued parameter `a=` is dropped rather
than kept. -/
theorem c3_counterexample :
    normalize_url (("https://x.com/p?utm_id=1&a=&b=2").data) =
      (("https://x.com/p?b=2&utm_id=1").data) ∧
    ¬ normalize_url (("https://x.com/p?utm_id=1&a=&b=2").data) =
      (("https://x.com/p?a=&b=2").data) := by
  constructor <;> decide

/-- C3 (corrected): for every URL, `normalize_url` preserves the scheme, and
the parsed query of the normalized URL equals the parsed query of the original
with exactly the eleven denylisted tracking names removed, sorted by key.
`parse_qs` itself drops parameters with blank values, and only the fixed
denylist (not every `utm_*` name) is removed. -/
theorem c3_scheme_and_query (u : PyStr) :
    (pyUrlparse (normalize_url u)).scheme = (pyUrlparse u).scheme ∧
    pyParseQs ((pyUrlparse (normalize_url u)).query) =
      pySortPairs ((pyParseQs ((pyUrlparse u).query)).filter
        (fun kv => !(trackingParams.contains kv.1))) := by
  have hparts := pyUrlparse_parts u
  have hpartsN := pyUrlparse_parts (normalize_url u)
  have hcc := pyUrlsplit_component_chars u
  have hsf := pyUrlsplit_scheme_facts u
  obtain ⟨wp, hwp⟩ := hparts.2.2.2.2.1
  obtain ⟨ws, hws⟩ := pyStripTrailingSlash_prefix (pyUrlparse u).path
  have hNdef : normalize_url u = pyUrlunparse (pyUrlparse u).scheme
      (pyStripPort (pyLower (pyUrlparse u).netloc))
      (pyStripTrailingSlash (pyUrlparse u).path)
      (pyUrlparse u).params
      (pyUrlencode (pySortPairs ((pyParseQs (pyUrlparse u).query).filter
        (fun kv => !(trackingParams.contains kv.1))))) [] := rfl
  have hs' : ∀ c ∈ (pyUrlparse u).scheme,
      isSchemeChar c = true ∧ 43 ≤ c.toNat ∧ c.toNat ≤ 122 := by
    rw [hparts.1]
    exact hcc.1
  have hs_head' : ∀ c t, (pyUrlparse u).scheme = c :: t → Char.isAlpha c = true := by
    rw [hparts.1]
    exact hsf.2
  have hs_low' : pyLower (pyUrlparse u).scheme = (pyUrlparse u).scheme := by
    rw [hparts.1]
    exact hsf.1
  have hnl' : ∀ c ∈ pyStripPort (pyLower (pyUrlparse u).netloc),
      isNetlocDelim c = false ∧ isRemovedByte c = false := by
    rw [hparts.2.1]
    exact netloc_chars_preserved _ hcc.2.1
  have hpathmem : ∀ c ∈ pyStripTrailingSlash (pyUrlparse u).path,
      c ∈ (pyUrlsplit u).pathPart := by
    intro c hc
    rw [hwp, hws]
    exact List.mem_append.mpr (Or.inl (List.mem_append.mpr (Or.inl hc)))
  have hpath' : ∀ c ∈ pyStripTrailingSlash (pyUrlparse u).path,
      ¬ c = '#' ∧ ¬ c = '?' ∧ isRemovedByte c = false :=
    fun c hc => hcc.2.2 c (hpathmem c hc)
  have hparams' : ∀ c ∈ (pyUrlparse u).params,
      ¬ c = '#' ∧ ¬ c = '?' ∧ isRemovedByte c = false :=
    fun c hc => hcc.2.2 c (hparts.2.2.2.2.2 c hc)
  have hq' : ∀ c ∈ pyUrlencode (pySortPairs ((pyParseQs (pyUrlparse u).query).filter
      (fun kv => !(trackingParams.contains kv.1)))),
      ¬ c = '#' ∧ ¬ c = ':' ∧ ¬ c = '?' ∧ isRemovedByte c = false ∧ 33 ≤ c.toNat := by
    intro c hc
    have h := mem_pyUrlencode_toNat _ c hc
    refine ⟨?_, ?_, ?_, isRemovedByte_eq_false_of_toNat c (by omega) (by omega) (by omega),
      h.1⟩
    · intro he
      exact h.2.2.1 (by rw [he]; rfl)
    · intro he
      exact h.2.2.2.2.1 (by rw [he]; rfl)
    · intro he
      exact h.2.2.2.2.2.2 (by rw [he]; rfl)
  have hhead' : (pyUrlparse u).scheme = [] →
      ∀ c t, pyStripTrailingSlash (pyUrlparse u).path = c :: t →
      isC0OrSpace c = false := by
    intro hs0 c t hct
    have hs0' : (pyUrlsplit u).scheme = [] := by
      rw [← hparts.1]
      exact hs0
    have hPP : (pyUrlsplit u).pathPart = c :: ((t ++ ws) ++ wp) := by
      rw [hwp, hws, hct]
      rfl
    have h32 := pyUrlsplit_path_head_gt32 u hs0' c _ hPP
    rw [Bool.eq_false_iff]
    intro hC0
    rw [isC0OrSpace_iff] at hC0
    omega
  have hblk' : (pyUrlparse u).scheme = [] →
      ∀ a b2, pyStripTrailingSlash (pyUrlparse u).path = a ++ ':' :: b2 →
      (∀ y ∈ a, ¬ y = ':') →
      ¬(0 < a.length ∧
        (((pyStripTrailingSlash (pyUrlparse u).path).take 1).all Char.isAlpha) = true ∧
        (a.all isSchemeChar) = true) := by
    intro hs0 a b2 hdec hafree hcond
    have hs0' : (pyUrlsplit u).scheme = [] := by
      rw [← hparts.1]
      exact hs0
    obtain ⟨a0, a', ha0⟩ : ∃ a0 a', a = a0 :: a' := by
      cases ha : a with
      | nil =>
        rw [ha] at hcond
        exact absurd hcond.1 (by simp)
      | cons a0 a' => exact ⟨a0, a', rfl⟩
    have hPP : (pyUrlsplit u).pathPart = a ++ ':' :: ((b2 ++ ws) ++ wp) := by
      rw [hwp, hws, hdec]
      simp [List.append_assoc]
    have htk : ((pyStripTrailingSlash (pyUrlparse u).path).take 1) = [a0] := by
      rw [hdec, ha0]
      rfl
    have halpha : Char.isAlpha a0 = true := by
      have h21 := hcond.2.1
      rw [htk] at h21
      simpa using h21
    obtain ⟨url2, url3, pq, hsst, hnst, hup, hfree⟩ := pyUrlsplit_struct u
    have hu2 : url2 = (u.dropWhile isC0OrSpace).filter (fun c => !(isRemovedByte c)) := by
      rcases hsst with ⟨_, h2⟩ | ⟨aa, bb, heq2, _, hlen, _, _, hsch, _⟩
      · exact h2
      · rw [hs0'] at hsch
        exfalso
        cases haa : aa with
        | nil =>
          rw [haa] at hlen
          cases hlen
        | cons z zs =>
          rw [haa] at hsch
          cases hsch
    rcases hnst with ⟨hctake, hnet, hu3⟩ | ⟨hnet, hu3⟩
    · have hdwh : (url2.drop 2).dropWhile (fun c => !(isNetlocDelim c)) =
          a0 :: ((a' ++ ':' :: ((b2 ++ ws) ++ wp)) ++ pq) := by
        rw [← hu3, hup, hPP, ha0]
        rfl
      have hdel := dropWhile_head_false _ _ _ _ hdwh
      have hdel2 : isNetlocDelim a0 = true := by
        simpa using hdel
      rw [isNetlocDelim_iff] at hdel2
      have ha0mem : a0 ∈ (pyUrlsplit u).pathPart := by
        rw [hPP, ha0]
        exact List.mem_cons_self _ _
      have hfr := hfree a0 ha0mem
      have h35 : ¬ a0.toNat = 35 := fun he => hfr.1 (char_eq_of_toNat_eq (by rw [he]; rfl))
      have h63 : ¬ a0.toNat = 63 := fun he => hfr.2 (char_eq_of_toNat_eq (by rw [he]; rfl))
      have h47 : a0.toNat = 47 := by omega
      have ha0s : a0 = '/' := char_eq_of_toNat_eq (by rw [h47]; rfl)
      rw [ha0s] at halpha
      exact absurd halpha (by decide)
    · have hurl1 : (u.dropWhile isC0OrSpace).filter (fun c => !(isRemovedByte c)) =
          a ++ ':' :: (((b2 ++ ws) ++ wp) ++ pq) := by
        rw [← hu2, ← hu3, hup, hPP]
        simp [List.append_assoc]
      have hblocked := pyUrlsplit_scheme_nil_blocked u hs0' a _ hurl1 hafree
      apply hblocked
      refine ⟨hcond.1, ?_, hcond.2.2⟩
      have htk2 : (((u.dropWhile isC0OrSpace).filter (fun c => !(isRemovedByte c))).take 1) =
          [a0] := by
        rw [hurl1, ha0]
        rfl
      rw [htk2]
      rw [htk] at hcond
      exact hcond.2.1
  have hschemeN := unparse_split_scheme (pyUrlparse u).scheme
    (pyStripPort (pyLower (pyUrlparse u).netloc))
    (pyStripTrailingSlash (pyUrlparse u).path)
    (pyUrlparse u).params
    (pyUrlencode (pySortPairs ((pyParseQs (pyUrlparse u).query).filter
      (fun kv => !(trackingParams.contains kv.1)))))
    hs' hs_head' hs_low' hnl' hpath' hparams' hq' hhead' hblk'
  have hqueryN := unparse_split_query (pyUrlparse u).scheme
    (pyStripPort (pyLower (pyUrlparse u).netloc))
    (pyStripTrailingSlash (pyUrlparse u).path)
    (pyUrlparse u).params
    (pyUrlencode (pySortPairs ((pyParseQs (pyUrlparse u).query).filter
      (fun kv => !(trackingParams.contains kv.1)))))
    hs' hnl' hpath' hparams' hq' hhead'
  rw [← hNdef] at hschemeN hqueryN
  constructor
  · rw [hpartsN.1]
    exact hschemeN
  · rw [hpartsN.2.2.1, hqueryN, hparts.2.2.1]
    exact sorted_cleaned_params_fix (pyUrlsplit u).query |>.1

end Systemfehler
